import Mathlib

/-!
Verification model of the blade-html template engine.

The TypeScript sources are embedded shallowly:

* strings are lists of characters (type Str below);
* JavaScript runtime values are the inductive JVal;
* every JavaScript regular expression used by the engine is transcribed
  into a small pattern AST (Pat) and executed by a backtracking matcher
  (Pat.runs) that enumerates alternatives in the exact priority order of
  the JavaScript engine (lazy stars shortest-first, greedy stars
  longest-first, alternation left-to-right); the first element of the
  enumeration is the JavaScript match;
* String.prototype.replace with a global regex is replaceG, String.match
  is searchFirst, the exec loop is allMatches;
* code that can throw returns Except.

Machine numbers are modelled as Int; the fragments of the engine covered
here only ever manipulate integral values.  Fractional number literals
are outside the model (jsParseNumber returns none for them, as for NaN).
-/

set_option autoImplicit false

/-- Character-list strings, the base type of the whole embedding. -/
abbrev Str := List Char

/-- Conversion from Lean string literals. -/
def str (s : String) : Str := s.data

/-- The opening-brace character. -/
def obrace : Char := Char.ofNat 123

/-- The closing-brace character. -/
def cbrace : Char := Char.ofNat 125

/-- The single-quote character. -/
def squote : Char := Char.ofNat 39

/-- The double-quote character. -/
def dquote : Char := Char.ofNat 34

/-- JavaScript \s (the engine only meets ASCII whitespace). -/
def isWS (c : Char) : Bool :=
  c = ' ' || c = '\t' || c = '\n' || c = '\x0d' || c = '\x0c' || c = '\x0b'

/-- JavaScript \w. -/
def isWordChar (c : Char) : Bool :=
  ('a' ≤ c && c ≤ 'z') || ('A' ≤ c && c ≤ 'Z') || ('0' ≤ c && c ≤ '9') || c = '_'

/-- JavaScript \d. -/
def isDigitChar (c : Char) : Bool :=
  '0' ≤ c && c ≤ '9'

/-- The dot of a regex without the s flag: any character but a line break. -/
def isDotChar (c : Char) : Bool :=
  c ≠ '\n' && c ≠ '\x0d'

/-- The character class composed of the two quote characters. -/
def isQuoteChar (c : Char) : Bool :=
  c = squote || c = dquote

/-- JavaScript substring test (String.prototype.includes). -/
def hasSub (needle : Str) : Str → Bool
  | [] => needle.isEmpty
  | c :: rest => needle.isPrefixOf (c :: rest) || hasSub needle rest

/-- JavaScript String.prototype.trim on both ends. -/
def jsTrim (s : Str) : Str :=
  (s.dropWhile isWS).reverse.dropWhile isWS |>.reverse

/-- Split a string at every occurrence of a one-character separator,
JavaScript String.prototype.split semantics (never empty output). -/
def jsSplitCh (sep : Char) : Str → List Str
  | [] => [[]]
  | c :: rest =>
    let tail := jsSplitCh sep rest
    if c = sep then
      [] :: tail
    else
      match tail with
      | [] => [[c]]
      | t :: ts => (c :: t) :: ts

/-- Split at every occurrence of a multi-character separator
(String.prototype.split with a string argument), with fuel for the scan. -/
def jsSplitSubAux (sep : Str) : Nat → Str → List Str
  | _, [] => [[]]
  | 0, s => [s]
  | n + 1, c :: rest =>
    if sep.isPrefixOf (c :: rest) then
      [] :: jsSplitSubAux sep n ((c :: rest).drop sep.length)
    else
      match jsSplitSubAux sep n rest with
      | [] => [[c]]
      | t :: ts => (c :: t) :: ts

/-- Split by a non-empty separator string. -/
def jsSplitSub (sep : Str) (s : Str) : List Str :=
  jsSplitSubAux sep s.length s

/-- JavaScript values: undefined, null, booleans, (integral) numbers,
strings, arrays, objects. -/
inductive JVal where
  | undef : JVal
  | nul : JVal
  | b : Bool → JVal
  | n : Int → JVal
  | s : Str → JVal
  | arr : List JVal → JVal
  | obj : List (Str × JVal) → JVal

/-- A JavaScript object as a field list: the context/props mappings. -/
abbrev Ctx := List (Str × JVal)

/-- JavaScript truthiness. -/
def jsTruthy : JVal → Bool
  | .undef => false
  | .nul => false
  | .b v => v
  | .n i => i ≠ 0
  | .s cs => cs ≠ []
  | .arr _ => true
  | .obj _ => true

/-- Decimal digits of a natural number. -/
def natDigits (n : Nat) : Str :=
  Nat.toDigits 10 n

/-- Decimal rendering of an integer, as JavaScript prints one. -/
def intStr (i : Int) : Str :=
  if i < 0 then '-' :: natDigits i.natAbs else natDigits i.natAbs

/-- String(v) for the values the engine meets; array elements are joined
with commas, nested null/undefined print as empty (JavaScript array
stringification), and plain objects print as [object Object]. -/
def jsString : JVal → Str
  | .undef => str "undefined"
  | .nul => str "null"
  | .b true => str "true"
  | .b false => str "false"
  | .n i => intStr i
  | .s cs => cs
  | .arr xs => jsStringList xs
  | .obj _ => str "[object Object]"
where
  /-- Stringify one array element: null/undefined become empty, any
  other value prints as at top level (the top-level cases are spelled
  out again so the recursion stays structural). -/
  jsStringEl : JVal → Str
    | .undef => []
    | .nul => []
    | .b true => str "true"
    | .b false => str "false"
    | .n i => intStr i
    | .s cs => cs
    | .arr xs => jsStringList xs
    | .obj _ => str "[object Object]"
  /-- Comma-join of stringified array elements. -/
  jsStringList : List JVal → Str
    | [] => []
    | [v] => jsStringEl v
    | v :: rest => jsStringEl v ++ ',' :: jsStringList rest

/-- v ?? w (nullish coalescing). -/
def jsNullish (v w : JVal) : JVal :=
  match v with
  | .undef => w
  | .nul => w
  | _ => v

/-- Number(v) restricted to the integral fragment: none models NaN.
Strings of decimal digits (with optional sign, surrounding whitespace)
convert; the empty or blank string converts to 0; anything else,
including fractional literals, is out of the model and maps to none. -/
def jsParseNumber (cs : Str) : Option Int :=
  let t := jsTrim cs
  if t = [] then some 0
  else if t.all isDigitChar then some (Nat.ofDigits 10 ((t.map (fun c => c.toNat - 48)).reverse) : Nat)
  else if t.headI = '-' ∧ t.tail ≠ [] ∧ t.tail.all isDigitChar then
    some (-(Nat.ofDigits 10 ((t.tail.map (fun c => c.toNat - 48)).reverse) : Nat))
  else none

/-- Number(v) on a value (none models NaN). -/
def jsNumber : JVal → Option Int
  | .undef => none
  | .nul => some 0
  | .b true => some 1
  | .b false => some 0
  | .n i => some i
  | .s cs => jsParseNumber cs
  | .arr [] => some 0
  | .arr [v] => jsNumber v
  | .arr (_ :: _ :: _) => none
  | .obj _ => none

/-- Assoc-list lookup, the Map.get / object read of the sources. -/
def ctxGet (m : Ctx) (k : Str) : Option JVal :=
  match m.find? (fun p => p.1 = k) with
  | some p => some p.2
  | none => none

/-- Assoc-list membership, the Map.has / (k in o) test of the sources. -/
def ctxHas (m : Ctx) (k : Str) : Bool :=
  (ctxGet m k).isSome

/-- Assoc-list update: overwrite in place or append, like Map.set and
like adding a computed key in an object spread. -/
def ctxSet (m : Ctx) (k : Str) (v : JVal) : Ctx :=
  match m with
  | [] => [(k, v)]
  | (k', v') :: rest => if k' = k then (k, v) :: rest else (k', v') :: ctxSet rest k v

/-- Object spread of the second mapping over the first. -/
def ctxMerge (base : Ctx) (extra : Ctx) : Ctx :=
  extra.foldl (fun acc p => ctxSet acc p.1 p.2) base

/-! ## A backtracking matcher for the regular expressions of the engine

Each JavaScript regex of the sources is transcribed below into a Pat
value.  Pat.runs enumerates every way a pattern can consume a prefix of
the input, in the priority order of the JavaScript backtracking engine;
the head of the enumeration is the JavaScript match. -/

/-- Capture groups recorded during a match attempt; the most recent
assignment of a group number is the JavaScript value of the group, a
missing number is an undefined group. -/
abbrev Caps := List (Nat × Str)

/-- Record group i. -/
def capSet (i : Nat) (v : Str) (cs : Caps) : Caps := (i, v) :: cs

/-- Read group i (none models an undefined group). -/
def capGet (i : Nat) (cs : Caps) : Option Str :=
  match cs.find? (fun p => p.1 = i) with
  | some p => some p.2
  | none => none

/-- Read group i with the JavaScript default-parameter treatment: an
undefined group falls back to d, a captured one (even empty) is kept. -/
def capGetD (i : Nat) (cs : Caps) (d : Str) : Str :=
  match capGet i cs with
  | some v => v
  | none => d

/-- Pattern AST: the fragment of JavaScript regexes used by the engine.
starG / starL are the greedy / lazy Kleene stars; alt is ordered
alternation; grp i records capture group i. -/
inductive Pat where
  | eps : Pat
  | lit : Char → Pat
  | cls : (Char → Bool) → Pat
  | seq : Pat → Pat → Pat
  | alt : Pat → Pat → Pat
  | starG : Pat → Pat
  | starL : Pat → Pat
  | grp : Nat → Pat → Pat

/-- Lazy star iteration: the empty repetition first, then longer ones.
Each further repetition must consume at least one character (the
JavaScript empty-iteration guard); n bounds the repetition count and is
called with the length of the input, which the guard makes exact. -/
def starIterL (runsA : Str → Caps → List (Str × Caps)) : Nat → Str → Caps → List (Str × Caps)
  | 0, s, cs => [(s, cs)]
  | n + 1, s, cs =>
    (s, cs) :: (runsA s cs).flatMap (fun r =>
      if r.1.length < s.length then starIterL runsA n r.1 r.2 else [])

/-- Greedy star iteration: longest repetitions first, then shorter. -/
def starIterG (runsA : Str → Caps → List (Str × Caps)) : Nat → Str → Caps → List (Str × Caps)
  | 0, s, cs => [(s, cs)]
  | n + 1, s, cs =>
    ((runsA s cs).flatMap (fun r =>
      if r.1.length < s.length then starIterG runsA n r.1 r.2 else [])) ++ [(s, cs)]

/-- All ways p can consume a prefix of s, in JavaScript priority order;
each result is the remaining suffix with the capture state. -/
def Pat.runs : Pat → Str → Caps → List (Str × Caps)
  | .eps, s, cs => [(s, cs)]
  | .lit _, [], _ => []
  | .lit c, d :: s, cs => if d = c then [(s, cs)] else []
  | .cls _, [], _ => []
  | .cls p, d :: s, cs => if p d then [(s, cs)] else []
  | .seq a b, s, cs => (a.runs s cs).flatMap (fun r => b.runs r.1 r.2)
  | .alt a b, s, cs => a.runs s cs ++ b.runs s cs
  | .starG a, s, cs => starIterG (fun s' cs' => a.runs s' cs') s.length s cs
  | .starL a, s, cs => starIterL (fun s' cs' => a.runs s' cs') s.length s cs
  | .grp i a, s, cs =>
    (a.runs s cs).map (fun r => (r.1, capSet i (s.take (s.length - r.1.length)) r.2))

/-- The JavaScript match of p at the start of s: the first run. -/
def matchAt (p : Pat) (s : Str) : Option (Caps × Str) :=
  match p.runs s [] with
  | [] => none
  | r :: _ => some (r.2, r.1)

/-- String.prototype.replace with a global regex and a callback on the
captures: scan left to right, replace every match, resume after it.  The
fuel is the input length; a hypothetical zero-width match (none of the
patterns below can produce one) advances by one character like the
JavaScript lastIndex bump. -/
def replaceGAux (p : Pat) (f : Caps → Str) : Nat → Str → Str
  | _, [] => []
  | 0, s => s
  | n + 1, c :: s =>
    match matchAt p (c :: s) with
    | some (cs, rest) =>
      if rest.length < (c :: s).length then f cs ++ replaceGAux p f n rest
      else f cs ++ c :: replaceGAux p f n s
    | none => c :: replaceGAux p f n s

/-- replace(regex-g, callback). -/
def replaceG (p : Pat) (f : Caps → Str) (s : Str) : Str :=
  replaceGAux p f s.length s

/-- String.prototype.match without the g flag: captures of the leftmost
match. -/
def searchFirstAux (p : Pat) : Nat → Str → Option Caps
  | _, [] =>
    (match matchAt p [] with
     | some (cs, _) => some cs
     | none => none)
  | 0, s =>
    (match matchAt p s with
     | some (cs, _) => some cs
     | none => none)
  | n + 1, c :: s =>
    match matchAt p (c :: s) with
    | some (cs, _) => some cs
    | none => searchFirstAux p n s

/-- First match anywhere in the string. -/
def searchFirst (p : Pat) (s : Str) : Option Caps :=
  searchFirstAux p s.length s

/-- The exec loop over a global regex: captures of every match, left to
right, resuming after each match. -/
def allMatchesAux (p : Pat) : Nat → Str → List Caps
  | _, [] => []
  | 0, _ => []
  | n + 1, c :: s =>
    match matchAt p (c :: s) with
    | some (cs, rest) =>
      if rest.length < (c :: s).length then cs :: allMatchesAux p n rest
      else cs :: allMatchesAux p n s
    | none => allMatchesAux p n s

/-- All matches of a global regex in a string. -/
def allMatches (p : Pat) (s : Str) : List Caps :=
  allMatchesAux p s.length s

/-- Sequence of literal characters. -/
def pstr : Str → Pat
  | [] => .eps
  | [c] => .lit c
  | c :: rest => .seq (.lit c) (pstr rest)

/-- Right-nested sequence of patterns. -/
def pseqs : List Pat → Pat
  | [] => .eps
  | [p] => p
  | p :: rest => .seq p (pseqs rest)

/-- Negation of a character class. -/
def isNotQuote (c : Char) : Bool := !(isQuoteChar c)

/-- Characters other than a semicolon, the [^;] class. -/
def isNotSemi (c : Char) : Bool := c ≠ ';'

/-- The [\s\S] class. -/
def isAnyChar (_ : Char) : Bool := true

/-- \S. -/
def isNotWS (c : Char) : Bool := !(isWS c)

/-- The \s* of the regexes. -/
def wsStar : Pat := .starG (.cls isWS)

/-- Greedy option, the ? of the regexes. -/
def popt (a : Pat) : Pat := .alt a .eps

/-- Greedy plus. -/
def pplus (a : Pat) : Pat := .seq a (.starG a)

/-- (.*?) captured as group i. -/
def dotsLazy (i : Nat) : Pat := .grp i (.starL (.cls isDotChar))

/-- ([\s\S]*?) captured as group i. -/
def anyLazy (i : Nat) : Pat := .grp i (.starL (.cls isAnyChar))

/-- The ['"] class. -/
def pquote : Pat := .cls isQuoteChar

/-! ## The regexes of the sources, transcribed -/

/-- The regex of Engine.processExtends. -/
def patExtends : Pat :=
  pseqs [pstr (str "@extends"), wsStar, .lit '(', wsStar, pquote,
    .grp 1 (pplus (.cls isNotQuote)), pquote, wsStar, .lit ')']

/-- The regex of Engine.processSections (and of the analyzer section
scan up to its body group). -/
def patSection : Pat :=
  pseqs [pstr (str "@section"), wsStar, .lit '(', wsStar, pquote,
    .grp 1 (pplus (.cls isNotQuote)), pquote, wsStar, .lit ')',
    .grp 2 (.starL (.cls isAnyChar)), pstr (str "@endsection")]

/-- The two-argument yield regex of Engine.processYields. -/
def patYieldDefault : Pat :=
  pseqs [pstr (str "@yield"), wsStar, .lit '(', wsStar, pquote, dotsLazy 1,
    pquote, wsStar, .lit ',', wsStar, pquote, dotsLazy 2, pquote, wsStar, .lit ')']

/-- The one-argument yield regex of Engine.processYields. -/
def patYieldBare : Pat :=
  pseqs [pstr (str "@yield"), wsStar, .lit '(', wsStar, pquote, dotsLazy 1,
    pquote, wsStar, .lit ')']

/-- The yield regex of Engine.processDirectives (a [^'"]+ name). -/
def patYieldDirect : Pat :=
  pseqs [pstr (str "@yield"), wsStar, .lit '(', wsStar, pquote,
    .grp 1 (pplus (.cls isNotQuote)), pquote, wsStar, .lit ')']

/-- The conditional regex shared by Engine.processDirectives,
Component.processConditionals and BaseTemplate. -/
def patIf : Pat :=
  pseqs [pstr (str "@if"), wsStar, .lit '(', wsStar, dotsLazy 1, wsStar, .lit ')',
    .grp 2 (.starL (.cls isAnyChar)),
    popt (pseqs [pstr (str "@else"), .grp 3 (.starL (.cls isAnyChar))]),
    pstr (str "@endif")]

/-- The for-loop region regex. -/
def patFor : Pat :=
  pseqs [pstr (str "@for"), wsStar, .lit '(', wsStar, dotsLazy 1, wsStar, .lit ';',
    wsStar, dotsLazy 2, wsStar, .lit ';', wsStar, dotsLazy 3, wsStar, .lit ')',
    .grp 4 (.starL (.cls isAnyChar)), pstr (str "@endfor")]

/-- The foreach region regex. -/
def patForeach : Pat :=
  pseqs [pstr (str "@foreach"), wsStar, .lit '(', wsStar, dotsLazy 1,
    pplus (.cls isWS), pstr (str "as"), pplus (.cls isWS), dotsLazy 2, wsStar, .lit ')',
    .grp 3 (.starL (.cls isAnyChar)), pstr (str "@endforeach")]

/-- The include regex. -/
def patInclude : Pat :=
  pseqs [pstr (str "@include"), wsStar, .lit '(', wsStar, pquote,
    .grp 1 (pplus (.cls isNotQuote)), pquote, wsStar,
    popt (pseqs [.lit ',', wsStar,
      .grp 2 (pseqs [.lit obrace, .starL (.cls isDotChar), .lit cbrace]), wsStar]),
    .lit ')']

/-- The dynamically built regex of the custom-directive pass:
at-sign, the directive name, then a parenthesised lazy argument. -/
def patCustom (name : Str) : Pat :=
  pseqs [.lit '@', pstr name, wsStar, .lit '(', wsStar, dotsLazy 1, wsStar, .lit ')']

/-- The interpolation regex, shared by every processExpressions. -/
def patExpr : Pat :=
  pseqs [.lit obrace, .lit obrace, wsStar, dotsLazy 1, wsStar, .lit cbrace, .lit cbrace]

/-- The component-region regex of ComponentProcessor. -/
def patComponent : Pat :=
  pseqs [pstr (str "@component"), wsStar, .lit '(', wsStar, pquote,
    .grp 1 (pplus (.cls isNotWS)), pquote, wsStar,
    popt (pseqs [.lit ',', wsStar,
      .grp 2 (pseqs [.lit obrace, .starL (.cls isDotChar), .lit cbrace]), wsStar]),
    .lit ')', .grp 3 (.starL (.cls isAnyChar)), pstr (str "@endcomponent")]

/-- The for-loop initialisation parse. -/
def patForInit : Pat :=
  pseqs [wsStar,
    popt (.grp 1 (.alt (pstr (str "var")) (.alt (pstr (str "let")) (pstr (str "const"))))),
    wsStar, .grp 2 (pplus (.cls isWordChar)), wsStar, .lit '=', wsStar,
    .grp 3 (pplus (.cls isNotSemi))]

/-- The for-loop condition parse (a strict upper bound only). -/
def patForCond : Pat :=
  pseqs [.grp 1 (pplus (.cls isWordChar)), wsStar, .lit '<', wsStar,
    .grp 2 (pplus (.cls isNotSemi))]

/-- The for-loop increment parse. -/
def patForIncr : Pat :=
  pseqs [.grp 1 (pplus (.cls isWordChar)), wsStar, .lit '=', wsStar,
    .grp 2 (pplus (.cls isWordChar)), wsStar, .lit '+', wsStar,
    .grp 3 (pplus (.cls isDigitChar))]

/-- The i + 1 body pattern of the loop interpolators. -/
def patAdd : Pat :=
  pseqs [.grp 1 (pplus (.cls isWordChar)), wsStar, .lit '+', wsStar,
    .grp 2 (pplus (.cls isDigitChar))]

/-- The i % 2 === 0 body pattern. -/
def patMod : Pat :=
  pseqs [.grp 1 (pplus (.cls isWordChar)), wsStar, .lit '%', wsStar,
    .grp 2 (pplus (.cls isDigitChar)), wsStar, pstr (str "==="), wsStar,
    .grp 3 (pplus (.cls isDigitChar))]

/-- The parity-ternary body pattern. -/
def patModTernary : Pat :=
  pseqs [.grp 1 (pplus (.cls isWordChar)), wsStar, .lit '%', wsStar,
    .grp 2 (pplus (.cls isDigitChar)), wsStar, pstr (str "==="), wsStar,
    .grp 3 (pplus (.cls isDigitChar)), wsStar, .lit '?', wsStar, pquote,
    dotsLazy 4, pquote, wsStar, .lit ':', wsStar, pquote, dotsLazy 5, pquote]

/-- The users[i].name body pattern. -/
def patArrAccess : Pat :=
  pseqs [.grp 1 (pplus (.cls isWordChar)), .lit '[', .grp 2 (pplus (.cls isWordChar)),
    .lit ']', .lit '.', .grp 3 (pplus (.cls isWordChar))]

/-- The users[i].flag ? then : else body pattern. -/
def patArrTernary : Pat :=
  pseqs [.grp 1 (pplus (.cls isWordChar)), .lit '[', .grp 2 (pplus (.cls isWordChar)),
    .lit ']', .lit '.', .grp 3 (pplus (.cls isWordChar)), wsStar, .lit '?', wsStar,
    pquote, dotsLazy 4, pquote, wsStar, .lit ':', wsStar, pquote, dotsLazy 5, pquote]

/-! ## Generic assoc-list maps for the registries -/

/-- Map.get. -/
def assocGet {α : Type} (m : List (Str × α)) (k : Str) : Option α :=
  (m.find? (fun p => p.1 = k)).map (fun p => p.2)

/-- Map.has. -/
def assocHas {α : Type} (m : List (Str × α)) (k : Str) : Bool :=
  (assocGet m k).isSome

/-- Map.set: overwrite in place or append. -/
def assocSet {α : Type} (m : List (Str × α)) (k : Str) (v : α) : List (Str × α) :=
  match m with
  | [] => [(k, v)]
  | (k', v') :: rest => if k' = k then (k, v) :: rest else (k', v') :: assocSet rest k v

/-- Map.delete, with the found flag it returns. -/
def assocDel {α : Type} (m : List (Str × α)) (k : Str) : Bool × List (Str × α) :=
  (assocHas m k, m.filter (fun p => p.1 ≠ k))

/-! ## ExpressionEvaluator (src/utils/ExpressionEvaluator.ts) -/

/-- Canonical array-index parse of a key string: all digits, no spurious
leading zero. -/
def parseIndex (key : Str) : Option Nat :=
  if key ≠ [] ∧ key.all isDigitChar ∧ (key = ['0'] ∨ key.headI ≠ '0') then
    some (Nat.ofDigits 10 ((key.map (fun c => c.toNat - 48)).reverse))
  else none

/-- The JavaScript in operator: named fields of objects, indices and
length of arrays; applying it to a primitive throws a TypeError.
Prototype-chain properties (toString on objects, push on arrays, ...)
are outside the model: no template of the claims reads them. -/
def jsIn (key : Str) : JVal → Except Unit Bool
  | .obj fields => .ok (ctxHas fields key)
  | .arr xs =>
    .ok (key = str "length" ||
      (match parseIndex key with
       | some i => i < xs.length
       | none => false))
  | _ => .error ()

/-- Property read o[key] for values the in-guarded loop can reach. -/
def jsGetK (key : Str) : JVal → JVal
  | .obj fields => (ctxGet fields key).getD .undef
  | .arr xs =>
    if key = str "length" then .n xs.length
    else
      match parseIndex key with
      | some i => (xs.get? i).getD .undef
      | none => .undef
  | _ => (.undef)

/-- Property read on an arbitrary value, throwing on null/undefined as
JavaScript does; primitives other than strings read as undefined. -/
def jsGetProp (v : JVal) (key : Str) : Except Unit JVal :=
  match v with
  | .nul => .error ()
  | .undef => .error ()
  | .obj fields => .ok ((ctxGet fields key).getD .undef)
  | .arr xs => .ok (jsGetK key (.arr xs))
  | .s cs =>
    .ok (if key = str "length" then .n cs.length
      else
        match parseIndex key with
        | some i =>
          (match cs.get? i with
           | some c => .s [c]
           | none => .undef)
        | none => .undef)
  | _ => .ok (.undef)

/-- Array read a[i] with a possibly negative index. -/
def jsIndex (xs : List JVal) (i : Int) : JVal :=
  if 0 ≤ i ∧ i < xs.length then (xs.get? i.toNat).getD .undef else (.undef)

/-- The dotted walk of ExpressionEvaluator.getNestedProperty: stop with
undefined the moment a part is missing or the cursor is null/undefined;
testing membership on a primitive cursor throws. -/
def nestedWalk : List Str → JVal → Except Unit JVal
  | [], current => .ok current
  | part :: rest, current =>
    match current with
    | .nul => .ok .undef
    | .undef => .ok .undef
    | cur => do
      let isIn ← jsIn part cur
      if isIn then nestedWalk rest (jsGetK part cur) else .ok (.undef)

/-- ExpressionEvaluator.getNestedProperty. -/
def ExpressionEvaluator.getNestedProperty (obj : JVal) (path : Str) : Except Unit JVal :=
  if !(jsTruthy obj) || path.isEmpty then .ok .undef
  else do
    let topIn ← jsIn path obj
    if topIn then .ok (jsGetK path obj)
    else nestedWalk (jsSplitCh '.' path) obj

/-- The shared operator-free test of evaluate and evaluateCondition:
no parenthesis, arithmetic operator, (in)equality, or comparison. -/
def looksSimple (e : Str) : Bool :=
  !(hasSub (str "(") e) && !(hasSub (str "+") e) && !(hasSub (str "-") e) &&
  !(hasSub (str "*") e) && !(hasSub (str "/") e) && !(hasSub (str "==") e) &&
  !(hasSub (str "!=") e) && !(hasSub (str "<") e) && !(hasSub (str ">") e)

/-- The operator-normalisation regex of prepareExpression. -/
def patOps : Pat :=
  .grp 1 (.alt (pstr (str "===")) (.alt (pstr (str "!==")) (.alt (pstr (str "=="))
    (.alt (pstr (str "!=")) (.alt (pstr (str "&&")) (pstr (str "||")))))))

/-- The switch on the matched operator. -/
def opSubst (m : Str) : Str :=
  if m = str "===" then str "=="
  else if m = str "!==" then str "!="
  else if m = str "==" then str "=="
  else if m = str "!=" then str "!="
  else if m = str "&&" then str "and"
  else if m = str "||" then str "or"
  else m

/-- [a-z_] with the i flag: a letter of either case or an underscore. -/
def isAlphaUnd (c : Char) : Bool :=
  ('a' ≤ c && c ≤ 'z') || ('A' ≤ c && c ≤ 'Z') || c = '_'

/-- The dot-to-bracket rewrite regex of prepareExpression. -/
def patDotProp : Pat :=
  pseqs [.grp 1 (pseqs [.cls isAlphaUnd, .starG (.cls isWordChar)]), .lit '.',
    .grp 2 (pplus (.cls isWordChar))]

/-- ExpressionEvaluator.prepareExpression. -/
def ExpressionEvaluator.prepareExpression (expr : Str) : Str :=
  let prepared := jsTrim expr
  let prepared := replaceG patOps (fun cs => opSubst (capGetD 1 cs [])) prepared
  replaceG patDotProp
    (fun cs => capGetD 1 cs [] ++ '[' :: squote :: capGetD 2 cs [] ++ [squote, ']'])
    prepared

/-- Modelled from the spec: the compiled-expression collaborator (the
external filtrex library behind compileExpression) is not part of the
repository sources.  Spec section 4.1 characterises compiled expressions
as pure data queries over the context with no side effects; only that
purity matters here, because every expression the claims exercise stays
on the literal or operator-free paths of evaluate and never reaches the
compiled branch.  The model gives the branch the constant null result
(the value evaluate would produce if compilation were rejected). -/
def filtrexEval (_expr : Str) (_ctx : Ctx) : JVal :=
  .nul

/-- ExpressionEvaluator.evaluate: quoted literals verbatim, operator-free
texts by direct nested lookup (a thrown walk is caught to null), anything
else through the compiled-expression collaborator. -/
def ExpressionEvaluator.evaluate (expr : Str) (ctx : Ctx) : JVal :=
  if (expr.head? = some squote ∧ expr.getLast? = some squote) ∨
     (expr.head? = some dquote ∧ expr.getLast? = some dquote) then
    .s ((expr.drop 1).dropLast)
  else if looksSimple expr then
    match ExpressionEvaluator.getNestedProperty (.obj ctx) expr with
    | .ok v => v
    | .error _ => .nul
  else
    filtrexEval (ExpressionEvaluator.prepareExpression expr) ctx

/-- ExpressionEvaluator.evaluateCondition: the operator-free branch walks
the context directly and is not guarded by a catch, so a thrown walk
propagates to the caller. -/
def ExpressionEvaluator.evaluateCondition (condition : Str) (ctx : Ctx) : Except Unit Bool :=
  if looksSimple condition then do
    let v ← ExpressionEvaluator.getNestedProperty (.obj ctx) condition
    .ok (jsTruthy v)
  else
    .ok (jsTruthy (ExpressionEvaluator.evaluate condition ctx))

/-- The leading-brace strip of evaluateObject. -/
def stripObjLead (s : Str) : Str :=
  match s with
  | c :: rest => if c = obrace then rest.dropWhile isWS else s
  | [] => []

/-- The trailing-brace strip of evaluateObject. -/
def stripObjTrail (s : Str) : Str :=
  match s.reverse with
  | c :: rest => if c = cbrace then (rest.dropWhile isWS).reverse else s
  | [] => []

/-- One leading and one trailing quote removed, the key clean-up of
processObjectProperty. -/
def stripEdgeQuotes (s : Str) : Str :=
  let s1 := match s with
    | c :: rest => if isQuoteChar c then rest else s
    | [] => []
  match s1.getLast? with
  | some c => if isQuoteChar c then s1.dropLast else s1
  | none => s1

/-- The depth-counting top-level comma split of evaluateObject. -/
def splitTopCommaAux : Str → Int → Str → List Str
  | [], _, cur => [cur]
  | c :: rest, depth, cur =>
    if c = obrace ∨ c = '[' then splitTopCommaAux rest (depth + 1) (cur ++ [c])
    else if c = cbrace ∨ c = ']' then splitTopCommaAux rest (depth - 1) (cur ++ [c])
    else if c = ',' ∧ depth = 0 then cur :: splitTopCommaAux rest depth []
    else splitTopCommaAux rest depth (cur ++ [c])

/-- ExpressionEvaluator.processObjectProperty: one key: value chunk added
to the result object. -/
def ExpressionEvaluator.processObjectProperty (propExpr : Str) (resultObj : Ctx) (ctx : Ctx) : Ctx :=
  let propParts := jsSplitCh ':' propExpr
  if propParts.length < 2 then resultObj
  else
    let key := stripEdgeQuotes (jsTrim propParts.headI)
    let valueExpr := jsTrim (List.intercalate [':'] propParts.tail)
    if valueExpr ≠ [] ∧ valueExpr.all isWordChar ∧ ctxHas ctx valueExpr then
      ctxSet resultObj key ((ctxGet ctx valueExpr).getD .undef)
    else if (valueExpr.head? = some squote ∧ valueExpr.getLast? = some squote) ∨
      (valueExpr.head? = some dquote ∧ valueExpr.getLast? = some dquote) then
      ctxSet resultObj key (.s ((valueExpr.drop 1).dropLast))
    else
      ctxSet resultObj key (ExpressionEvaluator.evaluate valueExpr ctx)

/-- The chunk fold of evaluateObject: every chunk before the last is
processed unconditionally, the final one only when its trim is
non-empty. -/
def processChunks (ctx : Ctx) : List Str → Ctx → Ctx
  | [], acc => acc
  | [last], acc =>
    if jsTrim last = [] then acc
    else ExpressionEvaluator.processObjectProperty last acc ctx
  | p :: rest, acc => processChunks ctx rest (ExpressionEvaluator.processObjectProperty p acc ctx)

/-- ExpressionEvaluator.evaluateObject: an object-literal text evaluated
against the context; a bare name that is a context key returns that very
value. -/
def ExpressionEvaluator.evaluateObject (objectExpr : Str) (ctx : Ctx) : JVal :=
  let cleanExpr := stripObjTrail (stripObjLead (jsTrim objectExpr))
  if ctxHas ctx cleanExpr then (ctxGet ctx cleanExpr).getD .undef
  else .obj (processChunks ctx (splitTopCommaAux cleanExpr 0 []) [])

/-- Own enumerable fields of a value, as an object spread sees them;
spreading an array indexes its elements, spreading a primitive
contributes nothing. -/
def jvalFields : JVal → Ctx
  | .obj fields => fields
  | .arr xs => (List.range xs.length).zip xs |>.map (fun p => (natDigits p.1, p.2))
  | .s cs => (List.range cs.length).zip cs |>.map (fun p => (natDigits p.1, JVal.s [p.2]))
  | _ => []

/-- The escapeHtml chain shared by Engine, Component and BaseTemplate:
five sequential single-character global replaces, ampersand first. -/
def replaceAllCh (c : Char) (repl : Str) (s : Str) : Str :=
  s.flatMap (fun x => if x = c then repl else [x])

/-- escapeHtml. -/
def escapeHtml (html : Str) : Str :=
  replaceAllCh squote (str "&#039;")
    (replaceAllCh dquote (str "&quot;")
      (replaceAllCh '>' (str "&gt;")
        (replaceAllCh '<' (str "&lt;")
          (replaceAllCh '&' (str "&amp;") html))))

/-- The s.get(name) || default idiom on an optional lookup: an empty
captured string is falsy and falls back too. -/
def jsOrStr (o : Option Str) (d : Str) : Str :=
  match o with
  | some s => if s = [] then d else s
  | none => d

/-! ## Engine (src/core/Engine.ts) -/

/-- A directive handler: it may throw (the custom-directive pass and
DirectiveRegistry.process both catch). -/
abbrev DirectiveHandler := Str → Ctx → Except Unit Str

/-- The per-instance state of the Engine class. -/
structure Engine where
  directives : List (Str × DirectiveHandler)
  templates : List (Str × Str)
  sections : List (Str × Str)
  data : Ctx

/-- A fresh Engine, as the constructor builds one. -/
def Engine.new : Engine :=
  { directives := [], templates := [], sections := [], data := [] }

/-- Engine.registerDirective. -/
def Engine.registerDirective (e : Engine) (name : Str) (handler : DirectiveHandler) : Engine :=
  { e with directives := assocSet e.directives name handler }

/-- Engine.registerTemplate. -/
def Engine.registerTemplate (e : Engine) (name : Str) (content : Str) : Engine :=
  { e with templates := assocSet e.templates name content }

/-- Engine.unregisterTemplate. -/
def Engine.unregisterTemplate (e : Engine) (name : Str) : Bool × Engine :=
  let (found, rest) := assocDel e.templates name
  (found, { e with templates := rest })

/-- Engine.setData. -/
def Engine.setData (e : Engine) (data : Ctx) : Engine :=
  { e with data := data }

/-- Engine.getTemplateContent: the falsiness test means a template
registered as the empty string is reported missing too. -/
def Engine.getTemplateContent (e : Engine) (name : Str) : Except Str Str :=
  match assocGet e.templates name with
  | some t =>
    if t = [] then .error (str "Template " ++ dquote :: name ++ dquote :: str " not found")
    else .ok t
  | none => .error (str "Template " ++ dquote :: name ++ dquote :: str " not found")

/-- Engine.processSections: collect every section block of the child
into the per-render section map. -/
def Engine.processSections (e : Engine) (content : Str) : Engine :=
  let collected := (allMatches patSection content).foldl
    (fun acc cs => assocSet acc (capGetD 1 cs []) (capGetD 2 cs [])) e.sections
  { e with sections := collected }

/-- Engine.processExtends: when an extends directive occurs anywhere,
capture the child sections and hand back the parent source; a missing
parent is fatal. -/
def Engine.processExtends (e : Engine) (content : Str) : Except Str (Engine × Str) :=
  match searchFirst patExtends content with
  | some caps =>
    let parentName := capGetD 1 caps []
    (match assocGet e.templates parentName with
     | none => .error (str "Parent template " ++ dquote :: parentName ++ dquote :: str " not found")
     | some parentTemplate => .ok (Engine.processSections e content, parentTemplate))
  | none => .ok (Engine.processSections e content, content)

/-- Engine.processYields: the two-argument form first, then the bare
form; an uncaptured or empty section falls back to the default or to
nothing. -/
def Engine.processYields (e : Engine) (content : Str) : Str :=
  let result := replaceG patYieldDefault
    (fun cs => jsOrStr (assocGet e.sections (capGetD 1 cs [])) (capGetD 2 cs [])) content
  replaceG patYieldBare
    (fun cs => jsOrStr (assocGet e.sections (capGetD 1 cs [])) []) result

/-- The conditional callback of Engine.processDirectives: a thrown
condition evaluation is caught to the empty string. -/
def Engine.ifMatch (e : Engine) (cs : Caps) : Str :=
  match ExpressionEvaluator.evaluateCondition (capGetD 1 cs []) e.data with
  | .ok true => capGetD 2 cs []
  | .ok false => capGetD 3 cs []
  | .error _ => []

/-- Number of a digits-only capture. -/
def digitsVal (s : Str) : Int :=
  (jsParseNumber s).getD 0

/-- The iteration indices of the restricted counting loop
(for i from init while i lt limit step incr).  A NaN initial value
yields no iterations.  On a non-positive step with an iteration pending
the source never terminates (spec section 9 records the absence of loop
guards); a total model must return something there, and the step ≤ 0
branch is that placeholder for divergence, not a claim about the
program.  The counting-loop theorem therefore assumes a positive step,
so the placeholder branch lies outside everything proved about this
function. -/
def forIndices (init : Option Int) (limit : Int) (step : Int) : List Int :=
  match init with
  | none => []
  | some i0 =>
    if step ≤ 0 then []
    else if limit - i0 ≤ 0 then []
    else (List.range ((limit - i0 + step - 1) / step).toNat).map (fun j => i0 + step * j)

/-- The per-expression interpolator of the Engine for-loop body: loop
counter, counter arithmetic, parity, counter-indexed array access as
recognised textual patterns, then the general evaluator (all unescaped
in the Engine variant); a read on a null element is the one throw, and
it is caught to the empty string. -/
def Engine.forBodyExpr (e : Engine) (loopVarName : Str) (i : Int) (expr : Str) : Str :=
  if jsTrim expr = loopVarName then intStr i
  else
    let genericPart : Str :=
      let iterationContext := ctxSet e.data loopVarName (.n i)
      jsString (match ExpressionEvaluator.evaluate expr iterationContext with
        | v => if jsTruthy v then v else .s [])
    if hasSub (str "+") expr ∧ hasSub loopVarName expr then
      match searchFirst patAdd expr with
      | some m =>
        if capGetD 1 m [] = loopVarName then intStr (i + digitsVal (capGetD 2 m []))
        else genericPart
      | none => genericPart
    else if hasSub (str "%") expr ∧ hasSub loopVarName expr then
      match searchFirst patMod expr with
      | some m =>
        if capGetD 1 m [] = loopVarName then
          (if i % digitsVal (capGetD 2 m []) = digitsVal (capGetD 3 m []) then str "true" else str "false")
        else
          (match searchFirst patModTernary expr with
           | some t =>
             if capGetD 1 t [] = loopVarName then
               (if i % digitsVal (capGetD 2 t []) = digitsVal (capGetD 3 t []) then capGetD 4 t []
                else capGetD 5 t [])
             else genericPart
           | none => genericPart)
      | none =>
        (match searchFirst patModTernary expr with
         | some t =>
           if capGetD 1 t [] = loopVarName then
             (if i % digitsVal (capGetD 2 t []) = digitsVal (capGetD 3 t []) then capGetD 4 t []
              else capGetD 5 t [])
           else genericPart
         | none => genericPart)
    else if hasSub (str "[") expr ∧ hasSub (str "]") expr then
      let viaAccess : Option Str :=
        match searchFirst patArrAccess expr with
        | some m =>
          if capGetD 2 m [] = loopVarName then
            (match ctxGet e.data (capGetD 1 m []) with
             | some (.arr xs) =>
               if i < (xs.length : Int) then
                 some (match jsGetProp (jsIndex xs i) (capGetD 3 m []) with
                   | .ok v => jsString (if jsTruthy v then v else .s [])
                   | .error _ => [])
               else none
             | _ => none)
          else none
        | none => none
      match viaAccess with
      | some out => out
      | none =>
        (match searchFirst patArrTernary expr with
         | some t =>
           if capGetD 2 t [] = loopVarName then
             (match ctxGet e.data (capGetD 1 t []) with
              | some (.arr xs) =>
                if i < (xs.length : Int) then
                  (match jsGetProp (jsIndex xs i) (capGetD 3 t []) with
                   | .ok v => if jsTruthy v then capGetD 4 t [] else capGetD 5 t []
                   | .error _ => [])
                else genericPart
              | _ => genericPart)
           else genericPart
         | none => genericPart)
    else genericPart

/-- The for-loop callback of Engine.processDirectives. -/
def Engine.processForMatch (e : Engine) (cs : Caps) : Str :=
  let initExpr := capGetD 1 cs []
  let conditionExpr := capGetD 2 cs []
  let content := capGetD 4 cs []
  match searchFirst patForInit initExpr with
  | none => []
  | some initCaps =>
    let loopVarName := capGetD 2 initCaps []
    let loopVarValue := jsParseNumber (capGetD 3 initCaps [])
    match searchFirst patForCond conditionExpr with
    | none => []
    | some condCaps =>
      let limitExpr := jsTrim (capGetD 2 condCaps [])
      let limitBranch : Option Int :=
        if limitExpr ≠ [] ∧ limitExpr.all isDigitChar then some (digitsVal limitExpr)
        else if hasSub (str ".length") limitExpr then
          (match ctxGet e.data ((jsSplitCh '.' limitExpr).headI) with
           | some (.arr xs) => some (xs.length : Int)
           | _ => none)
        else
          (match jsNumber ((ctxGet e.data limitExpr).getD .undef) with
           | none => some 5
           | some 0 => some 5
           | some v => some v)
      match limitBranch with
      | none => []
      | some limitValue =>
        let incrementValue :=
          match searchFirst patForIncr (capGetD 3 cs []) with
          | some incrCaps => digitsVal (capGetD 3 incrCaps [])
          | none => 1
        ((forIndices loopVarValue limitValue incrementValue).map (fun i =>
          replaceG patExpr (fun ecs => Engine.forBodyExpr e loopVarName i (capGetD 1 ecs [])) content)).foldl
          (fun acc part => acc ++ part) []

/-- The foreach callback of Engine.processDirectives: a non-array
collection collapses the region; otherwise the body is interpolated per
element against the outer data extended with the loop variable, raw
(the replacement is the String coercion of the evaluated value, with no
escaping and no nullish fallback). -/
def Engine.foreachMatch (e : Engine) (cs : Caps) : Str :=
  let itemsExpr := capGetD 1 cs []
  let itemVar := capGetD 2 cs []
  let content := capGetD 3 cs []
  match ExpressionEvaluator.evaluate itemsExpr e.data with
  | .arr items =>
    ((items.map (fun item =>
      let loopContext := ctxSet e.data (jsTrim itemVar) item
      replaceG patExpr (fun ecs => jsString (ExpressionEvaluator.evaluate (capGetD 1 ecs []) loopContext))
        content)).foldl (fun acc part => acc ++ part) [])
  | _ => []

/-- replace with a callback that may throw (the include pass recurses
into a render that can raise a fatal error). -/
def replaceGAuxE (p : Pat) (f : Caps → Except Str Str) : Nat → Str → Except Str Str
  | _, [] => .ok []
  | 0, s => .ok s
  | n + 1, c :: s =>
    match matchAt p (c :: s) with
    | some (cs, rest) => do
      let repl ← f cs
      if rest.length < (c :: s).length then
        let tailRes ← replaceGAuxE p f n rest
        .ok (repl ++ tailRes)
      else
        let tailRes ← replaceGAuxE p f n s
        .ok (repl ++ c :: tailRes)
    | none => do
      let tailRes ← replaceGAuxE p f n s
      .ok (c :: tailRes)

/-- Fallible global replace. -/
def replaceGE (p : Pat) (f : Caps → Except Str Str) (s : Str) : Except Str Str :=
  replaceGAuxE p f s.length s

/-- The include callback: a missing template degrades to a comment; a
found one is rendered by a fresh engine holding only that content (so a
custom directive is never visible inside an include) against the merged
data. -/
def Engine.includeMatch (renderFn : Engine → Str → Except Str Str) (e : Engine) (cs : Caps) : Except Str Str :=
  let templateName := capGetD 1 cs []
  match assocGet e.templates templateName with
  | none => .ok (str "<!-- Template " ++ dquote :: templateName ++ dquote :: str " not found -->")
  | some includedTemplate =>
    let includeData :=
      match capGet 2 cs with
      | some dataExpr =>
        ctxMerge e.data (jvalFields (ExpressionEvaluator.evaluateObject dataExpr e.data))
      | none => e.data
    let tempEngine : Engine :=
      { directives := [], templates := [(str "__include", includedTemplate)],
        sections := [], data := includeData }
    renderFn tempEngine (str "__include")

/-- Engine.processDirectives with the render recursion supplied as a
function: the fixed pass order yield, if, for, foreach, include, then
one pass per registered custom directive in registration order, each
handler exception caught to the empty string. -/
def Engine.processDirectivesWith (renderFn : Engine → Str → Except Str Str) (e : Engine) (content : Str) :
    Except Str Str := do
  let r1 := replaceG patYieldDirect
    (fun cs => jsOrStr (assocGet e.sections (capGetD 1 cs [])) []) content
  let r2 := replaceG patIf (Engine.ifMatch e) r1
  let r3 := replaceG patFor (Engine.processForMatch e) r2
  let r4 := replaceG patForeach (Engine.foreachMatch e) r3
  let r5 ← replaceGE patInclude (Engine.includeMatch renderFn e) r4
  .ok (e.directives.foldl
    (fun acc nd =>
      replaceG (patCustom nd.1)
        (fun cs =>
          match nd.2 (capGetD 1 cs []) e.data with
          | .ok out => out
          | .error _ => []) acc) r5)

/-- Engine.processExpressions: every interpolation replaced by the
HTML-escaped String coercion of the evaluated value, null and undefined
printing as nothing. -/
def Engine.processExpressions (e : Engine) (content : Str) : Str :=
  replaceG patExpr
    (fun cs =>
      escapeHtml (jsString (jsNullish (ExpressionEvaluator.evaluate (capGetD 1 cs []) e.data) (.s []))))
    content

/-- Engine.render with the include recursion as a function argument:
lookup, fresh section map, extends and section capture, yield
substitution, directive passes, interpolation. -/
def Engine.renderWith (renderFn : Engine → Str → Except Str Str) (e : Engine) (name : Str) :
    Except Str Str := do
  let template ← Engine.getTemplateContent e name
  let cleared := { e with sections := [] }
  let (captured, content) ← Engine.processExtends cleared template
  let content := Engine.processYields captured content
  let content ← Engine.processDirectivesWith renderFn captured content
  .ok (Engine.processExpressions captured content)

/-- Engine.render, include recursion bounded by fuel.  The reference
behavior has no recursion bound (spec sections 5 and 9 record this gap):
past the bound, where the source would overflow the stack, the model
reports an error. -/
def Engine.render : Nat → Engine → Str → Except Str Str
  | 0, e, name => Engine.renderWith (fun _ _ => .error (str "include recursion depth exhausted")) e name
  | fuel + 1, e, name => Engine.renderWith (Engine.render fuel) e name

/-! ## Component (src/components/Component.ts) -/

/-- The per-instance state of the abstract Component class. -/
structure Component where
  props : Ctx
  slots : List (Str × Str)

/-- Component.setSlot. -/
def Component.setSlot (c : Component) (name : Str) (content : Str) : Component :=
  { c with slots := assocSet c.slots name content }

/-- Component.slot: the stored slot if truthy, else the default. -/
def Component.slot (c : Component) (name : Str) (defaultContent : Str) : Str :=
  jsOrStr (assocGet c.slots name) defaultContent

/-- The conditional callback of Component.processConditionals: unlike
the Engine variant, a thrown condition evaluation falls back to the
else branch. -/
def Component.ifMatch (props : Ctx) (cs : Caps) : Str :=
  match ExpressionEvaluator.evaluateCondition (capGetD 1 cs []) props with
  | .ok true => capGetD 2 cs []
  | .ok false => capGetD 3 cs []
  | .error _ => capGetD 3 cs []

/-- Component.processConditionals: the source rescans until a pass
changes nothing; every changing pass strictly shortens the text (a
conditional region is replaced by one of its own sub-segments), so
length-plus-one passes reach the fixed point exactly. -/
def Component.processConditionalsAux (props : Ctx) : Nat → Str → Str
  | 0, s => s
  | n + 1, s =>
    let s' := replaceG patIf (Component.ifMatch props) s
    if s' = s then s else Component.processConditionalsAux props n s'

/-- Component.processConditionals. -/
def Component.processConditionals (props : Ctx) (template : Str) : Str :=
  Component.processConditionalsAux props (template.length + 1) template

/-- Property read on a non-null value, as the dotted-walk of
Component.processExpressions performs it (primitives other than strings
read as undefined, never throwing because null and undefined were
tested first). -/
def jsReadTotal (v : JVal) (key : Str) : JVal :=
  match v with
  | .obj fields => (ctxGet fields key).getD .undef
  | .arr xs => jsGetK key (.arr xs)
  | .s cs =>
    if key = str "length" then .n cs.length
    else
      (match parseIndex key with
       | some i =>
         (match cs.get? i with
          | some ch => .s [ch]
          | none => .undef)
       | none => .undef)
  | _ => (.undef)

/-- The direct-access walk of Component.processExpressions: none means
the walk met null/undefined midway and returned the empty string, some
is the value after the last part. -/
def Component.propWalk : List Str → JVal → Option JVal
  | [], value => some value
  | part :: rest, value =>
    match value with
    | .undef => none
    | .nul => none
    | v => Component.propWalk rest (jsReadTotal v part)

/-- The per-expression interpolator of the Component for-loop body: the
same textual patterns as the Engine variant, but over props, with the
array-access result and the generic fallback HTML-escaped. -/
def Component.forBodyExpr (props : Ctx) (loopVarName : Str) (i : Int) (expr : Str) : Str :=
  if jsTrim expr = loopVarName then intStr i
  else
    let genericPart : Str :=
      let iterationContext := ctxSet props loopVarName (.n i)
      escapeHtml (jsString (match ExpressionEvaluator.evaluate expr iterationContext with
        | v => if jsTruthy v then v else .s []))
    if hasSub (str "+") expr ∧ hasSub loopVarName expr then
      match searchFirst patAdd expr with
      | some m =>
        if capGetD 1 m [] = loopVarName then intStr (i + digitsVal (capGetD 2 m []))
        else genericPart
      | none => genericPart
    else if hasSub (str "%") expr ∧ hasSub loopVarName expr then
      match searchFirst patMod expr with
      | some m =>
        if capGetD 1 m [] = loopVarName then
          (if i % digitsVal (capGetD 2 m []) = digitsVal (capGetD 3 m []) then str "true" else str "false")
        else
          (match searchFirst patModTernary expr with
           | some t =>
             if capGetD 1 t [] = loopVarName then
               (if i % digitsVal (capGetD 2 t []) = digitsVal (capGetD 3 t []) then capGetD 4 t []
                else capGetD 5 t [])
             else genericPart
           | none => genericPart)
      | none =>
        (match searchFirst patModTernary expr with
         | some t =>
           if capGetD 1 t [] = loopVarName then
             (if i % digitsVal (capGetD 2 t []) = digitsVal (capGetD 3 t []) then capGetD 4 t []
              else capGetD 5 t [])
           else genericPart
         | none => genericPart)
    else if hasSub (str "[") expr ∧ hasSub (str "]") expr then
      let viaAccess : Option Str :=
        match searchFirst patArrAccess expr with
        | some m =>
          if capGetD 2 m [] = loopVarName then
            (match ctxGet props (capGetD 1 m []) with
             | some (.arr xs) =>
               if i < (xs.length : Int) then
                 some (match jsGetProp (jsIndex xs i) (capGetD 3 m []) with
                   | .ok v => escapeHtml (jsString (if jsTruthy v then v else .s []))
                   | .error _ => [])
               else none
             | _ => none)
          else none
        | none => none
      match viaAccess with
      | some out => out
      | none =>
        (match searchFirst patArrTernary expr with
         | some t =>
           if capGetD 2 t [] = loopVarName then
             (match ctxGet props (capGetD 1 t []) with
              | some (.arr xs) =>
                if i < (xs.length : Int) then
                  (match jsGetProp (jsIndex xs i) (capGetD 3 t []) with
                   | .ok v => if jsTruthy v then capGetD 4 t [] else capGetD 5 t []
                   | .error _ => [])
                else genericPart
              | _ => genericPart)
           else genericPart
         | none => genericPart)
    else genericPart

/-- The for-loop callback of Component.processForLoops: as the Engine
variant over props, and each iteration additionally resolves the
conditionals inside the iterated body. -/
def Component.processForMatch (props : Ctx) (cs : Caps) : Str :=
  let initExpr := capGetD 1 cs []
  let conditionExpr := capGetD 2 cs []
  let content := capGetD 4 cs []
  match searchFirst patForInit initExpr with
  | none => []
  | some initCaps =>
    let loopVarName := capGetD 2 initCaps []
    let loopVarValue := jsParseNumber (capGetD 3 initCaps [])
    match searchFirst patForCond conditionExpr with
    | none => []
    | some condCaps =>
      let limitExpr := jsTrim (capGetD 2 condCaps [])
      let limitBranch : Option Int :=
        if limitExpr ≠ [] ∧ limitExpr.all isDigitChar then some (digitsVal limitExpr)
        else if hasSub (str ".length") limitExpr then
          (match ctxGet props ((jsSplitCh '.' limitExpr).headI) with
           | some (.arr xs) => some (xs.length : Int)
           | _ => none)
        else
          (match jsNumber ((ctxGet props limitExpr).getD .undef) with
           | none => some 5
           | some 0 => some 5
           | some v => some v)
      match limitBranch with
      | none => []
      | some limitValue =>
        let incrementValue :=
          match searchFirst patForIncr (capGetD 3 cs []) with
          | some incrCaps => digitsVal (capGetD 3 incrCaps [])
          | none => 1
        ((forIndices loopVarValue limitValue incrementValue).map (fun i =>
          Component.processConditionals props
            (replaceG patExpr (fun ecs => Component.forBodyExpr props loopVarName i (capGetD 1 ecs []))
              content))).foldl (fun acc part => acc ++ part) []

/-- Component.processForLoops. -/
def Component.processForLoops (props : Ctx) (template : Str) : Str :=
  replaceG patFor (Component.processForMatch props) template

/-- The interpolation callback of Component.processExpressions, written
with Except for the one throw path (the user.-prefixed nested walk);
the outer catch maps a throw to the empty string. -/
def Component.exprCallbackE (c : Component) (expr : Str) : Except Unit Str :=
  if jsTrim expr = str "content" then .ok (Component.slot c (str "default") [])
  else if hasSub ('|' :: ['|']) expr then
    let parts := (jsSplitSub ('|' :: ['|']) expr).map jsTrim
    let mainExpr := parts.headI
    let defaultExpr := parts.tail.headI
    let contentShort : Option Str :=
      if mainExpr = str "content" then
        (let slotContent := Component.slot c (str "default") []
         if slotContent ≠ [] then some slotContent else none)
      else none
    match contentShort with
    | some out => .ok out
    | none =>
      match ExpressionEvaluator.evaluate mainExpr c.props with
      | .nul =>
        .ok (escapeHtml (jsString (jsNullish
          (if defaultExpr.head? = some squote ∧ defaultExpr.getLast? = some squote then
            .s ((defaultExpr.drop 1).dropLast)
          else ExpressionEvaluator.evaluate defaultExpr c.props) (.s []))))
      | .undef =>
        .ok (escapeHtml (jsString (jsNullish
          (if defaultExpr.head? = some squote ∧ defaultExpr.getLast? = some squote then
            .s ((defaultExpr.drop 1).dropLast)
          else ExpressionEvaluator.evaluate defaultExpr c.props) (.s []))))
      | v => .ok (escapeHtml (jsString v))
  else if !(hasSub (str "(") expr) ∧ !(hasSub (str "+") expr) ∧ !(hasSub (str "-") expr) ∧
      !(hasSub (str "*") expr) ∧ !(hasSub (str "/") expr) then do
    let parts := jsSplitCh '.' expr
    let userShort : Option Str ←
      if parts.headI = str "user" ∧ parts.length > 1 then do
        let nestedValue ← ExpressionEvaluator.getNestedProperty (.obj c.props) expr
        (match nestedValue with
         | .undef => pure none
         | v => pure (some (escapeHtml (jsString v))))
      else pure none
    match userShort with
    | some out => .ok out
    | none =>
      match Component.propWalk parts (.obj c.props) with
      | none => .ok []
      | some .undef =>
        .ok (escapeHtml (jsString (jsNullish (ExpressionEvaluator.evaluate expr c.props) (.s []))))
      | some .nul =>
        .ok (escapeHtml (jsString (jsNullish (ExpressionEvaluator.evaluate expr c.props) (.s []))))
      | some v => .ok (escapeHtml (jsString v))
  else
    .ok (escapeHtml (jsString (jsNullish (ExpressionEvaluator.evaluate expr c.props) (.s []))))

/-- The interpolation callback with its catch. -/
def Component.exprCallback (c : Component) (expr : Str) : Str :=
  match Component.exprCallbackE c expr with
  | .ok out => out
  | .error _ => []

/-- Component.processExpressions: conditionals, then for-loops, then
interpolation. -/
def Component.processExpressions (c : Component) (template : Str) : Str :=
  let processed := Component.processConditionals c.props template
  let processed := Component.processForLoops c.props processed
  replaceG patExpr (fun cs => Component.exprCallback c (capGetD 1 cs [])) processed

/-! ## DirectiveRegistry (src/directives/DirectiveRegistry.ts) -/

/-- The registry of custom directives. -/
structure DirectiveRegistry where
  directives : List (Str × DirectiveHandler)

/-- DirectiveRegistry.register. -/
def DirectiveRegistry.register (r : DirectiveRegistry) (name : Str) (handler : DirectiveHandler) :
    DirectiveRegistry :=
  { r with directives := assocSet r.directives name handler }

/-- DirectiveRegistry.has. -/
def DirectiveRegistry.has (r : DirectiveRegistry) (name : Str) : Bool :=
  assocHas r.directives name

/-- DirectiveRegistry.process: a missing directive and a throwing
handler both degrade to a placeholder comment. -/
def DirectiveRegistry.process (r : DirectiveRegistry) (name : Str) (args : Str) (data : Ctx) : Str :=
  match assocGet r.directives name with
  | none => str "<!-- Directive " ++ dquote :: name ++ dquote :: str " not found -->"
  | some handler =>
    match handler args data with
    | .ok out => out
    | .error _ => str "<!-- Error in directive @" ++ name ++ str " -->"

/-! ## ComponentRegistry and ComponentProcessor -/

/-- A component class: its render logic over the props and slots of the
instance being rendered. -/
structure CompClass where
  renderImpl : Ctx → List (Str × Str) → Str

/-- A component instance: class, constructor props, slot map. -/
structure CompInst where
  cls : CompClass
  props : Ctx
  slots : List (Str × Str)

/-- instance.setSlot. -/
def CompInst.setSlot (inst : CompInst) (name : Str) (content : Str) : CompInst :=
  { inst with slots := assocSet inst.slots name content }

/-- instance.render. -/
def CompInst.render (inst : CompInst) : Str :=
  inst.cls.renderImpl inst.props inst.slots

/-- The component registry: name to class. -/
abbrev CompRegistry := List (Str × CompClass)

/-- ComponentRegistry.create: instantiating an unregistered name
throws. -/
def ComponentRegistry.create (reg : CompRegistry) (name : Str) (props : Ctx) : Except Str CompInst :=
  match assocGet reg name with
  | none => .error (str "Component " ++ dquote :: name ++ dquote :: str " not found")
  | some cls => .ok { cls := cls, props := props, slots := [] }

/-- ComponentRegistry.render: create, copy the given slots in, render. -/
def ComponentRegistry.render (reg : CompRegistry) (name : Str) (props : Ctx)
    (slots : List (Str × Str)) : Except Str Str := do
  let inst ← ComponentRegistry.create reg name props
  .ok (CompInst.render (slots.foldl (fun acc p => CompInst.setSlot acc p.1 p.2) inst))

/-- ComponentProcessor.process: each component region is replaced by the
rendering of the created instance, whose default slot is the trimmed
body text; a failed creation degrades to a comment. -/
def ComponentProcessor.process (content : Str) (createFn : Str → Ctx → Option CompInst) (data : Ctx) :
    Str :=
  replaceG patComponent
    (fun cs =>
      let componentName := capGetD 1 cs []
      let slotContent := capGetD 3 cs []
      let props :=
        match capGet 2 cs with
        | some propsExpr => jvalFields (ExpressionEvaluator.evaluateObject propsExpr data)
        | none => []
      match createFn componentName props with
      | none => str "<!-- Component " ++ dquote :: componentName ++ dquote :: str " not found -->"
      | some component => CompInst.render (CompInst.setSlot component (str "default") (jsTrim slotContent)))
    content

/-! ## BladeHtml (src/BladeHtml.ts)

The filesystem collaborator (template/component discovery, spec section
1) is absent from the model: the constructor finds no template
directories, every existsSync probe fails, and discoverAndRegisterTemplates
contributes nothing, exactly as a BladeHtml built over a non-existent
root directory behaves. -/

/-- The component-reference regex of the analyzer (the doubled capture
group of the source makes groups 1 and 2 the same text). -/
def patComponentRef : Pat :=
  pseqs [pstr (str "@component"), wsStar, .lit '(', wsStar, pquote,
    .grp 1 (.grp 2 (pplus (.cls isNotQuote))), pquote, wsStar,
    popt (.cls (fun c => c = ',' || c = ')'))]

/-- The include-reference regex of the analyzer. -/
def patIncludeRef : Pat :=
  pseqs [pstr (str "@include"), wsStar, .lit '(', wsStar, pquote,
    .grp 1 (.grp 2 (pplus (.cls isNotQuote))), pquote, wsStar,
    popt (.cls (fun c => c = ',' || c = ')'))]

/-- The extends-reference regex of the analyzer. -/
def patExtendsRef : Pat :=
  pseqs [pstr (str "@extends"), wsStar, .lit '(', wsStar, pquote,
    .grp 1 (.grp 2 (pplus (.cls isNotQuote))), pquote, wsStar, .lit ')']

/-- The extractTemplateNames helper: first capture of every match. -/
def extractTemplateNames (content : Str) (p : Pat) : List Str :=
  (allMatches p content).map (fun cs => capGetD 1 cs [])

/-- Set.add on an insertion-ordered list. -/
def pushUnique (l : List Str) (x : Str) : List Str :=
  if x ∈ l then l else l ++ [x]

/-- The dual-indexing helper of the analyzer: a default-namespaced
component name is also recorded bare, a bare one also under the default
namespace; any other namespaced name is not recorded at all. -/
def addComponentName (name : Str) (used : List Str) : List Str :=
  if (str "components.").isPrefixOf name ∨ ¬ hasSub (str ".") name then
    let used := pushUnique used name
    let used :=
      if (str "components.").isPrefixOf name then
        pushUnique used (name.drop (str "components.").length)
      else used
    if ¬ hasSub (str ".") name then pushUnique used (str "components." ++ name) else used
  else used

/-- [\w-]. -/
def isWordHyphen (c : Char) : Bool := isWordChar c || c = '-'

/-- \w or a dot, the template-name shape of the inline test. -/
def isWordDot (c : Char) : Bool := isWordChar c || c = '.'

/-- The model of the common built-in directive handlers.  Modelled from
the spec: the individual built-in directive bodies (date formatting,
JSON dump, CSS class assembly, ...) are out-of-scope leaf utilities
(spec section 1); the model keeps their registration but gives every
body the empty-string result, which no claim exercises. -/
def CommonDirectives.stubHandler : DirectiveHandler := fun _ _ => .ok []

/-- The names registered by registerCommonDirectives. -/
def commonDirectiveNames : List Str :=
  [str "json", str "raw", str "date", str "class", str "style", str "dump",
   str "concat", str "formatDate"]

/-- The state of the BladeHtml facade. -/
structure BladeHtml where
  engine : Engine
  componentRegistry : CompRegistry
  directiveRegistry : DirectiveRegistry
  aliases : List (Str × Str)

/-- BladeHtml.registerDirective: both the registry and the engine. -/
def BladeHtml.registerDirective (b : BladeHtml) (name : Str) (handler : DirectiveHandler) : BladeHtml :=
  { b with directiveRegistry := DirectiveRegistry.register b.directiveRegistry name handler,
           engine := Engine.registerDirective b.engine name handler }

/-- The constructor: fresh parts, common directives registered in both
registries, no template/component directories found. -/
def BladeHtml.new : BladeHtml :=
  commonDirectiveNames.foldl
    (fun b name => BladeHtml.registerDirective b name CommonDirectives.stubHandler)
    { engine := Engine.new, componentRegistry := [], directiveRegistry := { directives := [] },
      aliases := [] }

/-- BladeHtml.registerAlias. -/
def BladeHtml.registerAlias (b : BladeHtml) (aliasName : Str) (dir : Str) : BladeHtml :=
  { b with aliases := assocSet b.aliases aliasName dir }

/-- BladeHtml.registerTemplate. -/
def BladeHtml.registerTemplate (b : BladeHtml) (name : Str) (content : Str) : BladeHtml :=
  { b with engine := Engine.registerTemplate b.engine name content }

/-- BladeHtml.registerComponent. -/
def BladeHtml.registerComponent (b : BladeHtml) (name : Str) (cls : CompClass) : BladeHtml :=
  { b with componentRegistry := assocSet b.componentRegistry name cls }

/-- BladeHtml.resolveAlias: the anchored alias regex, an alias prefix of
word/hyphen characters before a double colon, resolved through the alias
map. -/
def BladeHtml.resolveAlias (b : BladeHtml) (name : Str) : Option (Str × Str) :=
  let p1 := name.takeWhile isWordHyphen
  let rest := name.drop p1.length
  if p1 ≠ [] ∧ (str "::").isPrefixOf rest then
    let after := rest.drop 2
    if after ≠ [] ∧ after.all isDotChar then
      match assocGet b.aliases p1 with
      | some dir => some (dir, after)
      | none => none
    else none
  else none

/-- BladeHtml.getTemplateContent: alias resolution, then the engine
lookup with every failure caught to the empty string. -/
def BladeHtml.getTemplateContent (b : BladeHtml) (name : Str) : Str :=
  match BladeHtml.resolveAlias b name with
  | some (dir, rest) =>
    (match Engine.getTemplateContent b.engine (dir ++ str "::" ++ rest) with
     | .ok c => c
     | .error _ => [])
  | none =>
    (match Engine.getTemplateContent b.engine name with
     | .ok c => c
     | .error _ => [])

/-- BladeHtml.loadComponent in the model without the file-discovery
collaborator: the alias file probes and the component-directory loop
(the directory list is empty) find nothing, so the method reduces to the
registry membership test and mutates nothing. -/
def BladeHtml.loadComponent (b : BladeHtml) (name : Str) : Bool :=
  assocHas b.componentRegistry name

/-- One analyzer step over a dequeued template with non-empty content:
the recorded component references and the queued include/extends
references. -/
def analyzeUsed (content : Str) (used : List Str) : List Str :=
  (extractTemplateNames content patComponentRef).foldl
    (fun u n =>
      if (str "components.").isPrefixOf n ∨ ¬ hasSub (str ".") n then addComponentName n u else u)
    used

/-- The queue additions of one analyzer step. -/
def analyzePushes (content : Str) : List Str :=
  extractTemplateNames content patIncludeRef ++ extractTemplateNames content patExtendsRef

/-- The breadth-first reference walk of analyzeTemplateDependencies,
iteration-bounded by fuel; analyzerFuel below computes a bound that the
termination theorem proves sufficient for every registry state. -/
def BladeHtml.analyzeLoopF (b : BladeHtml) : Nat → List Str → List Str → List Str → List Str
  | _, [], _, used => used
  | 0, _ :: _, _, used => used
  | fuel + 1, templateName :: queue, processed, used =>
    if templateName ∈ processed then BladeHtml.analyzeLoopF b fuel queue processed used
    else
      let processed' := templateName :: processed
      let content := BladeHtml.getTemplateContent b templateName
      if content = [] then BladeHtml.analyzeLoopF b fuel queue processed' used
      else
        BladeHtml.analyzeLoopF b fuel (queue ++ analyzePushes content) processed'
          (analyzeUsed content used)

/-- Every name whose getTemplateContent is non-empty: the registered
template names and, for every alias, the alias-prefixed spelling of
every template key the alias directory prefixes. -/
def resolvableNames (b : BladeHtml) : List Str :=
  b.engine.templates.map (fun t => t.1) ++
    b.aliases.flatMap (fun al =>
      b.engine.templates.filterMap (fun t =>
        if (al.2 ++ str "::").isPrefixOf t.1 then
          some (al.1 ++ str "::" ++ t.1.drop (al.2.length + 2))
        else none))

/-- Queue additions a name can ever contribute. -/
def pushCount (b : BladeHtml) (name : Str) : Nat :=
  (analyzePushes (BladeHtml.getTemplateContent b name)).length

/-- The analyzer potential: pending queue entries plus the pushes still
obtainable from unprocessed resolvable names.  Every loop iteration
strictly decreases it. -/
def analyzerWeight (b : BladeHtml) (processed : List Str) : Nat :=
  (((resolvableNames b).dedup.filter (fun n => n ∉ processed)).map (pushCount b)).sum

/-- The fuel bound of the analyzer: enough for every iteration the
potential permits from the initial one-element queue. -/
def analyzerFuel (b : BladeHtml) : Nat :=
  1 + analyzerWeight b []

/-- BladeHtml.analyzeTemplateDependencies. -/
def BladeHtml.analyzeTemplateDependencies (b : BladeHtml) (initialTemplateName : Str) : List Str :=
  BladeHtml.analyzeLoopF b (analyzerFuel b) [initialTemplateName] [] []

/-- replace with a non-global regex: only the first match replaced. -/
def replaceFirstAux (p : Pat) (f : Caps → Str) : Nat → Str → Str
  | _, [] => []
  | 0, s => s
  | n + 1, c :: s =>
    match matchAt p (c :: s) with
    | some (cs, rest) => f cs ++ rest
    | none => c :: replaceFirstAux p f n s

/-- First-match-only replace. -/
def replaceFirst (p : Pat) (f : Caps → Str) (s : Str) : Str :=
  replaceFirstAux p f s.length s

/-- The default-slot placeholder regex of the dynamic template
components. -/
def patSlotOrContent : Pat :=
  pseqs [.lit obrace, .lit obrace, wsStar, .grp 1 (.alt (pstr (str "slot")) (pstr (str "content"))),
    wsStar, .lit cbrace, .lit cbrace]

/-- ['"\s]. -/
def isQuoteWS (c : Char) : Bool := isQuoteChar c || isWS c

/-- The named-slot placeholder regex built per slot name. -/
def patNamedSlot (slotName : Str) : Pat :=
  pseqs [.lit obrace, .lit obrace, wsStar, pstr (str "slot"), .lit '(',
    .starG (.cls isQuoteWS), pstr slotName, .starG (.cls isQuoteWS), .lit ')', wsStar,
    .lit cbrace, .lit cbrace]

/-- The TemplateComponent class registerUsedComponents builds from a
registered template: interpolate the template over the instance props,
then substitute the first default-slot placeholder and every named-slot
placeholder (the replacement text is spliced as-is; none of the
claims exercises dollar patterns in slot text). -/
def templateComponentClass (templateContent : Str) : CompClass :=
  { renderImpl := fun props slots =>
      let inst : Component := { props := props, slots := slots }
      let content := Component.processExpressions inst templateContent
      slots.foldl
        (fun content sl =>
          if sl.1 = str "default" then replaceFirst patSlotOrContent (fun _ => sl.2) content
          else replaceG (patNamedSlot sl.1) (fun _ => sl.2) content)
        content }

/-- BladeHtml.registerUsedComponents: for every analyzed name not yet
registered under either spelling, build a TemplateComponent from the
registered template content found under the full or the short name and
register it under both; names without a backing template are skipped. -/
def BladeHtml.registerUsedComponents (b : BladeHtml) (usedComponents : List Str) : BladeHtml :=
  usedComponents.foldl
    (fun b componentName =>
      let shortName :=
        if (str "components.").isPrefixOf componentName then
          componentName.drop (str "components.").length
        else componentName
      let fullName :=
        if hasSub (str ".") componentName then componentName
        else str "components." ++ componentName
      if assocHas b.componentRegistry shortName ∨ assocHas b.componentRegistry fullName then b
      else if BladeHtml.loadComponent b componentName then b
      else
        match Engine.getTemplateContent b.engine fullName with
        | .ok templateContent =>
          BladeHtml.registerComponent
            (BladeHtml.registerComponent b fullName (templateComponentClass templateContent))
            shortName (templateComponentClass templateContent)
        | .error _ =>
          match Engine.getTemplateContent b.engine shortName with
          | .ok templateContent =>
            BladeHtml.registerComponent
              (BladeHtml.registerComponent b fullName (templateComponentClass templateContent))
              shortName (templateComponentClass templateContent)
          | .error _ => b)
    b

/-- BladeHtml.loadTemplatesAndRegisterComponents: template discovery is
the absent filesystem collaborator, so the call reduces to the
dependency analysis and the registration of the components it found. -/
def BladeHtml.loadTemplatesAndRegisterComponents (b : BladeHtml) (initialTemplate : Str) : BladeHtml :=
  BladeHtml.registerUsedComponents b (BladeHtml.analyzeTemplateDependencies b initialTemplate)

/-- The component-creation callback BladeHtml.render hands to
ComponentProcessor: a registered name is instantiated; an unregistered
bare name falls back to the default-namespaced class through a
forwarding component (whose slot copy iterates Object.entries of a Map
and therefore copies nothing); everything else fails soft. -/
def BladeHtml.createForRender (reg : CompRegistry) (componentName : Str) (props : Ctx) :
    Option CompInst :=
  if assocHas reg componentName then
    match ComponentRegistry.create reg componentName props with
    | .ok inst => some inst
    | .error _ => none
  else if ¬ hasSub (str ".") componentName then
    match assocGet reg (str "components." ++ componentName) with
    | some cls =>
      some { cls := { renderImpl := fun props _ => cls.renderImpl props [] },
             props := props, slots := [] }
    | none => none
  else none

/-- BladeHtml.render: alias guard, inline-template detection (the
Date.now suffix of the generated inline name is modelled as a
constant), dependency loading, data binding, the fatal lookup, the
engine render, then the component pass over the snapshot of the
registry. -/
def BladeHtml.render (b : BladeHtml) (nameOrContent : Str) (data : Ctx) : Except Str Str :=
  if hasSub (str "::") nameOrContent ∧
      ¬ assocHas b.aliases ((jsSplitSub (str "::") nameOrContent).headI) then
    .error (str "Alias " ++ squote :: (jsSplitSub (str "::") nameOrContent).headI ++
      squote :: str " is not registered")
  else
    let isRegistered := (Engine.getTemplateContent b.engine nameOrContent).isOk
    let inline : Bool := !isRegistered &&
      (hasSub (str "@") nameOrContent || hasSub [obrace, obrace] nameOrContent ||
       hasSub (str "<") nameOrContent ||
       !(decide (nameOrContent ≠ []) && nameOrContent.all isWordDot))
    let templateName := if inline then str "inline_template_0" else nameOrContent
    let b1 := if inline then BladeHtml.registerTemplate b templateName nameOrContent else b
    let b2 := BladeHtml.loadTemplatesAndRegisterComponents b1 templateName
    let b3 := { b2 with engine := Engine.setData b2.engine data }
    match Engine.getTemplateContent b3.engine templateName with
    | .error _ => .error (str "Template " ++ squote :: templateName ++ squote :: str " not found")
    | .ok _ => do
      let content ← Engine.render (b3.engine.templates.length + 1) b3.engine templateName
      .ok (ComponentProcessor.process content
        (fun n p => BladeHtml.createForRender b3.componentRegistry n p) data)

/-- BladeHtml.renderComponent. -/
def BladeHtml.renderComponent (b : BladeHtml) (name : Str) (props : Ctx)
    (slots : List (Str × Str)) : Except Str Str :=
  ComponentRegistry.render b.componentRegistry name props slots

/-- The first mandatory literal of a pattern, when it has one. -/
def firstLit : Pat → Option Char
  | .lit c => some c
  | .seq a _ => firstLit a
  | _ => none

/-- All prefix/suffix splits of a word, shortest prefix first. -/
def prefixSplits : Str → List (Str × Str)
  | [] => [([], [])]
  | c :: rest => ([], c :: rest) :: (prefixSplits rest).map (fun pr => (c :: pr.1, pr.2))

/-- The splits a lazy class star enumerates: every prefix of the leading
run of class characters, shortest first, paired with the corresponding
suffix. -/
def lazySplits (p : Char → Bool) : Str → List (Str × Str)
  | [] => [([], [])]
  | c :: rest =>
    ([], c :: rest) ::
      (if p c then (lazySplits p rest).map (fun pr => (c :: pr.1, pr.2)) else [])

/-- The leading single-character obligation of a pattern, when it has
one: the first literal or class it must consume. -/
def headCls : Pat → Option (Char → Bool)
  | .lit c => some (fun d => d = c)
  | .cls p => some p
  | .seq a _ => headCls a
  | .grp _ a => headCls a
  | _ => none

/-- The splits of a run followed by more text: every proper prefix of
the run (the run continues into the tail only through the recursive
part). -/
def properSplits : Str → Str → List (Str × Str)
  | [], _ => []
  | c :: w', rest => ([], c :: (w' ++ rest)) :: (properSplits w' rest).map (fun pr => (c :: pr.1, pr.2))

/-- No suffix of pre starts a match when followed by t. -/
def NoMatchIn (p : Pat) (pre t : Str) : Prop :=
  ∀ sfx : Str, sfx <:+ pre → sfx ≠ [] → matchAt p (sfx ++ t) = none

/-- Text free of the two pattern-head characters: no directive pass and
no interpolation pass can start a match inside it. -/
def PlainStr (s : Str) : Prop := ∀ c ∈ s, c ≠ '@' ∧ c ≠ obrace

/-- A non-empty word-character string. -/
def WordStr (s : Str) : Prop := s ≠ [] ∧ ∀ c ∈ s, isWordChar c = true

/-- Quote-free plain text, the side condition of the yield passes. -/
def PlainQF (s : Str) : Prop :=
  ∀ c ∈ s, c ≠ '@' ∧ c ≠ obrace ∧ isQuoteChar c = false

/-- The C1 template fragments. -/
def extendsInst (L : Str) : Str := str "@extends(" ++ squote :: L ++ [squote, ')']

def sectionInst (nm X : Str) : Str :=
  str "@section(" ++ squote :: nm ++ squote :: ')' :: (X ++ str "@endsection")

def yieldBareInst (nm : Str) : Str := str "@yield(" ++ squote :: nm ++ [squote, ')']

def yieldDefInst (nm d : Str) : Str :=
  str "@yield(" ++ squote :: nm ++ squote :: ',' :: squote :: d ++ [squote, ')']

/-- Single-line, quote-free plain text: fit to stand as a default
argument inside a yield directive. -/
def InlineQF (s : Str) : Prop :=
  ∀ c ∈ s, isDotChar c = true ∧ isQuoteChar c = false ∧ c ≠ '@' ∧ c ≠ obrace

/-- The custom-directive invocation text. -/
def customInst (dn arg : Str) : Str := '@' :: dn ++ ('(' :: arg ++ [')'])

/-- A foreach region with single separating spaces. -/
def foreachInst (ex v body : Str) : Str :=
  str "@foreach(" ++ (ex ++ (' ' :: (str "as " ++ (v ++ (')' :: (body ++ str "@endforeach"))))))

/-- An identifier with dots. -/
def WordDotStr (s : Str) : Prop := s ≠ [] ∧ ∀ c ∈ s, isWordDot c = true

/-- A bare interpolation region. -/
def exprInst (x : Str) : Str := obrace :: obrace :: (x ++ [cbrace, cbrace])

/-- The nested-property walk with the context threaded. -/
def nestedWalkSt : List Str → JVal → Ctx → (Except Unit JVal) × Ctx
  | [], current, st => (.ok current, st)
  | part :: rest, current, st =>
    match current with
    | .nul => (.ok .undef, st)
    | .undef => (.ok .undef, st)
    | cur =>
      match jsIn part cur with
      | .error u => (.error u, st)
      | .ok isIn =>
        if isIn then nestedWalkSt rest (jsGetK part cur) st else (.ok .undef, st)

/-- getNestedProperty over the context object, context threaded. -/
def ExpressionEvaluator.getNestedPropertySt (st : Ctx) (path : Str) :
    (Except Unit JVal) × Ctx :=
  if !(jsTruthy (.obj st)) || path.isEmpty then (.ok .undef, st)
  else
    match jsIn path (.obj st) with
    | .error u => (.error u, st)
    | .ok topIn =>
      if topIn then (.ok (jsGetK path (.obj st)), st)
      else nestedWalkSt (jsSplitCh '.' path) (.obj st) st

/-- evaluate with the context threaded. -/
def ExpressionEvaluator.evaluateSt (expr : Str) (st : Ctx) : JVal × Ctx :=
  if (expr.head? = some squote ∧ expr.getLast? = some squote) ∨
     (expr.head? = some dquote ∧ expr.getLast? = some dquote) then
    (.s ((expr.drop 1).dropLast), st)
  else if looksSimple expr then
    match ExpressionEvaluator.getNestedPropertySt st expr with
    | (.ok v, st1) => (v, st1)
    | (.error _, st1) => (.nul, st1)
  else
    (filtrexEval (ExpressionEvaluator.prepareExpression expr) st, st)

/-- evaluateCondition with the context threaded. -/
def ExpressionEvaluator.evaluateConditionSt (condition : Str) (st : Ctx) :
    (Except Unit Bool) × Ctx :=
  if looksSimple condition then
    match ExpressionEvaluator.getNestedPropertySt st condition with
    | (.ok v, st1) => (.ok (jsTruthy v), st1)
    | (.error u, st1) => (.error u, st1)
  else
    match ExpressionEvaluator.evaluateSt condition st with
    | (v, st1) => (.ok (jsTruthy v), st1)

/-- processObjectProperty with the context threaded alongside the result
object under construction. -/
def ExpressionEvaluator.processObjectPropertySt (propExpr : Str) (resultObj : Ctx)
    (st : Ctx) : Ctx × Ctx :=
  let propParts := jsSplitCh ':' propExpr
  if propParts.length < 2 then (resultObj, st)
  else
    let key := stripEdgeQuotes (jsTrim propParts.headI)
    let valueExpr := jsTrim (List.intercalate [':'] propParts.tail)
    if valueExpr ≠ [] ∧ valueExpr.all isWordChar ∧ ctxHas st valueExpr then
      (ctxSet resultObj key ((ctxGet st valueExpr).getD .undef), st)
    else if (valueExpr.head? = some squote ∧ valueExpr.getLast? = some squote) ∨
      (valueExpr.head? = some dquote ∧ valueExpr.getLast? = some dquote) then
      (ctxSet resultObj key (.s ((valueExpr.drop 1).dropLast)), st)
    else
      match ExpressionEvaluator.evaluateSt valueExpr st with
      | (v, st1) => (ctxSet resultObj key v, st1)

/-- The chunk fold of evaluateObject with the context threaded. -/
def processChunksSt (st : Ctx) : List Str → Ctx → Ctx × Ctx
  | [], acc => (acc, st)
  | [last], acc =>
    if jsTrim last = [] then (acc, st)
    else ExpressionEvaluator.processObjectPropertySt last acc st
  | p :: rest, acc =>
    match ExpressionEvaluator.processObjectPropertySt p acc st with
    | (acc1, st1) => processChunksSt st1 rest acc1

/-- evaluateObject with the context threaded. -/
def ExpressionEvaluator.evaluateObjectSt (objectExpr : Str) (st : Ctx) : JVal × Ctx :=
  let cleanExpr := stripObjTrail (stripObjLead (jsTrim objectExpr))
  if ctxHas st cleanExpr then ((ctxGet st cleanExpr).getD .undef, st)
  else
    match processChunksSt st (splitTopCommaAux cleanExpr 0 []) [] with
    | (result, st1) => (.obj result, st1)

/-! ## Matcher lemmas

The instance lemmas below settle, once and for all, how the transcribed
patterns behave on texts of known shape; the claim proofs are assembled
from them. -/

theorem flatMap_nil_of {α β : Type} (l : List α) (f : α → List β)
    (h : ∀ a ∈ l, f a = []) : l.flatMap f = [] := by
  induction l with
  | nil => rfl
  | cons x xs ih =>
    simp only [List.flatMap_cons, h x (by simp)]
    exact ih (fun a ha => h a (by simp [ha]))

theorem head_flatMap_first_success {α β : Type} (l1 : List α) (x : α) (l2 : List α)
    (f : α → List β) (y : β) (ys : List β)
    (h1 : ∀ a ∈ l1, f a = []) (hx : f x = y :: ys) :
    ((l1 ++ x :: l2).flatMap f).head? = some y := by
  rw [List.flatMap_append, flatMap_nil_of l1 f h1]
  simp [hx]

theorem runs_eps_eq (s : Str) (cs : Caps) : Pat.runs .eps s cs = [(s, cs)] := rfl

theorem runs_seq_eq (a b : Pat) (s : Str) (cs : Caps) :
    Pat.runs (.seq a b) s cs = (a.runs s cs).flatMap (fun r => b.runs r.1 r.2) := rfl

theorem runs_alt_eq (a b : Pat) (s : Str) (cs : Caps) :
    Pat.runs (.alt a b) s cs = a.runs s cs ++ b.runs s cs := rfl

theorem runs_grp_eq (i : Nat) (a : Pat) (s : Str) (cs : Caps) :
    Pat.runs (.grp i a) s cs =
      (a.runs s cs).map (fun r => (r.1, capSet i (s.take (s.length - r.1.length)) r.2)) := rfl

theorem runs_lit_cons_eq (c d : Char) (s : Str) (cs : Caps) :
    Pat.runs (.lit c) (d :: s) cs = if d = c then [(s, cs)] else [] := rfl

theorem runs_cls_cons_eq (p : Char → Bool) (d : Char) (s : Str) (cs : Caps) :
    Pat.runs (.cls p) (d :: s) cs = if p d then [(s, cs)] else [] := rfl

theorem runs_lit_nil (c : Char) (cs : Caps) : Pat.runs (.lit c) [] cs = [] := rfl

theorem runs_cls_nil (p : Char → Bool) (cs : Caps) : Pat.runs (.cls p) [] cs = [] := rfl

/-- Reassociation of sequencing (flatMap associativity). -/
theorem runs_seq_assoc (a b k : Pat) (s : Str) (cs : Caps) :
    Pat.runs (.seq (.seq a b) k) s cs = Pat.runs (.seq a (.seq b k)) s cs := by
  simp only [runs_seq_eq]
  exact List.flatMap_assoc (a.runs s cs) _ _

/-- Consuming a matching literal at the head of a sequence. -/
theorem runs_seq_lit (c : Char) (k : Pat) (t : Str) (cs : Caps) :
    Pat.runs (.seq (.lit c) k) (c :: t) cs = k.runs t cs := by
  simp [runs_seq_eq, runs_lit_cons_eq]

theorem runs_seq_lit_ne (c d : Char) (k : Pat) (t : Str) (cs : Caps) (h : d ≠ c) :
    Pat.runs (.seq (.lit c) k) (d :: t) cs = [] := by
  simp [runs_seq_eq, runs_lit_cons_eq, h]

theorem runs_seq_lit_nil (c : Char) (k : Pat) (cs : Caps) :
    Pat.runs (.seq (.lit c) k) [] cs = [] := rfl

theorem runs_seq_cls (p : Char → Bool) (k : Pat) (c : Char) (t : Str) (cs : Caps)
    (h : p c = true) :
    Pat.runs (.seq (.cls p) k) (c :: t) cs = k.runs t cs := by
  simp [runs_seq_eq, runs_cls_cons_eq, h]

theorem runs_seq_cls_ne (p : Char → Bool) (k : Pat) (c : Char) (t : Str) (cs : Caps)
    (h : p c = false) :
    Pat.runs (.seq (.cls p) k) (c :: t) cs = [] := by
  simp [runs_seq_eq, runs_cls_cons_eq, h]

theorem runs_seq_cls_nil (p : Char → Bool) (k : Pat) (cs : Caps) :
    Pat.runs (.seq (.cls p) k) [] cs = [] := rfl

theorem runs_seq_eps (k : Pat) (s : Str) (cs : Caps) :
    Pat.runs (.seq .eps k) s cs = k.runs s cs := by
  simp [runs_seq_eq, runs_eps_eq]

theorem runs_firstLit_ne (p : Pat) (a c : Char) (s : Str) (cs : Caps)
    (hl : firstLit p = some a) (hc : c ≠ a) : p.runs (c :: s) cs = [] := by
  induction p generalizing s cs with
  | lit d =>
    have : d = a := by simpa [firstLit] using hl
    subst this
    simp [Pat.runs, hc]
  | seq x y ihx _ =>
    have hx : firstLit x = some a := by simpa [firstLit] using hl
    rw [runs_seq_eq, ihx s cs hx]
    rfl
  | _ => simp_all [firstLit]

theorem runs_firstLit_nil (p : Pat) (a : Char) (cs : Caps)
    (hl : firstLit p = some a) : p.runs [] cs = [] := by
  induction p generalizing cs with
  | lit d => rfl
  | seq x y ihx _ =>
    have hx : firstLit x = some a := by simpa [firstLit] using hl
    rw [runs_seq_eq, ihx cs hx]
    rfl
  | _ => simp_all [firstLit]

theorem matchAt_firstLit_ne (p : Pat) (a c : Char) (s : Str)
    (hl : firstLit p = some a) (hc : c ≠ a) : matchAt p (c :: s) = none := by
  simp [matchAt, runs_firstLit_ne p a c s [] hl hc]

/-- Consuming a literal word at the head of a sequence. -/
theorem runs_seq_pstr (l : Str) (k : Pat) (t : Str) (cs : Caps) :
    Pat.runs (.seq (pstr l) k) (l ++ t) cs = k.runs t cs := by
  induction l generalizing cs with
  | nil => simpa [pstr] using runs_seq_eps k t cs
  | cons c l ih =>
    cases l with
    | nil => simpa [pstr] using runs_seq_lit c k t cs
    | cons d l' =>
      show Pat.runs (.seq (.seq (.lit c) (pstr (d :: l'))) k) (c :: (d :: l' ++ t)) cs = _
      rw [runs_seq_assoc, runs_seq_lit]
      exact ih cs

/-- A literal word failing inside a known prefix kills the sequence. -/
theorem runs_seq_pstr_ne (l : Str) (k : Pat) (s t : Str) (cs : Caps)
    (hpre : l.isPrefixOf s = false) (hlen : l.length ≤ s.length) :
    Pat.runs (.seq (pstr l) k) (s ++ t) cs = [] := by
  induction l generalizing s t cs with
  | nil => simp [List.isPrefixOf] at hpre
  | cons c l ih =>
    cases s with
    | nil => simp at hlen
    | cons d s' =>
      by_cases hcd : d = c
      · subst hcd
        have hpre' : l.isPrefixOf s' = false := by
          simpa [List.isPrefixOf] using hpre
        have hlen' : l.length ≤ s'.length := by simpa using hlen
        cases l with
        | nil => simp [List.isPrefixOf] at hpre'
        | cons e l' =>
          show Pat.runs (.seq (.seq (.lit d) (pstr (e :: l'))) k) (d :: (s' ++ t)) cs = _
          rw [runs_seq_assoc, runs_seq_lit]
          exact ih s' t cs hpre' hlen'
      · cases l with
        | nil => exact runs_seq_lit_ne c d k (s' ++ t) cs hcd
        | cons e l' =>
          show Pat.runs (.seq (.seq (.lit c) (pstr (e :: l'))) k) (d :: (s' ++ t)) cs = _
          rw [runs_seq_assoc]
          exact runs_seq_lit_ne c d _ (s' ++ t) cs hcd

theorem lazySplits_ne_nil (p : Char → Bool) (s : Str) : lazySplits p s ≠ [] := by
  cases s <;> simp [lazySplits]

theorem lazySplits_head (p : Char → Bool) (s : Str) :
    ∃ tail, lazySplits p s = ([], s) :: tail := by
  cases s <;> simp [lazySplits]

theorem lazySplits_append (p : Char → Bool) (s : Str) :
    ∀ pr ∈ lazySplits p s, pr.1 ++ pr.2 = s := by
  induction s with
  | nil => simp [lazySplits]
  | cons c rest ih =>
    intro pr hpr
    rw [lazySplits] at hpr
    rcases List.mem_cons.mp hpr with h | h
    · simp [h]
    · by_cases hc : p c
      · rw [if_pos hc] at h
        simp only [List.mem_map] at h
        obtain ⟨q, hq, rfl⟩ := h
        simp [ih q hq]
      · rw [if_neg hc] at h
        simp at h

theorem starIterL_cls (p : Char → Bool) :
    ∀ (n : Nat) (s : Str) (cs : Caps), s.length ≤ n →
      starIterL (fun s' cs' => (Pat.cls p).runs s' cs') n s cs =
        (lazySplits p s).map (fun pr => (pr.2, cs)) := by
  intro n
  induction n with
  | zero =>
    intro s cs hs
    have : s = [] := by
      cases s with
      | nil => rfl
      | cons c t => simp at hs
    subst this
    rfl
  | succ n ih =>
    intro s cs hs
    cases s with
    | nil => simp [starIterL, lazySplits, Pat.runs]
    | cons c t =>
      by_cases hc : p c
      · have ht : t.length ≤ n := by simpa using hs
        simp only [starIterL, runs_cls_cons_eq, if_pos hc, List.flatMap_cons,
          List.flatMap_nil, List.append_nil, List.length_cons, lazySplits, ih t cs ht,
          Nat.lt_succ_self, if_pos, List.map_cons, List.map_map]
        constructor
      · simp [starIterL, runs_cls_cons_eq, hc, lazySplits]

theorem runs_starL_cls (p : Char → Bool) (s : Str) (cs : Caps) :
    Pat.runs (.starL (.cls p)) s cs = (lazySplits p s).map (fun pr => (pr.2, cs)) := by
  show starIterL _ s.length s cs = _
  exact starIterL_cls p s.length s cs (Nat.le_refl _)

theorem starIterG_cls (p : Char → Bool) :
    ∀ (n : Nat) (s : Str) (cs : Caps), s.length ≤ n →
      starIterG (fun s' cs' => (Pat.cls p).runs s' cs') n s cs =
        ((lazySplits p s).reverse).map (fun pr => (pr.2, cs)) := by
  intro n
  induction n with
  | zero =>
    intro s cs hs
    have : s = [] := by
      cases s with
      | nil => rfl
      | cons c t => simp at hs
    subst this
    rfl
  | succ n ih =>
    intro s cs hs
    cases s with
    | nil => simp [starIterG, lazySplits, Pat.runs]
    | cons c t =>
      by_cases hc : p c
      · have ht : t.length ≤ n := by simpa using hs
        simp only [starIterG, runs_cls_cons_eq, if_pos hc, List.flatMap_cons,
          List.flatMap_nil, List.append_nil, List.length_cons, lazySplits, ih t cs ht,
          Nat.lt_succ_self, if_pos, List.reverse_cons, List.map_append, List.map_reverse,
          List.map_map, List.map_cons, List.map_nil]
        constructor
      · simp [starIterG, runs_cls_cons_eq, hc, lazySplits]

theorem runs_starG_cls (p : Char → Bool) (s : Str) (cs : Caps) :
    Pat.runs (.starG (.cls p)) s cs = ((lazySplits p s).reverse).map (fun pr => (pr.2, cs)) := by
  show starIterG _ s.length s cs = _
  exact starIterG_cls p s.length s cs (Nat.le_refl _)

/-- The captured text of a group over a class star is the consumed
prefix. -/
theorem take_sub_of_split (pre suf : Str) :
    (pre ++ suf).take ((pre ++ suf).length - suf.length) = pre := by
  have : (pre ++ suf).length - suf.length = pre.length := by
    simp [List.length_append]
  rw [this]
  exact List.take_left pre suf

theorem runs_seq_grp_starL_cls (i : Nat) (p : Char → Bool) (k : Pat) (s : Str) (cs : Caps) :
    Pat.runs (.seq (.grp i (.starL (.cls p))) k) s cs =
      (lazySplits p s).flatMap (fun pr => k.runs pr.2 (capSet i pr.1 cs)) := by
  rw [runs_seq_eq, runs_grp_eq, runs_starL_cls, List.map_map, List.flatMap_map]
  apply List.flatMap_congr
  intro pr hpr
  have h := lazySplits_append p s pr hpr
  simp only [Function.comp]
  rw [← h, take_sub_of_split pr.1 pr.2]

theorem runs_seq_grp_starG_cls (i : Nat) (p : Char → Bool) (k : Pat) (s : Str) (cs : Caps) :
    Pat.runs (.seq (.grp i (.starG (.cls p))) k) s cs =
      ((lazySplits p s).reverse).flatMap (fun pr => k.runs pr.2 (capSet i pr.1 cs)) := by
  rw [runs_seq_eq, runs_grp_eq, runs_starG_cls, List.map_map, List.flatMap_map]
  apply List.flatMap_congr
  intro pr hpr
  have h := lazySplits_append p s pr (List.mem_reverse.mp hpr)
  simp only [Function.comp]
  rw [← h, take_sub_of_split pr.1 pr.2]

theorem runs_headCls_ne (k : Pat) (q : Char → Bool) (c : Char) (s : Str) (cs : Caps)
    (hq : headCls k = some q) (hc : q c = false) : k.runs (c :: s) cs = [] := by
  induction k generalizing s cs with
  | lit d =>
    have hd : (fun x => decide (x = d)) = q := by simpa [headCls] using hq
    rw [runs_lit_cons_eq]
    have : (c = d) = False := by
      have := hd ▸ hc
      simpa using this
    simp [this]
  | cls p =>
    have hp : p = q := by simpa [headCls] using hq
    rw [runs_cls_cons_eq, hp, hc]
    rfl
  | seq a b iha _ =>
    have ha : headCls a = some q := by simpa [headCls] using hq
    rw [runs_seq_eq, iha s cs ha]
    rfl
  | grp i a iha =>
    have ha : headCls a = some q := by simpa [headCls] using hq
    rw [runs_grp_eq, iha s cs ha]
    rfl
  | _ => simp_all [headCls]

theorem runs_headCls_nil (k : Pat) (q : Char → Bool) (cs : Caps)
    (hq : headCls k = some q) : k.runs [] cs = [] := by
  induction k generalizing cs with
  | lit d => rfl
  | cls p => rfl
  | seq a b iha _ =>
    have ha : headCls a = some q := by simpa [headCls] using hq
    rw [runs_seq_eq, iha cs ha]
    rfl
  | grp i a iha =>
    have ha : headCls a = some q := by simpa [headCls] using hq
    rw [runs_grp_eq, iha cs ha]
    rfl
  | _ => simp_all [headCls]

theorem properSplits_suffix_shape (w rest : Str) :
    ∀ pr ∈ properSplits w rest, ∃ c t, pr.2 = c :: t ∧ c ∈ w := by
  induction w generalizing rest with
  | nil => simp [properSplits]
  | cons c w' ih =>
    intro pr hpr
    rw [properSplits] at hpr
    rcases List.mem_cons.mp hpr with h | h
    · exact ⟨c, w' ++ rest, by simp [h], by simp⟩
    · simp only [List.mem_map] at h
      obtain ⟨q, hq, rfl⟩ := h
      obtain ⟨d, t, ht, hd⟩ := ih rest q hq
      exact ⟨d, t, ht, by simp [hd]⟩

theorem lazySplits_append_allP (p : Char → Bool) (w rest : Str)
    (hw : ∀ c ∈ w, p c = true) :
    lazySplits p (w ++ rest) =
      properSplits w rest ++ (lazySplits p rest).map (fun pr => (w ++ pr.1, pr.2)) := by
  induction w with
  | nil => simp [properSplits]
  | cons c w' ih =>
    have hc : p c = true := hw c (by simp)
    have hw' : ∀ d ∈ w', p d = true := fun d hd => hw d (by simp [hd])
    show lazySplits p (c :: (w' ++ rest)) = _
    rw [lazySplits, if_pos hc, ih hw']
    simp [properSplits, List.map_map, Function.comp]

/-- A class run stopping before rest (rest empty or its head outside
the class) makes the lazy splits exactly the run prefixes. -/
theorem lazySplits_stop (p : Char → Bool) (w rest : Str)
    (hw : ∀ c ∈ w, p c = true)
    (hstop : rest = [] ∨ ∃ c t, rest = c :: t ∧ p c = false) :
    lazySplits p (w ++ rest) = properSplits w rest ++ [(w, rest)] := by
  rw [lazySplits_append_allP p w rest hw]
  rcases hstop with h | ⟨c, t, rfl, hc⟩
  · subst h
    simp [lazySplits]
  · rw [lazySplits, if_neg (by simp [hc])]
    simp

/-- A lazy captured group running to a stop the continuation recognises:
the first successful split captures exactly the run before the
continuation, and it decides the match. -/
theorem head_seq_grp_starL (i : Nat) (p q : Char → Bool) (k : Pat) (w rest : Str)
    (cs : Caps) (y : Str × Caps)
    (hw : ∀ c ∈ w, p c = true)
    (hq : headCls k = some q)
    (hwq : ∀ c ∈ w, q c = false)
    (hk : (k.runs rest (capSet i w cs)).head? = some y) :
    (Pat.runs (.seq (.grp i (.starL (.cls p))) k) (w ++ rest) cs).head? = some y := by
  obtain ⟨ys, hk⟩ : ∃ tl, k.runs rest (capSet i w cs) = y :: tl := by
    cases hrk : k.runs rest (capSet i w cs) with
    | nil => rw [hrk] at hk; simp at hk
    | cons z tl =>
      rw [hrk] at hk
      have hz : z = y := by simpa using hk
      exact ⟨tl, by rw [hz]⟩
  rw [runs_seq_grp_starL_cls, lazySplits_append_allP p w rest hw]
  obtain ⟨tail, htail⟩ := lazySplits_head p rest
  rw [htail, List.map_cons]
  refine head_flatMap_first_success (properSplits w rest) (w ++ [], rest)
    (tail.map (fun pr => (w ++ pr.1, pr.2))) (fun pr => k.runs pr.2 (capSet i pr.1 cs))
    y ys ?_ ?_
  · intro a ha
    obtain ⟨c, t, hct, hcw⟩ := properSplits_suffix_shape w rest a ha
    show k.runs a.2 (capSet i a.1 cs) = []
    rw [hct]
    exact runs_headCls_ne k q c t _ hq (hwq c hcw)
  · show Pat.runs k rest (capSet i (w ++ []) cs) = y :: ys
    rw [List.append_nil, hk]

theorem take_cons_split (c : Char) (pre suf : Str) :
    (c :: (pre ++ suf)).take ((c :: (pre ++ suf)).length - suf.length) = c :: pre := by
  have : (c :: (pre ++ suf)).length - suf.length = pre.length + 1 := by
    simp [List.length_append]
    omega
  rw [this]
  simp [List.take_succ_cons, List.take_left]

/-- A captured greedy plus over a class: the class head consumed, then
every split of the remaining text in longest-first order. -/
theorem runs_seq_grp_plusG_cls (i : Nat) (p : Char → Bool) (k : Pat) (c : Char) (t : Str)
    (cs : Caps) (hc : p c = true) :
    Pat.runs (.seq (.grp i (pplus (.cls p))) k) (c :: t) cs =
      ((lazySplits p t).reverse).flatMap (fun pr => k.runs pr.2 (capSet i (c :: pr.1) cs)) := by
  show Pat.runs (.seq (.grp i (.seq (.cls p) (.starG (.cls p)))) k) (c :: t) cs = _
  rw [runs_seq_eq, runs_grp_eq, List.flatMap_map]
  rw [runs_seq_cls _ _ _ _ _ hc, runs_starG_cls, List.flatMap_map]
  apply List.flatMap_congr
  intro pr hpr
  have h := lazySplits_append p t pr (List.mem_reverse.mp hpr)
  simp only [Function.comp]
  rw [← h, take_cons_split c pr.1 pr.2]

/-- A greedy captured plus running to a stop the continuation accepts:
the longest split comes first and decides the match. -/
theorem head_seq_grp_plusG (i : Nat) (p : Char → Bool) (k : Pat) (c : Char) (w' rest : Str)
    (cs : Caps) (y : Str × Caps)
    (hc : p c = true)
    (hw : ∀ d ∈ w', p d = true)
    (hstop : rest = [] ∨ ∃ d t, rest = d :: t ∧ p d = false)
    (hk : (k.runs rest (capSet i (c :: w') cs)).head? = some y) :
    (Pat.runs (.seq (.grp i (pplus (.cls p))) k) ((c :: w') ++ rest) cs).head? = some y := by
  obtain ⟨ys, hk⟩ : ∃ tl, k.runs rest (capSet i (c :: w') cs) = y :: tl := by
    cases hrk : k.runs rest (capSet i (c :: w') cs) with
    | nil => rw [hrk] at hk; simp at hk
    | cons z tl =>
      rw [hrk] at hk
      have hz : z = y := by simpa using hk
      exact ⟨tl, by rw [hz]⟩
  show (Pat.runs (.seq (.grp i (pplus (.cls p))) k) (c :: (w' ++ rest)) cs).head? = some y
  rw [runs_seq_grp_plusG_cls i p k c (w' ++ rest) cs hc,
    lazySplits_stop p w' rest hw hstop]
  simp only [List.reverse_append, List.reverse_cons, List.reverse_nil, List.nil_append,
    List.singleton_append, List.flatMap_cons]
  rw [hk]
  rfl

/-- A whitespace star before a non-whitespace character consumes
nothing. -/
theorem runs_seq_wsStar_skip (k : Pat) (c : Char) (t : Str) (cs : Caps)
    (hc : isWS c = false) :
    Pat.runs (.seq wsStar k) (c :: t) cs = k.runs (c :: t) cs := by
  show Pat.runs (.seq (.starG (.cls isWS)) k) (c :: t) cs = _
  rw [runs_seq_eq, runs_starG_cls, lazySplits, if_neg (by simp [hc])]
  simp

theorem runs_seq_wsStar_nil (k : Pat) (cs : Caps) :
    Pat.runs (.seq wsStar k) [] cs = k.runs [] cs := by
  show Pat.runs (.seq (.starG (.cls isWS)) k) [] cs = _
  rw [runs_seq_eq, runs_starG_cls, lazySplits]
  simp

/-- A whitespace star greedily swallowing an actual run of whitespace:
the longest branch comes first and decides the match. -/
theorem head_seq_wsStar_run (k : Pat) (w rest : Str) (cs : Caps) (y : Str × Caps)
    (hw : ∀ c ∈ w, isWS c = true)
    (hstop : rest = [] ∨ ∃ d t, rest = d :: t ∧ isWS d = false)
    (hk : (k.runs rest cs).head? = some y) :
    (Pat.runs (.seq wsStar k) (w ++ rest) cs).head? = some y := by
  obtain ⟨ys, hk⟩ : ∃ tl, k.runs rest cs = y :: tl := by
    cases hrk : k.runs rest cs with
    | nil => rw [hrk] at hk; simp at hk
    | cons z tl =>
      rw [hrk] at hk
      have hz : z = y := by simpa using hk
      exact ⟨tl, by rw [hz]⟩
  show (Pat.runs (.seq (.starG (.cls isWS)) k) (w ++ rest) cs).head? = some y
  rw [runs_seq_eq, runs_starG_cls, lazySplits_stop isWS w rest hw hstop]
  simp only [List.reverse_append, List.reverse_cons, List.reverse_nil, List.nil_append,
    List.singleton_append, List.map_cons, List.flatMap_cons, hk]
  rfl

/-- A literal word standing alone. -/
theorem runs_pstr_self (l : Str) (t : Str) (cs : Caps) :
    Pat.runs (pstr l) (l ++ t) cs = [(t, cs)] := by
  induction l generalizing cs with
  | nil => rfl
  | cons c l ih =>
    cases l with
    | nil => simp [pstr, Pat.runs]
    | cons d l' =>
      show Pat.runs (.seq (.lit c) (pstr (d :: l'))) (c :: (d :: l' ++ t)) cs = _
      rw [runs_seq_lit]
      exact ih cs

theorem runs_pstr_no_pre (l s : Str) (cs : Caps) (h : l.isPrefixOf s = false) :
    Pat.runs (pstr l) s cs = [] := by
  induction l generalizing s cs with
  | nil => simp [List.isPrefixOf] at h
  | cons c l ih =>
    cases s with
    | nil =>
      cases l with
      | nil => rfl
      | cons d l' => rfl
    | cons e s' =>
      by_cases hce : e = c
      · subst hce
        have h' : l.isPrefixOf s' = false := by simpa [List.isPrefixOf] using h
        cases l with
        | nil => simp [List.isPrefixOf] at h'
        | cons d l' =>
          show Pat.runs (.seq (.lit e) (pstr (d :: l'))) (e :: s') cs = []
          rw [runs_seq_lit]
          exact ih s' cs h'
      · cases l with
        | nil => simp [pstr, Pat.runs, hce]
        | cons d l' =>
          show Pat.runs (.seq (.lit c) (pstr (d :: l'))) (e :: s') cs = []
          exact runs_seq_lit_ne c e _ s' cs hce

/-- A trailing epsilon changes nothing. -/
theorem runs_seq_eps_right (a : Pat) (s : Str) (cs : Caps) :
    Pat.runs (.seq a .eps) s cs = a.runs s cs := by
  rw [runs_seq_eq]
  induction a.runs s cs with
  | nil => rfl
  | cons r rs ih => simp [List.flatMap_cons, runs_eps_eq, ih]

/-- A failing optional group is skipped. -/
theorem runs_seq_popt_fail (x k : Pat) (s : Str) (cs : Caps)
    (hx : x.runs s cs = []) :
    Pat.runs (.seq (popt x) k) s cs = k.runs s cs := by
  show Pat.runs (.seq (.alt x .eps) k) s cs = _
  rw [runs_seq_eq, runs_alt_eq, hx]
  simp [runs_eps_eq]

/-- head of a mapped list. -/
theorem head_map {α β : Type} (f : α → β) (l : List α) :
    (l.map f).head? = l.head?.map f := by
  cases l <;> rfl

/-- A final captured greedy plus: the longest split decides. -/
theorem head_grp_plusG_final (i : Nat) (p : Char → Bool) (c : Char) (w' rest : Str) (cs : Caps)
    (hc : p c = true)
    (hw : ∀ d ∈ w', p d = true)
    (hstop : rest = [] ∨ ∃ d t, rest = d :: t ∧ p d = false) :
    (Pat.runs (.grp i (pplus (.cls p))) ((c :: w') ++ rest) cs).head? =
      some (rest, capSet i (c :: w') cs) := by
  have h := runs_seq_grp_plusG_cls i p .eps c (w' ++ rest) cs hc
  rw [runs_seq_eps_right] at h
  rw [show (c :: w') ++ rest = c :: (w' ++ rest) from rfl, h,
    lazySplits_stop p w' rest hw hstop]
  simp [List.reverse_append, runs_eps_eq]

/-- matchAt from a computed head. -/
theorem matchAt_of_head (p : Pat) (s : Str) (caps : Caps) (rest : Str)
    (h : (p.runs s []).head? = some (rest, caps)) :
    matchAt p s = some (caps, rest) := by
  unfold matchAt
  cases hr : p.runs s [] with
  | nil => rw [hr] at h; simp at h
  | cons r rs =>
    rw [hr] at h
    have : r = (rest, caps) := by simpa using h
    rw [this]

/-- searchFirst when the pattern already matches at the start. -/
theorem searchFirst_of_matchAt (p : Pat) (s : Str) (caps : Caps) (rest : Str)
    (h : matchAt p s = some (caps, rest)) :
    searchFirst p s = some caps := by
  cases s with
  | nil => simp [searchFirst, searchFirstAux, h]
  | cons c t => simp [searchFirst, searchFirstAux, h]

theorem suffix_append_cases {s a b : Str} (h : s <:+ (a ++ b)) :
    s <:+ b ∨ ∃ a', a' <:+ a ∧ a' ≠ [] ∧ s = a' ++ b := by
  induction a with
  | nil => exact Or.inl (by simpa using h)
  | cons c a' ih =>
    rcases List.suffix_cons_iff.mp h with h1 | h2
    · exact Or.inr ⟨c :: a', List.suffix_refl _, by simp, by simpa using h1⟩
    · rcases ih h2 with h3 | ⟨a'', ha'', hne, rfl⟩
      · exact Or.inl h3
      · exact Or.inr ⟨a'', ha''.trans (List.suffix_cons c a'), hne, rfl⟩

theorem noMatchIn_nil (p : Pat) (t : Str) : NoMatchIn p [] t := by
  intro sfx hs hne
  cases List.eq_nil_of_suffix_nil hs
  simp at hne

theorem noMatchIn_append (p : Pat) (a b t : Str)
    (ha : NoMatchIn p a (b ++ t)) (hb : NoMatchIn p b t) :
    NoMatchIn p (a ++ b) t := by
  intro sfx hs hne
  rcases suffix_append_cases hs with h1 | ⟨a', ha', hne', rfl⟩
  · exact hb sfx h1 hne
  · rw [List.append_assoc]
    exact ha a' ha' hne'

/-- A region free of the leading literal cannot start a match. -/
theorem noMatchIn_safe (p : Pat) (ch : Char) (pre t : Str)
    (hf : firstLit p = some ch) (hpre : ∀ c ∈ pre, c ≠ ch) :
    NoMatchIn p pre t := by
  intro sfx hs hne
  cases sfx with
  | nil => simp at hne
  | cons c rest =>
    exact matchAt_firstLit_ne p ch c (rest ++ t) hf
      (hpre c (hs.subset (by simp)))

theorem noMatchIn_cons (p : Pat) (c : Char) (body t : Str)
    (hhead : matchAt p (c :: (body ++ t)) = none)
    (hbody : NoMatchIn p body t) :
    NoMatchIn p (c :: body) t := by
  intro sfx hs hne
  rcases List.suffix_cons_iff.mp hs with h1 | h2
  · rw [h1]
    exact hhead
  · exact hbody sfx h2 hne

theorem replaceGAux_skip_pre (p : Pat) (f : Caps → Str) (pre t : Str)
    (h : NoMatchIn p pre t) :
    ∀ n, pre.length ≤ n →
      replaceGAux p f n (pre ++ t) = pre ++ replaceGAux p f (n - pre.length) t := by
  induction pre with
  | nil => intro n _; simp
  | cons c pre' ih =>
    intro n hn
    cases n with
    | zero => simp at hn
    | succ m =>
      show replaceGAux p f (m + 1) (c :: (pre' ++ t)) = _
      have hm : matchAt p (c :: (pre' ++ t)) = none := by
        simpa using h (c :: pre') (List.suffix_refl _) (by simp)
      rw [replaceGAux, hm]
      have h' : NoMatchIn p pre' t := fun sfx hs hne =>
        h sfx (hs.trans (List.suffix_cons c pre')) hne
      rw [ih h' m (by simpa using hn)]
      simp [Nat.succ_sub_succ]

theorem replaceGAux_id (p : Pat) (f : Caps → Str) (s : Str)
    (h : NoMatchIn p s []) : ∀ n, replaceGAux p f n s = s := by
  induction s with
  | nil => intro n; cases n <;> rfl
  | cons c s' ih =>
    intro n
    cases n with
    | zero => rfl
    | succ m =>
      have hm : matchAt p (c :: s') = none := by
        have := h (c :: s') (List.suffix_refl _) (by simp)
        simpa using this
      show replaceGAux p f (m + 1) (c :: s') = _
      rw [replaceGAux, hm]
      have h' : NoMatchIn p s' [] := fun sfx hs hne =>
        h sfx (hs.trans (List.suffix_cons c s')) hne
      rw [ih h' m]

/-- One step of the global replace at the match site. -/
theorem replaceGAux_emit (p : Pat) (f : Caps → Str) (c : Char) (s : Str) (caps : Caps)
    (rest : Str) (m : Nat)
    (hm : matchAt p (c :: s) = some (caps, rest))
    (hlt : rest.length < (c :: s).length) :
    replaceGAux p f (m + 1) (c :: s) = f caps ++ replaceGAux p f m rest := by
  rw [replaceGAux, hm]
  simp [hlt]
  intro hc
  exfalso
  simp only [List.length_cons] at hlt
  omega

/-- A global replace over a text with exactly one match region. -/
theorem replaceG_region (p : Pat) (f : Caps → Str) (pre inst post : Str) (caps : Caps)
    (hpre : NoMatchIn p pre (inst ++ post))
    (hm : matchAt p (inst ++ post) = some (caps, post))
    (hinst : inst ≠ [])
    (hpost : NoMatchIn p post []) :
    replaceG p f (pre ++ (inst ++ post)) = pre ++ (f caps ++ post) := by
  unfold replaceG
  rw [replaceGAux_skip_pre p f pre (inst ++ post) hpre _ (by simp [List.length_append])]
  congr 1
  have hlen : (pre ++ (inst ++ post)).length - pre.length = inst.length + post.length := by
    simp [List.length_append]
  rw [hlen]
  cases inst with
  | nil => simp at hinst
  | cons c inst' =>
    have hm' : matchAt p (c :: (inst' ++ post)) = some (caps, post) := by simpa using hm
    have hstep : inst'.length + 1 + post.length = (inst'.length + post.length) + 1 := by omega
    show replaceGAux p f ((c :: inst').length + post.length) (c :: (inst' ++ post)) = _
    simp only [List.length_cons]
    rw [hstep, replaceGAux_emit p f c (inst' ++ post) caps post _ hm'
      (by simp only [List.length_cons, List.length_append]; omega)]
    rw [replaceGAux_id p f post hpost]

/-- A global replace over a text with no match anywhere. -/
theorem replaceG_id (p : Pat) (f : Caps → Str) (s : Str)
    (h : NoMatchIn p s []) : replaceG p f s = s :=
  replaceGAux_id p f s h s.length

/-- The fallible replace over a text with no match anywhere. -/
theorem replaceGAuxE_id (p : Pat) (f : Caps → Except Str Str) (s : Str)
    (h : NoMatchIn p s []) : ∀ n, replaceGAuxE p f n s = .ok s := by
  induction s with
  | nil => intro n; cases n <;> rfl
  | cons c s' ih =>
    intro n
    cases n with
    | zero => rfl
    | succ m =>
      have hm : matchAt p (c :: s') = none := by
        simpa using h (c :: s') (List.suffix_refl _) (by simp)
      show replaceGAuxE p f (m + 1) (c :: s') = _
      rw [replaceGAuxE, hm]
      have h' : NoMatchIn p s' [] := fun sfx hs hne =>
        h sfx (hs.trans (List.suffix_cons c s')) hne
      rw [ih h' m]
      rfl

theorem replaceGE_id (p : Pat) (f : Caps → Except Str Str) (s : Str)
    (h : NoMatchIn p s []) : replaceGE p f s = .ok s :=
  replaceGAuxE_id p f s h s.length

/-- searchFirst over a clean prefix followed by a match. -/
theorem searchFirst_region (p : Pat) (pre s : Str) (caps : Caps) (rest : Str)
    (hpre : NoMatchIn p pre s)
    (hm : matchAt p s = some (caps, rest)) :
    searchFirst p (pre ++ s) = some caps := by
  unfold searchFirst
  suffices h : ∀ n, pre.length ≤ n → searchFirstAux p n (pre ++ s) = some caps by
    exact h _ (by simp [List.length_append])
  induction pre with
  | nil =>
    intro n _
    cases s with
    | nil => cases n <;> simp [searchFirstAux, hm]
    | cons c t => cases n <;> simp [searchFirstAux, hm]
  | cons c pre' ih =>
    intro n hn
    cases n with
    | zero => simp at hn
    | succ m =>
      have hnone : matchAt p (c :: (pre' ++ s)) = none := by
        simpa using hpre (c :: pre') (List.suffix_refl _) (by simp)
      show searchFirstAux p (m + 1) (c :: (pre' ++ s)) = _
      rw [searchFirstAux, hnone]
      exact ih (fun sfx hs hne => hpre sfx (hs.trans (List.suffix_cons c pre')) hne) m
        (by simpa using hn)

theorem searchFirst_none (p : Pat) (s : Str) (h : NoMatchIn p s [])
    (hnil : matchAt p [] = none) :
    searchFirst p s = none := by
  unfold searchFirst
  suffices hh : ∀ n s', NoMatchIn p s' [] → searchFirstAux p n s' = none by
    exact hh _ s h
  intro n
  induction n with
  | zero =>
    intro s' h'
    cases s' with
    | nil => simp [searchFirstAux, hnil]
    | cons c t =>
      have := h' (c :: t) (List.suffix_refl _) (by simp)
      simp only [List.append_nil] at this
      simp [searchFirstAux, this]
  | succ m ih =>
    intro s' h'
    cases s' with
    | nil => simp [searchFirstAux, hnil]
    | cons c t =>
      have hnone := h' (c :: t) (List.suffix_refl _) (by simp)
      simp only [List.append_nil] at hnone
      show searchFirstAux p (m + 1) (c :: t) = none
      rw [searchFirstAux, hnone]
      exact ih t (fun sfx hs hne => h' sfx (hs.trans (List.suffix_cons c t)) hne)

/-- The exec loop over a clean text: no matches collected. -/
theorem allMatchesAux_id (p : Pat) (s : Str) (h : NoMatchIn p s []) :
    ∀ n, allMatchesAux p n s = [] := by
  induction s with
  | nil => intro n; cases n <;> rfl
  | cons c s' ih =>
    intro n
    cases n with
    | zero => rfl
    | succ m =>
      have hm : matchAt p (c :: s') = none := by
        simpa using h (c :: s') (List.suffix_refl _) (by simp)
      show allMatchesAux p (m + 1) (c :: s') = _
      rw [allMatchesAux, hm]
      exact ih (fun sfx hs hne => h sfx (hs.trans (List.suffix_cons c s')) hne) m

theorem allMatchesAux_skip_pre (p : Pat) (pre t : Str)
    (h : NoMatchIn p pre t) :
    ∀ n, pre.length ≤ n →
      allMatchesAux p n (pre ++ t) = allMatchesAux p (n - pre.length) t := by
  induction pre with
  | nil => intro n _; simp
  | cons c pre' ih =>
    intro n hn
    cases n with
    | zero => simp at hn
    | succ m =>
      have hm : matchAt p (c :: (pre' ++ t)) = none := by
        simpa using h (c :: pre') (List.suffix_refl _) (by simp)
      show allMatchesAux p (m + 1) (c :: (pre' ++ t)) = _
      rw [allMatchesAux, hm]
      have h' : NoMatchIn p pre' t := fun sfx hs hne =>
        h sfx (hs.trans (List.suffix_cons c pre')) hne
      rw [ih h' m (by simpa using hn)]
      simp [Nat.succ_sub_succ]

/-- The exec loop over a text with exactly one match region. -/
theorem allMatches_region (p : Pat) (pre inst post : Str) (caps : Caps)
    (hpre : NoMatchIn p pre (inst ++ post))
    (hm : matchAt p (inst ++ post) = some (caps, post))
    (hinst : inst ≠ [])
    (hpost : NoMatchIn p post []) :
    allMatches p (pre ++ (inst ++ post)) = [caps] := by
  unfold allMatches
  rw [allMatchesAux_skip_pre p pre (inst ++ post) hpre _ (by simp [List.length_append])]
  have hlen : (pre ++ (inst ++ post)).length - pre.length = inst.length + post.length := by
    simp [List.length_append]
  rw [hlen]
  cases inst with
  | nil => simp at hinst
  | cons c inst' =>
    have hm' : matchAt p (c :: (inst' ++ post)) = some (caps, post) := by simpa using hm
    have hstep : inst'.length + 1 + post.length = (inst'.length + post.length) + 1 := by omega
    show allMatchesAux p ((c :: inst').length + post.length) (c :: (inst' ++ post)) = _
    simp only [List.length_cons]
    have hpos : List.length post < (c :: (inst' ++ post)).length := by
      simp only [List.length_cons, List.length_append]
      omega
    rw [hstep, allMatchesAux, hm']
    simp [hpos, allMatchesAux_id p post hpost]
    intro hc
    exfalso
    omega

theorem allMatches_id (p : Pat) (s : Str) (h : NoMatchIn p s []) :
    allMatches p s = [] :=
  allMatchesAux_id p s h s.length

/-! ## Character facts and plain text -/

theorem wordChar_ne (c d : Char) (h : isWordChar c = true) (hd : isWordChar d = false) :
    c ≠ d := by
  intro he
  rw [he, hd] at h
  cases h

theorem wordChar_not_quote (c : Char) (h : isWordChar c = true) : isQuoteChar c = false := by
  by_cases h1 : c = squote
  · subst h1; exact absurd h (by decide)
  · by_cases h2 : c = dquote
    · subst h2; exact absurd h (by decide)
    · simp [isQuoteChar, h1, h2]

theorem wordChar_notQuote_cls (c : Char) (h : isWordChar c = true) : isNotQuote c = true := by
  simp [isNotQuote, wordChar_not_quote c h]

theorem wordChar_not_ws (c : Char) (h : isWordChar c = true) : isWS c = false := by
  by_cases h1 : c = ' '
  · subst h1; exact absurd h (by decide)
  by_cases h2 : c = '\t'
  · subst h2; exact absurd h (by decide)
  by_cases h3 : c = '\n'
  · subst h3; exact absurd h (by decide)
  by_cases h4 : c = '\x0d'
  · subst h4; exact absurd h (by decide)
  by_cases h5 : c = '\x0c'
  · subst h5; exact absurd h (by decide)
  by_cases h6 : c = '\x0b'
  · subst h6; exact absurd h (by decide)
  simp [isWS, h1, h2, h3, h4, h5, h6]

theorem wordChar_dot (c : Char) (h : isWordChar c = true) : isDotChar c = true := by
  have h1 : c ≠ '\n' := wordChar_ne c '\n' h (by decide)
  have h2 : c ≠ '\x0d' := wordChar_ne c '\x0d' h (by decide)
  simp [isDotChar, h1, h2]

theorem wordStr_plain (s : Str) (h : WordStr s) : PlainStr s := by
  intro c hc
  exact ⟨wordChar_ne c '@' (h.2 c hc) (by decide), wordChar_ne c obrace (h.2 c hc) (by decide)⟩

theorem plainQF_plain (s : Str) (h : PlainQF s) : PlainStr s :=
  fun c hc => ⟨(h c hc).1, (h c hc).2.1⟩

/-! ## Extends, sections and yields: the C1 pipeline -/

theorem head_extends (L post : Str) (hL : WordStr L) :
    (Pat.runs patExtends (extendsInst L ++ post) []).head? =
      some (post, capSet 1 L []) := by
  obtain ⟨c, w', rfl⟩ : ∃ c w', L = c :: w' := by
    cases L with
    | nil => exact absurd rfl hL.1
    | cons c w' => exact ⟨c, w', rfl⟩
  have hshape : extendsInst (c :: w') ++ post =
      str "@extends" ++ ('(' :: squote :: ((c :: w') ++ (squote :: ')' :: post))) := by
    simp [extendsInst, str, squote]
  rw [hshape]
  show (Pat.runs (.seq (pstr (str "@extends"))
      (.seq wsStar (.seq (.lit '(') (.seq wsStar (.seq pquote
        (.seq (.grp 1 (pplus (.cls isNotQuote)))
          (.seq pquote (.seq wsStar (.lit ')'))))))))) _ []).head? = _
  simp only [pquote]
  rw [runs_seq_pstr, runs_seq_wsStar_skip _ '(' _ _ (by decide), runs_seq_lit,
    runs_seq_wsStar_skip _ squote _ _ (by decide), runs_seq_cls _ _ squote _ _ (by decide)]
  have hk : (Pat.runs (.seq (.cls isQuoteChar) (.seq wsStar (.lit ')'))) (squote :: ')' :: post)
      (capSet 1 (c :: w') [])).head? = some (post, capSet 1 (c :: w') []) := by
    rw [runs_seq_cls _ _ squote _ _ (by decide),
      runs_seq_wsStar_skip _ ')' _ _ (by decide), runs_lit_cons_eq]
    simp
  exact head_seq_grp_plusG 1 isNotQuote _ c w' (squote :: ')' :: post) [] _
    (wordChar_notQuote_cls c (hL.2 c (by simp)))
    (fun d hd => wordChar_notQuote_cls d (hL.2 d (by simp [hd])))
    (Or.inr ⟨squote, ')' :: post, rfl, by decide⟩) hk

theorem matchAt_extends (L post : Str) (hL : WordStr L) :
    matchAt patExtends (extendsInst L ++ post) = some (capSet 1 L [], post) :=
  matchAt_of_head _ _ _ _ (head_extends L post hL)

theorem head_section (nm X post : Str) (hnm : WordStr nm) (hX : PlainStr X) :
    (Pat.runs patSection (sectionInst nm X ++ post) []).head? =
      some (post, capSet 2 X (capSet 1 nm [])) := by
  obtain ⟨c, w', rfl⟩ : ∃ c w', nm = c :: w' := by
    cases nm with
    | nil => exact absurd rfl hnm.1
    | cons c w' => exact ⟨c, w', rfl⟩
  have hshape : sectionInst (c :: w') X ++ post =
      str "@section" ++ ('(' :: squote ::
        ((c :: w') ++ (squote :: ')' :: (X ++ (str "@endsection" ++ post))))) := by
    simp [sectionInst, str, squote]
  rw [hshape]
  show (Pat.runs (.seq (pstr (str "@section"))
      (.seq wsStar (.seq (.lit '(') (.seq wsStar (.seq pquote
        (.seq (.grp 1 (pplus (.cls isNotQuote)))
          (.seq pquote (.seq wsStar (.seq (.lit ')')
            (.seq (.grp 2 (.starL (.cls isAnyChar)))
              (pstr (str "@endsection")))))))))))) _ []).head? = _
  simp only [pquote]
  rw [runs_seq_pstr, runs_seq_wsStar_skip _ '(' _ _ (by decide), runs_seq_lit,
    runs_seq_wsStar_skip _ squote _ _ (by decide), runs_seq_cls _ _ squote _ _ (by decide)]
  have hk : (Pat.runs (.seq (.cls isQuoteChar) (.seq wsStar (.seq (.lit ')')
      (.seq (.grp 2 (.starL (.cls isAnyChar))) (pstr (str "@endsection"))))))
      (squote :: ')' :: (X ++ (str "@endsection" ++ post)))
      (capSet 1 (c :: w') [])).head? = some (post, capSet 2 X (capSet 1 (c :: w') [])) := by
    rw [runs_seq_cls _ _ squote _ _ (by decide),
      runs_seq_wsStar_skip _ ')' _ _ (by decide), runs_seq_lit]
    refine head_seq_grp_starL 2 isAnyChar (fun d => decide (d = '@')) _ X
      (str "@endsection" ++ post) _ _ (fun _ _ => rfl) rfl
      (fun d hd => by simp [(hX d hd).1]) ?_
    rw [runs_pstr_self]
    rfl
  exact head_seq_grp_plusG 1 isNotQuote _ c w' _ [] _
    (wordChar_notQuote_cls c (hnm.2 c (by simp)))
    (fun d hd => wordChar_notQuote_cls d (hnm.2 d (by simp [hd])))
    (Or.inr ⟨squote, _, rfl, by decide⟩) hk

theorem matchAt_section (nm X post : Str) (hnm : WordStr nm) (hX : PlainStr X) :
    matchAt patSection (sectionInst nm X ++ post) =
      some (capSet 2 X (capSet 1 nm []), post) :=
  matchAt_of_head _ _ _ _ (head_section nm X post hnm hX)

theorem runs_nil_of_sfx (k : Pat) (q : Char → Bool) (post : Str)
    (hq : headCls k = some q) (hpost : ∀ c ∈ post, q c = false)
    (suf : Str) (hs : suf <:+ post) (cs : Caps) : k.runs suf cs = [] := by
  cases suf with
  | nil => exact runs_headCls_nil k q cs hq
  | cons c t => exact runs_headCls_ne k q c t cs hq (hpost c (hs.subset (by simp)))

theorem head_yieldBare (nm post : Str) (hnm : WordStr nm) :
    (Pat.runs patYieldBare (yieldBareInst nm ++ post) []).head? =
      some (post, capSet 1 nm []) := by
  have hshape : yieldBareInst nm ++ post =
      str "@yield" ++ ('(' :: squote :: (nm ++ (squote :: ')' :: post))) := by
    simp [yieldBareInst, str, squote]
  rw [hshape]
  show (Pat.runs (.seq (pstr (str "@yield"))
      (.seq wsStar (.seq (.lit '(') (.seq wsStar (.seq pquote
        (.seq (dotsLazy 1) (.seq pquote (.seq wsStar (.lit ')'))))))))) _ []).head? = _
  simp only [pquote, dotsLazy]
  rw [runs_seq_pstr, runs_seq_wsStar_skip _ '(' _ _ (by decide), runs_seq_lit,
    runs_seq_wsStar_skip _ squote _ _ (by decide), runs_seq_cls _ _ squote _ _ (by decide)]
  have hk : (Pat.runs (.seq (.cls isQuoteChar) (.seq wsStar (.lit ')')))
      (squote :: ')' :: post) (capSet 1 nm [])).head? = some (post, capSet 1 nm []) := by
    rw [runs_seq_cls _ _ squote _ _ (by decide),
      runs_seq_wsStar_skip _ ')' _ _ (by decide), runs_lit_cons_eq]
    simp
  exact head_seq_grp_starL 1 isDotChar isQuoteChar _ nm (squote :: ')' :: post) [] _
    (fun d hd => wordChar_dot d (hnm.2 d hd)) rfl
    (fun d hd => wordChar_not_quote d (hnm.2 d hd)) hk

theorem matchAt_yieldBare (nm post : Str) (hnm : WordStr nm) :
    matchAt patYieldBare (yieldBareInst nm ++ post) = some (capSet 1 nm [], post) :=
  matchAt_of_head _ _ _ _ (head_yieldBare nm post hnm)

theorem head_yieldDef (nm d post : Str) (hnm : WordStr nm)
    (hd1 : ∀ c ∈ d, isDotChar c = true) (hd2 : ∀ c ∈ d, isQuoteChar c = false) :
    (Pat.runs patYieldDefault (yieldDefInst nm d ++ post) []).head? =
      some (post, capSet 2 d (capSet 1 nm [])) := by
  have hshape : yieldDefInst nm d ++ post =
      str "@yield" ++ ('(' :: squote ::
        (nm ++ (squote :: ',' :: squote :: (d ++ (squote :: ')' :: post))))) := by
    simp [yieldDefInst, str, squote]
  rw [hshape]
  show (Pat.runs (.seq (pstr (str "@yield"))
      (.seq wsStar (.seq (.lit '(') (.seq wsStar (.seq pquote
        (.seq (dotsLazy 1) (.seq pquote (.seq wsStar (.seq (.lit ',')
          (.seq wsStar (.seq pquote (.seq (dotsLazy 2)
            (.seq pquote (.seq wsStar (.lit ')'))))))))))))))) _ []).head? = _
  simp only [pquote, dotsLazy]
  rw [runs_seq_pstr, runs_seq_wsStar_skip _ '(' _ _ (by decide), runs_seq_lit,
    runs_seq_wsStar_skip _ squote _ _ (by decide), runs_seq_cls _ _ squote _ _ (by decide)]
  have hk : (Pat.runs (.seq (.cls isQuoteChar) (.seq wsStar (.seq (.lit ',')
      (.seq wsStar (.seq (.cls isQuoteChar) (.seq (.grp 2 (.starL (.cls isDotChar)))
        (.seq (.cls isQuoteChar) (.seq wsStar (.lit ')')))))))))
      (squote :: ',' :: squote :: (d ++ (squote :: ')' :: post)))
      (capSet 1 nm [])).head? = some (post, capSet 2 d (capSet 1 nm [])) := by
    rw [runs_seq_cls _ _ squote _ _ (by decide),
      runs_seq_wsStar_skip _ ',' _ _ (by decide), runs_seq_lit,
      runs_seq_wsStar_skip _ squote _ _ (by decide),
      runs_seq_cls _ _ squote _ _ (by decide)]
    have hk2 : (Pat.runs (.seq (.cls isQuoteChar) (.seq wsStar (.lit ')')))
        (squote :: ')' :: post) (capSet 2 d (capSet 1 nm []))).head? =
          some (post, capSet 2 d (capSet 1 nm [])) := by
      rw [runs_seq_cls _ _ squote _ _ (by decide),
        runs_seq_wsStar_skip _ ')' _ _ (by decide), runs_lit_cons_eq]
      simp
    exact head_seq_grp_starL 2 isDotChar isQuoteChar _ d (squote :: ')' :: post) _ _
      hd1 rfl hd2 hk2
  exact head_seq_grp_starL 1 isDotChar isQuoteChar _ nm _ [] _
    (fun c hc => wordChar_dot c (hnm.2 c hc)) rfl
    (fun c hc => wordChar_not_quote c (hnm.2 c hc)) hk

theorem matchAt_yieldDef (nm d post : Str) (hnm : WordStr nm)
    (hd1 : ∀ c ∈ d, isDotChar c = true) (hd2 : ∀ c ∈ d, isQuoteChar c = false) :
    matchAt patYieldDefault (yieldDefInst nm d ++ post) =
      some (capSet 2 d (capSet 1 nm []), post) :=
  matchAt_of_head _ _ _ _ (head_yieldDef nm d post hnm hd1 hd2)

theorem matchAt_yieldDefault_bare (nm post : Str) (hnm : WordStr nm)
    (hpost : ∀ c ∈ post, isQuoteChar c = false) :
    matchAt patYieldDefault (yieldBareInst nm ++ post) = none := by
  have hshape : yieldBareInst nm ++ post =
      str "@yield" ++ ('(' :: squote :: (nm ++ (squote :: ')' :: post))) := by
    simp [yieldBareInst, str, squote]
  have hruns : Pat.runs patYieldDefault (yieldBareInst nm ++ post) [] = [] := by
    rw [hshape]
    show Pat.runs (.seq (pstr (str "@yield"))
      (.seq wsStar (.seq (.lit '(') (.seq wsStar (.seq pquote
        (.seq (dotsLazy 1) (.seq pquote (.seq wsStar (.seq (.lit ',')
          (.seq wsStar (.seq pquote (.seq (dotsLazy 2)
            (.seq pquote (.seq wsStar (.lit ')'))))))))))))))) _ [] = []
    simp only [pquote, dotsLazy]
    rw [runs_seq_pstr, runs_seq_wsStar_skip _ '(' _ _ (by decide), runs_seq_lit,
      runs_seq_wsStar_skip _ squote _ _ (by decide), runs_seq_cls _ _ squote _ _ (by decide),
      runs_seq_grp_starL_cls]
    apply flatMap_nil_of
    intro pr hpr
    have hsfx : pr.2 <:+ nm ++ (squote :: ')' :: post) :=
      ⟨pr.1, lazySplits_append _ _ pr hpr⟩
    rcases suffix_append_cases hsfx with h1 | ⟨a', ha', hne, heq⟩
    · rcases List.suffix_cons_iff.mp h1 with he | h2
      · rw [he, runs_seq_cls _ _ squote _ _ (by decide),
          runs_seq_wsStar_skip _ ')' _ _ (by decide)]
        exact runs_seq_lit_ne ',' ')' _ post _ (by decide)
      · rcases List.suffix_cons_iff.mp h2 with he | h3
        · rw [he]
          exact runs_headCls_ne _ isQuoteChar ')' post _ rfl (by decide)
        · exact runs_nil_of_sfx _ isQuoteChar post (by rfl) hpost pr.2 h3 _
    · obtain ⟨c, t, rfl⟩ : ∃ c t, a' = c :: t := by
        cases a' with
        | nil => exact absurd rfl hne
        | cons c t => exact ⟨c, t, rfl⟩
      rw [heq]
      exact runs_headCls_ne _ isQuoteChar c _ _ rfl
        (wordChar_not_quote c (hnm.2 c (ha'.subset (by simp))))
  unfold matchAt
  rw [hruns]

theorem forall_ne_wrap (ch : Char) (a : Str) (q : Char) (L suf : Str)
    (hA : ∀ c ∈ a, c ≠ ch) (hq : q ≠ ch) (hL : ∀ c ∈ L, c ≠ ch)
    (hS : ∀ c ∈ suf, c ≠ ch) :
    ∀ c ∈ a ++ (q :: (L ++ suf)), c ≠ ch := by
  intro c hc
  rcases List.mem_append.mp hc with h | h
  · exact hA c h
  · rcases List.mem_cons.mp h with rfl | h
    · exact hq
    · rcases List.mem_append.mp h with h | h
      · exact hL c h
      · exact hS c h

theorem matchAt_section_at_extends (L Z : Str) :
    matchAt patSection (extendsInst L ++ Z) = none := by
  have hshape : extendsInst L ++ Z =
      str "@extends(" ++ (squote :: (L ++ ([squote, ')'] ++ Z))) := by
    simp [extendsInst, str, squote]
  have hruns : Pat.runs patSection (extendsInst L ++ Z) [] = [] := by
    rw [hshape]
    show Pat.runs (.seq (pstr (str "@section"))
      (.seq wsStar (.seq (.lit '(') (.seq wsStar (.seq pquote
        (.seq (.grp 1 (pplus (.cls isNotQuote)))
          (.seq pquote (.seq wsStar (.seq (.lit ')')
            (.seq (.grp 2 (.starL (.cls isAnyChar)))
              (pstr (str "@endsection")))))))))))) _ [] = []
    exact runs_seq_pstr_ne (str "@section") _ (str "@extends(") _ [] (by decide) (by decide)
  unfold matchAt
  rw [hruns]

theorem noMatchIn_section_extends (L Z : Str) (hL : ∀ c ∈ L, c ≠ '@') :
    NoMatchIn patSection (extendsInst L) Z := by
  show NoMatchIn patSection ('@' :: (str "extends(" ++ (squote :: (L ++ [squote, ')'])))) Z
  apply noMatchIn_cons
  · have hshape : '@' :: ((str "extends(" ++ (squote :: (L ++ [squote, ')']))) ++ Z) =
        extendsInst L ++ Z := by
      simp [extendsInst, str, squote]
    rw [hshape]
    exact matchAt_section_at_extends L Z
  · exact noMatchIn_safe _ '@' _ _ rfl
      (forall_ne_wrap '@' (str "extends(") squote L [squote, ')']
        (by decide) (by decide) hL (by decide))

theorem noMatchIn_yieldDefault_parent (nm P1 P2 : Str) (hnm : WordStr nm)
    (hP1 : PlainStr P1) (hP2 : PlainQF P2) :
    NoMatchIn patYieldDefault (P1 ++ (yieldBareInst nm ++ P2)) [] := by
  apply noMatchIn_append
  · exact noMatchIn_safe _ '@' _ _ rfl (fun c hc => (hP1 c hc).1)
  · apply noMatchIn_append
    · show NoMatchIn patYieldDefault
        ('@' :: (str "yield(" ++ (squote :: (nm ++ [squote, ')'])))) (P2 ++ [])
      apply noMatchIn_cons
      · have hshape : '@' :: ((str "yield(" ++ (squote :: (nm ++ [squote, ')']))) ++ (P2 ++ [])) =
            yieldBareInst nm ++ (P2 ++ []) := by
          simp [yieldBareInst, str, squote]
        rw [hshape]
        exact matchAt_yieldDefault_bare nm (P2 ++ []) hnm
          (by intro c hc; rw [List.append_nil] at hc; exact (hP2 c hc).2.2)
      · exact noMatchIn_safe _ '@' _ _ rfl
          (forall_ne_wrap '@' (str "yield(") squote nm [squote, ')']
            (by decide) (by decide)
            (fun c hc => wordChar_ne c '@' (hnm.2 c hc) (by decide)) (by decide))
    · exact noMatchIn_safe _ '@' _ _ rfl (fun c hc => (hP2 c hc).1)

theorem processDirectives_plain (renderFn : Engine → Str → Except Str Str) (e : Engine)
    (S : Str) (hdir : e.directives = []) (hS : PlainStr S) :
    Engine.processDirectivesWith renderFn e S = .ok S := by
  have h1 : ∀ c ∈ S, c ≠ '@' := fun c hc => (hS c hc).1
  have hid1 : replaceG patYieldDirect
      (fun cs => jsOrStr (assocGet e.sections (capGetD 1 cs [])) []) S = S :=
    replaceG_id _ _ _ (noMatchIn_safe _ '@' S [] rfl h1)
  have hid2 : replaceG patIf (Engine.ifMatch e) S = S :=
    replaceG_id _ _ _ (noMatchIn_safe _ '@' S [] rfl h1)
  have hid3 : replaceG patFor (Engine.processForMatch e) S = S :=
    replaceG_id _ _ _ (noMatchIn_safe _ '@' S [] rfl h1)
  have hid4 : replaceG patForeach (Engine.foreachMatch e) S = S :=
    replaceG_id _ _ _ (noMatchIn_safe _ '@' S [] rfl h1)
  have hid5 : replaceGE patInclude (Engine.includeMatch renderFn e) S = .ok S :=
    replaceGE_id _ _ _ (noMatchIn_safe _ '@' S [] rfl h1)
  unfold Engine.processDirectivesWith
  simp [hid1, hid2, hid3, hid4, hid5, hdir]
  rfl

theorem processExpressions_plain (e : Engine) (S : Str) (hS : PlainStr S) :
    Engine.processExpressions e S = S := by
  unfold Engine.processExpressions
  exact replaceG_id _ _ _ (noMatchIn_safe _ obrace S [] rfl (fun c hc => (hS c hc).2))

theorem sectionInst_ne_nil (nm X : Str) : sectionInst nm X ≠ [] := by
  simp [sectionInst]

theorem yieldBareInst_ne_nil (nm : Str) : yieldBareInst nm ≠ [] := by
  simp [yieldBareInst]

theorem yieldDefInst_ne_nil (nm d : Str) : yieldDefInst nm d ≠ [] := by
  simp [yieldDefInst]

theorem processYields_capture (e : Engine) (nm X P1 P2 : Str)
    (hsec : assocGet e.sections nm = some X)
    (hnm : WordStr nm) (hP1 : PlainStr P1) (hP2 : PlainQF P2) :
    Engine.processYields e (P1 ++ (yieldBareInst nm ++ P2)) = P1 ++ (X ++ P2) := by
  unfold Engine.processYields
  rw [replaceG_id _ _ _ (noMatchIn_yieldDefault_parent nm P1 P2 hnm hP1 hP2)]
  rw [replaceG_region patYieldBare _ P1 (yieldBareInst nm) P2 (capSet 1 nm [])
    (noMatchIn_safe _ '@' _ _ rfl (fun c hc => (hP1 c hc).1))
    (matchAt_yieldBare nm P2 hnm)
    (yieldBareInst_ne_nil nm)
    (noMatchIn_safe _ '@' _ _ rfl (fun c hc => (hP2 c hc).1))]
  have : jsOrStr (assocGet e.sections (capGetD 1 (capSet 1 nm []) [])) [] = X := by
    simp [capGetD, capGet, capSet, hsec, jsOrStr]
  rw [this]

theorem inlineQF_plain (s : Str) (h : InlineQF s) : PlainStr s :=
  fun c hc => ⟨(h c hc).2.2.1, (h c hc).2.2.2⟩

theorem processYields_default (e : Engine) (nm d P1 P2 : Str)
    (hsec : assocGet e.sections nm = none)
    (hnm : WordStr nm) (hd : InlineQF d) (hP1 : PlainStr P1) (hP2 : PlainQF P2) :
    Engine.processYields e (P1 ++ (yieldDefInst nm d ++ P2)) = P1 ++ (d ++ P2) := by
  unfold Engine.processYields
  rw [replaceG_region patYieldDefault _ P1 (yieldDefInst nm d) P2
    (capSet 2 d (capSet 1 nm []))
    (noMatchIn_safe _ '@' _ _ rfl (fun c hc => (hP1 c hc).1))
    (matchAt_yieldDef nm d P2 hnm (fun c hc => (hd c hc).1) (fun c hc => (hd c hc).2.1))
    (yieldDefInst_ne_nil nm d)
    (noMatchIn_safe _ '@' _ _ rfl (fun c hc => (hP2 c hc).1))]
  have hval : jsOrStr (assocGet e.sections (capGetD 1 (capSet 2 d (capSet 1 nm [])) []))
      (capGetD 2 (capSet 2 d (capSet 1 nm [])) []) = d := by
    simp [capGetD, capGet, capSet, hsec, jsOrStr]
  rw [hval]
  apply replaceG_id
  apply noMatchIn_safe patYieldBare '@' _ _ (by rfl)
  intro c hc
  rcases List.mem_append.mp hc with h | h
  · exact (hP1 c h).1
  · rcases List.mem_append.mp h with h | h
    · exact (hd c h).2.2.1
    · exact (hP2 c h).1

theorem processYields_empty (e : Engine) (nm P1 P2 : Str)
    (hsec : assocGet e.sections nm = none)
    (hnm : WordStr nm) (hP1 : PlainStr P1) (hP2 : PlainQF P2) :
    Engine.processYields e (P1 ++ (yieldBareInst nm ++ P2)) = P1 ++ P2 := by
  unfold Engine.processYields
  rw [replaceG_id _ _ _ (noMatchIn_yieldDefault_parent nm P1 P2 hnm hP1 hP2)]
  rw [replaceG_region patYieldBare _ P1 (yieldBareInst nm) P2 (capSet 1 nm [])
    (noMatchIn_safe _ '@' _ _ rfl (fun c hc => (hP1 c hc).1))
    (matchAt_yieldBare nm P2 hnm)
    (yieldBareInst_ne_nil nm)
    (noMatchIn_safe _ '@' _ _ rfl (fun c hc => (hP2 c hc).1))]
  have hval : jsOrStr (assocGet e.sections (capGetD 1 (capSet 1 nm []) [])) [] = [] := by
    simp [capGetD, capGet, capSet, hsec, jsOrStr]
  rw [hval]
  simp

theorem renderWith_c1_capture (renderFn : Engine → Str → Except Str Str) (e : Engine)
    (cn pn nm X P1 P2 : Str)
    (hdir : e.directives = [])
    (hpn : WordStr pn) (hnm : WordStr nm) (hX : PlainStr X)
    (hP1 : PlainStr P1) (hP2 : PlainQF P2)
    (htc : assocGet e.templates cn = some (extendsInst pn ++ sectionInst nm X))
    (htp : assocGet e.templates pn = some (P1 ++ (yieldBareInst nm ++ P2))) :
    Engine.renderWith renderFn e cn = .ok (P1 ++ (X ++ P2)) := by
  have hchild_ne : extendsInst pn ++ sectionInst nm X ≠ [] := by
    simp [extendsInst]
  have h1 : Engine.getTemplateContent e cn = .ok (extendsInst pn ++ sectionInst nm X) := by
    unfold Engine.getTemplateContent
    rw [htc]
    simp [hchild_ne]
  have hsearch : searchFirst patExtends (extendsInst pn ++ sectionInst nm X) =
      some (capSet 1 pn []) :=
    searchFirst_of_matchAt _ _ _ _ (matchAt_extends pn (sectionInst nm X) hpn)
  have hsections : allMatches patSection (extendsInst pn ++ sectionInst nm X) =
      [capSet 2 X (capSet 1 nm [])] := by
    have hshape : extendsInst pn ++ sectionInst nm X =
        extendsInst pn ++ (sectionInst nm X ++ []) := by simp
    rw [hshape]
    exact allMatches_region _ _ _ _ _
      (noMatchIn_section_extends pn _ (fun c hc => wordChar_ne c '@' (hpn.2 c hc) (by decide)))
      (matchAt_section nm X [] hnm hX)
      (sectionInst_ne_nil nm X)
      (noMatchIn_nil _ _)
  have hext : Engine.processExtends { e with sections := [] }
        (extendsInst pn ++ sectionInst nm X) =
      .ok ({ e with sections := [(nm, X)] }, P1 ++ (yieldBareInst nm ++ P2)) := by
    unfold Engine.processExtends Engine.processSections
    simp [hsearch, hsections, capGetD, capGet, capSet, assocSet, htp]
  have hyields : Engine.processYields { e with sections := [(nm, X)] }
      (P1 ++ (yieldBareInst nm ++ P2)) = P1 ++ (X ++ P2) :=
    processYields_capture _ nm X P1 P2 (by simp [assocGet]) hnm hP1 hP2
  have hplain : PlainStr (P1 ++ (X ++ P2)) := by
    intro c hc
    rcases List.mem_append.mp hc with h | h
    · exact hP1 c h
    · rcases List.mem_append.mp h with h | h
      · exact hX c h
      · exact plainQF_plain P2 hP2 c h
  have hdirs : Engine.processDirectivesWith renderFn { e with sections := [(nm, X)] }
      (P1 ++ (X ++ P2)) = .ok (P1 ++ (X ++ P2)) :=
    processDirectives_plain renderFn _ _ (by simpa using hdir) hplain
  have hexprs : Engine.processExpressions { e with sections := [(nm, X)] }
      (P1 ++ (X ++ P2)) = P1 ++ (X ++ P2) :=
    processExpressions_plain _ _ hplain
  unfold Engine.renderWith
  rw [h1]
  simp only [bind, Except.bind]
  rw [hext]
  simp only [bind, Except.bind]
  rw [hyields, hdirs]
  simp only [bind, Except.bind]
  rw [hexprs]

theorem renderWith_c1_default (renderFn : Engine → Str → Except Str Str) (e : Engine)
    (cn pn nm d P1 P2 : Str)
    (hdir : e.directives = [])
    (hpn : WordStr pn) (hnm : WordStr nm) (hd : InlineQF d)
    (hP1 : PlainStr P1) (hP2 : PlainQF P2)
    (htc : assocGet e.templates cn = some (extendsInst pn))
    (htp : assocGet e.templates pn = some (P1 ++ (yieldDefInst nm d ++ P2))) :
    Engine.renderWith renderFn e cn = .ok (P1 ++ (d ++ P2)) := by
  have hchild_ne : extendsInst pn ≠ [] := by
    simp [extendsInst]
  have h1 : Engine.getTemplateContent e cn = .ok (extendsInst pn) := by
    unfold Engine.getTemplateContent
    rw [htc]
    simp [hchild_ne]
  have hm : matchAt patExtends (extendsInst pn) = some (capSet 1 pn [], []) := by
    have h := matchAt_extends pn [] hpn
    simpa using h
  have hsearch : searchFirst patExtends (extendsInst pn) = some (capSet 1 pn []) :=
    searchFirst_of_matchAt _ _ _ _ hm
  have hsections : allMatches patSection (extendsInst pn) = [] :=
    allMatches_id _ _ (noMatchIn_section_extends pn []
      (fun c hc => wordChar_ne c '@' (hpn.2 c hc) (by decide)))
  have hext : Engine.processExtends { e with sections := [] } (extendsInst pn) =
      .ok ({ e with sections := [] }, P1 ++ (yieldDefInst nm d ++ P2)) := by
    unfold Engine.processExtends Engine.processSections
    simp [hsearch, hsections, capGetD, capGet, capSet, htp]
  have hyields : Engine.processYields { e with sections := [] }
      (P1 ++ (yieldDefInst nm d ++ P2)) = P1 ++ (d ++ P2) :=
    processYields_default _ nm d P1 P2 rfl hnm hd hP1 hP2
  have hplain : PlainStr (P1 ++ (d ++ P2)) := by
    intro c hc
    rcases List.mem_append.mp hc with h | h
    · exact hP1 c h
    · rcases List.mem_append.mp h with h | h
      · exact inlineQF_plain d hd c h
      · exact plainQF_plain P2 hP2 c h
  have hdirs : Engine.processDirectivesWith renderFn { e with sections := [] }
      (P1 ++ (d ++ P2)) = .ok (P1 ++ (d ++ P2)) :=
    processDirectives_plain renderFn _ _ (by simpa using hdir) hplain
  have hexprs : Engine.processExpressions { e with sections := [] }
      (P1 ++ (d ++ P2)) = P1 ++ (d ++ P2) :=
    processExpressions_plain _ _ hplain
  unfold Engine.renderWith
  rw [h1]
  simp only [bind, Except.bind]
  rw [hext]
  simp only [bind, Except.bind]
  rw [hyields, hdirs]
  simp only [bind, Except.bind]
  rw [hexprs]

theorem renderWith_c1_empty (renderFn : Engine → Str → Except Str Str) (e : Engine)
    (cn pn nm P1 P2 : Str)
    (hdir : e.directives = [])
    (hpn : WordStr pn) (hnm : WordStr nm)
    (hP1 : PlainStr P1) (hP2 : PlainQF P2)
    (htc : assocGet e.templates cn = some (extendsInst pn))
    (htp : assocGet e.templates pn = some (P1 ++ (yieldBareInst nm ++ P2))) :
    Engine.renderWith renderFn e cn = .ok (P1 ++ P2) := by
  have hchild_ne : extendsInst pn ≠ [] := by
    simp [extendsInst]
  have h1 : Engine.getTemplateContent e cn = .ok (extendsInst pn) := by
    unfold Engine.getTemplateContent
    rw [htc]
    simp [hchild_ne]
  have hm : matchAt patExtends (extendsInst pn) = some (capSet 1 pn [], []) := by
    have h := matchAt_extends pn [] hpn
    simpa using h
  have hsearch : searchFirst patExtends (extendsInst pn) = some (capSet 1 pn []) :=
    searchFirst_of_matchAt _ _ _ _ hm
  have hsections : allMatches patSection (extendsInst pn) = [] :=
    allMatches_id _ _ (noMatchIn_section_extends pn []
      (fun c hc => wordChar_ne c '@' (hpn.2 c hc) (by decide)))
  have hext : Engine.processExtends { e with sections := [] } (extendsInst pn) =
      .ok ({ e with sections := [] }, P1 ++ (yieldBareInst nm ++ P2)) := by
    unfold Engine.processExtends Engine.processSections
    simp [hsearch, hsections, capGetD, capGet, capSet, htp]
  have hyields : Engine.processYields { e with sections := [] }
      (P1 ++ (yieldBareInst nm ++ P2)) = P1 ++ P2 :=
    processYields_empty _ nm P1 P2 rfl hnm hP1 hP2
  have hplain : PlainStr (P1 ++ P2) := by
    intro c hc
    rcases List.mem_append.mp hc with h | h
    · exact hP1 c h
    · exact plainQF_plain P2 hP2 c h
  have hdirs : Engine.processDirectivesWith renderFn { e with sections := [] }
      (P1 ++ P2) = .ok (P1 ++ P2) :=
    processDirectives_plain renderFn _ _ (by simpa using hdir) hplain
  have hexprs : Engine.processExpressions { e with sections := [] }
      (P1 ++ P2) = P1 ++ P2 :=
    processExpressions_plain _ _ hplain
  unfold Engine.renderWith
  rw [h1]
  simp only [bind, Except.bind]
  rw [hext]
  simp only [bind, Except.bind]
  rw [hyields, hdirs]
  simp only [bind, Except.bind]
  rw [hexprs]

/-- C1: extends/section/yield pipeline: a child `@extends('pn')` with
`@section('nm')X@endsection` rendered against a parent containing
`@yield('nm')` produces the parent text with the yield replaced by the
captured X; a `@yield('nm','d')` whose section was not captured renders
the literal default d; a defaultless `@yield('nm')` with no captured
section renders the empty string. -/
theorem c1_yield_priority (fuel : Nat) (e : Engine)
    (cn1 pn1 cn2 pn2 cn3 pn3 nm X d P1 P2 : Str)
    (hdir : e.directives = [])
    (hpn1 : WordStr pn1) (hpn2 : WordStr pn2) (hpn3 : WordStr pn3)
    (hnm : WordStr nm) (hX : PlainStr X) (hd : InlineQF d)
    (hP1 : PlainStr P1) (hP2 : PlainQF P2)
    (htc1 : assocGet e.templates cn1 = some (extendsInst pn1 ++ sectionInst nm X))
    (htp1 : assocGet e.templates pn1 = some (P1 ++ (yieldBareInst nm ++ P2)))
    (htc2 : assocGet e.templates cn2 = some (extendsInst pn2))
    (htp2 : assocGet e.templates pn2 = some (P1 ++ (yieldDefInst nm d ++ P2)))
    (htc3 : assocGet e.templates cn3 = some (extendsInst pn3))
    (htp3 : assocGet e.templates pn3 = some (P1 ++ (yieldBareInst nm ++ P2))) :
    Engine.render fuel e cn1 = .ok (P1 ++ (X ++ P2)) ∧
    Engine.render fuel e cn2 = .ok (P1 ++ (d ++ P2)) ∧
    Engine.render fuel e cn3 = .ok (P1 ++ P2) := by
  cases fuel with
  | zero =>
    exact ⟨renderWith_c1_capture _ e cn1 pn1 nm X P1 P2 hdir hpn1 hnm hX hP1 hP2 htc1 htp1,
      renderWith_c1_default _ e cn2 pn2 nm d P1 P2 hdir hpn2 hnm hd hP1 hP2 htc2 htp2,
      renderWith_c1_empty _ e cn3 pn3 nm P1 P2 hdir hpn3 hnm hP1 hP2 htc3 htp3⟩
  | succ n =>
    exact ⟨renderWith_c1_capture _ e cn1 pn1 nm X P1 P2 hdir hpn1 hnm hX hP1 hP2 htc1 htp1,
      renderWith_c1_default _ e cn2 pn2 nm d P1 P2 hdir hpn2 hnm hd hP1 hP2 htc2 htp2,
      renderWith_c1_empty _ e cn3 pn3 nm P1 P2 hdir hpn3 hnm hP1 hP2 htc3 htp3⟩

theorem c1_yield_priority_witness :
    Engine.render 1
      { directives := [], templates := [
          (str "c1", extendsInst (str "p1") ++ sectionInst (str "content") (str "X")),
          (str "p1", str "A" ++ (yieldBareInst (str "content") ++ str "B")),
          (str "c2", extendsInst (str "p2")),
          (str "p2", str "A" ++ (yieldDefInst (str "content") (str "D") ++ str "B")),
          (str "c3", extendsInst (str "p3")),
          (str "p3", str "A" ++ (yieldBareInst (str "content") ++ str "B"))],
        sections := [], data := [] } (str "c1") = .ok (str "A" ++ (str "X" ++ str "B")) ∧
    Engine.render 1
      { directives := [], templates := [
          (str "c1", extendsInst (str "p1") ++ sectionInst (str "content") (str "X")),
          (str "p1", str "A" ++ (yieldBareInst (str "content") ++ str "B")),
          (str "c2", extendsInst (str "p2")),
          (str "p2", str "A" ++ (yieldDefInst (str "content") (str "D") ++ str "B")),
          (str "c3", extendsInst (str "p3")),
          (str "p3", str "A" ++ (yieldBareInst (str "content") ++ str "B"))],
        sections := [], data := [] } (str "c2") = .ok (str "A" ++ (str "D" ++ str "B")) ∧
    Engine.render 1
      { directives := [], templates := [
          (str "c1", extendsInst (str "p1") ++ sectionInst (str "content") (str "X")),
          (str "p1", str "A" ++ (yieldBareInst (str "content") ++ str "B")),
          (str "c2", extendsInst (str "p2")),
          (str "p2", str "A" ++ (yieldDefInst (str "content") (str "D") ++ str "B")),
          (str "c3", extendsInst (str "p3")),
          (str "p3", str "A" ++ (yieldBareInst (str "content") ++ str "B"))],
        sections := [], data := [] } (str "c3") = .ok (str "A" ++ str "B") :=
  c1_yield_priority 1 _
    (str "c1") (str "p1") (str "c2") (str "p2") (str "c3") (str "p3")
    (str "content") (str "X") (str "D") (str "A") (str "B")
    rfl
    (by unfold WordStr; decide) (by unfold WordStr; decide) (by unfold WordStr; decide)
    (by unfold WordStr; decide) (by unfold PlainStr; decide) (by unfold InlineQF; decide)
    (by unfold PlainStr; decide) (by unfold PlainQF; decide)
    (by decide) (by decide) (by decide) (by decide) (by decide) (by decide)

/-! ## The missing-template failure: C2 -/

theorem foldl_engine {α : Type} (f : BladeHtml → α → BladeHtml)
    (h : ∀ b x, (f b x).engine = b.engine) :
    ∀ (l : List α) (b : BladeHtml), (l.foldl f b).engine = b.engine := by
  intro l
  induction l with
  | nil => intro b; rfl
  | cons x xs ih =>
    intro b
    show (xs.foldl f (f b x)).engine = b.engine
    rw [ih (f b x), h b x]

theorem registerUsedComponents_engine (b : BladeHtml) (l : List Str) :
    (BladeHtml.registerUsedComponents b l).engine = b.engine := by
  unfold BladeHtml.registerUsedComponents
  apply foldl_engine
  intro b x
  dsimp only
  repeat' split
  all_goals rfl

theorem loadTemplates_engine (b : BladeHtml) (n : Str) :
    (BladeHtml.loadTemplatesAndRegisterComponents b n).engine = b.engine := by
  unfold BladeHtml.loadTemplatesAndRegisterComponents
  exact registerUsedComponents_engine b _

/-- C2: a well-formed template name that is not registered makes
BladeHtml.render fail with an error naming the requested template
instead of returning rendered text. -/
theorem c2_unregistered_template_error (b : BladeHtml) (name : Str) (data : Ctx)
    (hns : hasSub (str "::") name = false)
    (hat : hasSub (str "@") name = false)
    (hbr : hasSub [obrace, obrace] name = false)
    (hlt : hasSub (str "<") name = false)
    (hne : name ≠ []) (hword : name.all isWordDot = true)
    (hreg : assocGet b.engine.templates name = none) :
    BladeHtml.render b name data =
      .error (str "Template " ++ squote :: name ++ squote :: str " not found") := by
  have hget : ∀ e : Engine, e.templates = b.engine.templates →
      Engine.getTemplateContent e name =
        .error (str "Template " ++ dquote :: name ++ dquote :: str " not found") := by
    intro e he
    unfold Engine.getTemplateContent
    rw [he, hreg]
  unfold BladeHtml.render
  rw [if_neg (by simp [hns])]
  dsimp only
  have hisok : (Engine.getTemplateContent b.engine name).isOk = false := by
    rw [hget b.engine rfl]
    rfl
  simp only [hisok, hat, hbr, hlt, hne, hword]
  have hinline : (!false && (false || false || false || !(decide (name ≠ []) && true))) = false := by
    simp [hne]
  simp only [hinline, Bool.false_eq_true, if_false]
  have heng : (BladeHtml.loadTemplatesAndRegisterComponents b name).engine.templates =
      b.engine.templates := by
    rw [loadTemplates_engine b name]
  have hfin : Engine.getTemplateContent
      (Engine.setData (BladeHtml.loadTemplatesAndRegisterComponents b name).engine data)
      name = .error (str "Template " ++ dquote :: name ++ dquote :: str " not found") :=
    hget _ (by simpa [Engine.setData] using heng)
  rw [hfin]

theorem c2_unregistered_template_error_witness :
    BladeHtml.render BladeHtml.new (str "missing") [] =
      .error (str "Template " ++ squote :: str "missing" ++ squote :: str " not found") :=
  c2_unregistered_template_error BladeHtml.new (str "missing") []
    (by decide) (by decide) (by decide) (by decide) (by decide) (by decide) (by decide)

/-! ## The fallback operator: C3 -/

/-- C3 counterexample: a false left operand is rendered as the text
"false" instead of falling back to the right side, and the plain
evaluator does not implement the fallback operator at all: the whole
expression is read as one property path and comes back undefined. -/
theorem c3_counterexample :
    Component.exprCallback { props := [(str "flag", .b false)], slots := [] }
      (str "flag || " ++ squote :: str "Guest" ++ [squote]) = str "false" ∧
    ExpressionEvaluator.evaluate (str "name || " ++ squote :: str "Guest" ++ [squote])
      [(str "name", .nul)] = .undef := by
  constructor
  · decide
  · rfl

/-- C3 amended: in Component interpolation the fallback triggers only on
a null or undefined left operand, in which case a single-quoted right
literal is spliced without re-evaluation (HTML-escaped); a false left
operand renders as the coerced text of false.  The plain evaluator has
no fallback path. -/
theorem c3_fallback_amended (c : Component) (expr mainExpr R : Str)
    (htrim : jsTrim expr ≠ str "content")
    (hsub : hasSub ('|' :: ['|']) expr = true)
    (hparts : (jsSplitSub ('|' :: ['|']) expr).map jsTrim =
      [mainExpr, squote :: R ++ [squote]])
    (hmain : mainExpr ≠ str "content")
    (hnq : ¬((expr.head? = some squote ∧ expr.getLast? = some squote) ∨
      (expr.head? = some dquote ∧ expr.getLast? = some dquote))) :
    ((ExpressionEvaluator.evaluate mainExpr c.props = .nul ∨
        ExpressionEvaluator.evaluate mainExpr c.props = .undef) →
      Component.exprCallback c expr = escapeHtml R) ∧
    (ExpressionEvaluator.evaluate mainExpr c.props = .b false →
      Component.exprCallback c expr = str "false") ∧
    (∀ ctx : Ctx, looksSimple expr = true →
      ExpressionEvaluator.evaluate expr ctx =
        (match ExpressionEvaluator.getNestedProperty (.obj ctx) expr with
         | .ok v => v
         | .error _ => .nul)) := by
  have hhead : (squote :: R ++ [squote]).head? = some squote := rfl
  have hlast : (squote :: R ++ [squote]).getLast? = some squote := by
    show ((squote :: R) ++ [squote]).getLast? = some squote
    exact List.getLast?_concat _
  have hcommon : Component.exprCallbackE c expr =
      (match ExpressionEvaluator.evaluate mainExpr c.props with
       | .nul => .ok (escapeHtml R)
       | .undef => .ok (escapeHtml R)
       | v => .ok (escapeHtml (jsString v))) := by
    unfold Component.exprCallbackE
    rw [if_neg htrim]
    simp only [hsub, if_pos rfl, hparts]
    have hheadI : ([mainExpr, squote :: R ++ [squote]] : List Str).headI = mainExpr := rfl
    have htail : ([mainExpr, squote :: R ++ [squote]] : List Str).tail.headI =
        squote :: R ++ [squote] := rfl
    rw [hheadI, htail, if_neg hmain]
    simp only [hhead, hlast, and_self, if_pos]
    have hdrop : ((squote :: R ++ [squote]).drop 1).dropLast = R := by
      show (R ++ [squote]).dropLast = R
      exact List.dropLast_concat
    rw [hdrop]
    cases hv : ExpressionEvaluator.evaluate mainExpr c.props <;> rfl
  refine ⟨?_, ?_, ?_⟩
  · intro h
    unfold Component.exprCallback
    rcases h with h | h <;> rw [hcommon, h]
  · intro h
    unfold Component.exprCallback
    rw [hcommon, h]
    rfl
  · intro ctx hsimple
    unfold ExpressionEvaluator.evaluate
    rw [if_neg hnq, if_pos hsimple]

theorem c3_fallback_amended_witness :
    Component.exprCallback { props := [(str "flag", .nul)], slots := [] }
      (str "flag || " ++ squote :: str "Guest" ++ [squote]) = escapeHtml (str "Guest") :=
  (c3_fallback_amended { props := [(str "flag", .nul)], slots := [] }
      (str "flag || " ++ squote :: str "Guest" ++ [squote]) (str "flag") (str "Guest")
      (by decide) (by decide) (by decide) (by decide) (by decide)).1 (Or.inl rfl)

/-! ## Component bodies and the engine pass: C4 -/

/-- C4 counterexample: an identity component that echoes its default
slot verbatim renders to the empty string, because the body was
interpolated by the engine before the component pass; the raw body text
the claim promises the component would receive is non-empty. -/
theorem c4_counterexample :
    BladeHtml.render
      (BladeHtml.registerComponent
        (BladeHtml.registerTemplate BladeHtml.new (str "page")
          (str "@component(" ++ squote :: str "box" ++ squote :: str ")" ++
            obrace :: obrace :: str " content || " ++ squote :: str "X" ++ squote :: str " " ++
            cbrace :: cbrace :: str "@endcomponent"))
        (str "box") { renderImpl := fun _ slots => (assocGet slots (str "default")).getD [] })
      (str "page") [] = .ok [] ∧
    jsTrim (obrace :: obrace :: str " content || " ++ squote :: str "X" ++ squote :: str " " ++
      cbrace :: cbrace :: []) ≠ [] := by
  exact ⟨by rfl, by decide⟩

/-- C4 amended: the body of a component region is not handed to the
component raw: the whole template, component bodies included, first goes
through the engine render (expression interpolation among its passes),
and only the engine-processed text reaches the component pass, which
assigns the trimmed processed body as the default slot. -/
theorem c4_component_body_amended (b : BladeHtml) (name : Str) (data : Ctx)
    (T content : Str)
    (hns : hasSub (str "::") name = false)
    (hat : hasSub (str "@") name = false)
    (hbr : hasSub [obrace, obrace] name = false)
    (hlt : hasSub (str "<") name = false)
    (hne : name ≠ []) (hword : name.all isWordDot = true)
    (hreg : assocGet b.engine.templates name = some T) (hT : T ≠ [])
    (hrender : Engine.render (b.engine.templates.length + 1)
      (Engine.setData b.engine data) name = .ok content) :
    BladeHtml.render b name data =
      .ok (ComponentProcessor.process content
        (fun n p => BladeHtml.createForRender
          (BladeHtml.loadTemplatesAndRegisterComponents b name).componentRegistry n p) data) := by
  have hget : ∀ e : Engine, e.templates = b.engine.templates →
      Engine.getTemplateContent e name = .ok T := by
    intro e he
    unfold Engine.getTemplateContent
    rw [he, hreg]
    simp [hT]
  unfold BladeHtml.render
  rw [if_neg (by simp [hns])]
  dsimp only
  have hisok : (Engine.getTemplateContent b.engine name).isOk = true := by
    rw [hget b.engine rfl]
    rfl
  simp only [hisok, hat, hbr, hlt, hne, hword]
  have hinline : (!true && (false || false || false || !(decide (name ≠ []) && true))) = false := by
    simp
  simp only [hinline, Bool.false_eq_true, if_false]
  have heng : (BladeHtml.loadTemplatesAndRegisterComponents b name).engine = b.engine :=
    loadTemplates_engine b name
  have hfin : Engine.getTemplateContent
      (Engine.setData (BladeHtml.loadTemplatesAndRegisterComponents b name).engine data)
      name = .ok T :=
    hget _ (by simp [Engine.setData, heng])
  rw [hfin]
  have hlen : (Engine.setData (BladeHtml.loadTemplatesAndRegisterComponents b name).engine
      data).templates.length = b.engine.templates.length := by
    simp [Engine.setData, heng]
  have hrender2 : Engine.render
      ((Engine.setData (BladeHtml.loadTemplatesAndRegisterComponents b name).engine
        data).templates.length + 1)
      (Engine.setData (BladeHtml.loadTemplatesAndRegisterComponents b name).engine data)
      name = .ok content := by
    rw [hlen, heng]
    exact hrender
  rw [hrender2]
  simp only [bind, Except.bind]

theorem c4_component_body_amended_witness :
    BladeHtml.render (BladeHtml.registerTemplate BladeHtml.new (str "page") (str "plain"))
      (str "page") [] =
      .ok (ComponentProcessor.process (str "plain")
        (fun n p => BladeHtml.createForRender
          (BladeHtml.loadTemplatesAndRegisterComponents
            (BladeHtml.registerTemplate BladeHtml.new (str "page") (str "plain"))
            (str "page")).componentRegistry n p) []) :=
  c4_component_body_amended
    (BladeHtml.registerTemplate BladeHtml.new (str "page") (str "plain"))
    (str "page") [] (str "plain") (str "plain")
    (by decide) (by decide) (by decide) (by decide) (by decide) (by decide)
    (by decide) (by decide) (by rfl)

/-! ## Throwing custom directives: C6 -/

theorem head_seq_grp_starL_gen (i : Nat) (p : Char → Bool) (k : Pat) (w rest : Str)
    (cs : Caps) (y : Str × Caps)
    (hw : ∀ c ∈ w, p c = true)
    (hfail : ∀ a ∈ properSplits w rest, k.runs a.2 (capSet i a.1 cs) = [])
    (hk : (k.runs rest (capSet i w cs)).head? = some y) :
    (Pat.runs (.seq (.grp i (.starL (.cls p))) k) (w ++ rest) cs).head? = some y := by
  obtain ⟨ys, hk⟩ : ∃ tl, k.runs rest (capSet i w cs) = y :: tl := by
    cases hrk : k.runs rest (capSet i w cs) with
    | nil => rw [hrk] at hk; simp at hk
    | cons z tl =>
      rw [hrk] at hk
      have hz : z = y := by simpa using hk
      exact ⟨tl, by rw [hz]⟩
  rw [runs_seq_grp_starL_cls, lazySplits_append_allP p w rest hw]
  obtain ⟨tail, htail⟩ := lazySplits_head p rest
  rw [htail, List.map_cons]
  refine head_flatMap_first_success (properSplits w rest) (w ++ [], rest)
    (tail.map (fun pr => (w ++ pr.1, pr.2))) (fun pr => k.runs pr.2 (capSet i pr.1 cs))
    y ys ?_ ?_
  · intro a ha
    exact hfail a ha
  · show Pat.runs k rest (capSet i (w ++ []) cs) = y :: ys
    rw [List.append_nil, hk]

theorem isPrefixOf_word_stop (w : Str) : ∀ (dn : Str) (c : Char) (z : Str),
    (∀ x ∈ w, isWordChar x = true) → isWordChar c = false →
    w.isPrefixOf dn = false → w.isPrefixOf (dn ++ c :: z) = false := by
  induction w with
  | nil =>
    intro dn c z _ _ h
    simp [List.isPrefixOf] at h
  | cons a w' ih =>
    intro dn c z hw hc h
    cases dn with
    | nil =>
      show ((a :: w').isPrefixOf (c :: z)) = false
      have hac : a ≠ c := by
        intro he
        have hx := hw a (by simp)
        rw [he, hc] at hx
        cases hx
      simp [List.isPrefixOf, hac]
    | cons b dn' =>
      by_cases hab : a = b
      · subst hab
        have h' : w'.isPrefixOf dn' = false := by
          simpa [List.isPrefixOf] using h
        show ((a :: w').isPrefixOf (a :: (dn' ++ c :: z))) = false
        simpa [List.isPrefixOf] using
          ih dn' c z (fun x hx => hw x (by simp [hx])) hc h'
      · show ((a :: w').isPrefixOf (b :: (dn' ++ c :: z))) = false
        simp [List.isPrefixOf, hab]

theorem matchAt_seq_pstr_none (l : Str) (k : Pat) (s : Str)
    (h : l.isPrefixOf s = false) : matchAt (.seq (pstr l) k) s = none := by
  unfold matchAt
  rw [runs_seq_eq, runs_pstr_no_pre l s [] h]
  rfl

theorem firstLit_pstr_cons (c : Char) (l : Str) : firstLit (pstr (c :: l)) = some c := by
  cases l <;> rfl

theorem noMatchIn_atWord (k : Pat) (w dn body2 t : Str)
    (hw : ∀ c ∈ w, isWordChar c = true)
    (hnp : w.isPrefixOf dn = false)
    (hdn : ∀ c ∈ dn, c ≠ '@')
    (hbody2 : ∀ c ∈ body2, c ≠ '@') :
    NoMatchIn (.seq (pstr ('@' :: w)) k) ('@' :: (dn ++ ('(' :: body2))) t := by
  apply noMatchIn_cons
  · apply matchAt_seq_pstr_none
    have hshape : (dn ++ ('(' :: body2)) ++ t = dn ++ '(' :: (body2 ++ t) := by simp
    show ((('@' :: w)).isPrefixOf ('@' :: ((dn ++ ('(' :: body2)) ++ t))) = false
    rw [hshape]
    simpa [List.isPrefixOf] using
      isPrefixOf_word_stop w dn '(' (body2 ++ t) hw (by decide) hnp
  · apply noMatchIn_safe _ '@' _ _ (by simp [firstLit, firstLit_pstr_cons])
    intro c hc
    rcases List.mem_append.mp hc with h | h
    · exact hdn c h
    · rcases List.mem_cons.mp h with rfl | h
      · decide
      · exact hbody2 c h

theorem head_custom (dn arg post : Str)
    (harg : ∀ c ∈ arg, isDotChar c = true ∧ isWS c = false ∧ c ≠ ')') :
    (Pat.runs (patCustom dn) (customInst dn arg ++ post) []).head? =
      some (post, capSet 1 arg []) := by
  have hshape : customInst dn arg ++ post =
      '@' :: (dn ++ ('(' :: (arg ++ (')' :: post)))) := by
    simp [customInst]
  rw [hshape]
  show (Pat.runs (.seq (.lit '@') (.seq (pstr dn) (.seq wsStar (.seq (.lit '(')
      (.seq wsStar (.seq (dotsLazy 1) (.seq wsStar (.lit ')')))))))) _ []).head? = _
  simp only [dotsLazy]
  rw [runs_seq_lit, runs_seq_pstr, runs_seq_wsStar_skip _ '(' _ _ (by decide), runs_seq_lit]
  have hskip : Pat.runs (.seq wsStar (.seq (.grp 1 (.starL (.cls isDotChar)))
      (.seq wsStar (.lit ')')))) (arg ++ (')' :: post)) [] =
      Pat.runs (.seq (.grp 1 (.starL (.cls isDotChar)))
        (.seq wsStar (.lit ')'))) (arg ++ (')' :: post)) [] := by
    cases arg with
    | nil => exact runs_seq_wsStar_skip _ ')' _ _ (by decide)
    | cons a t =>
      exact runs_seq_wsStar_skip _ a _ _ (harg a (by simp)).2.1
  rw [hskip]
  have hk : (Pat.runs (.seq wsStar (.lit ')')) (')' :: post)
      (capSet 1 arg [])).head? = some (post, capSet 1 arg []) := by
    rw [runs_seq_wsStar_skip _ ')' _ _ (by decide), runs_lit_cons_eq]
    simp
  refine head_seq_grp_starL_gen 1 isDotChar _ arg (')' :: post) [] _
    (fun c hc => (harg c hc).1) ?_ hk
  intro a ha
  obtain ⟨c, t, hct, hcw⟩ := properSplits_suffix_shape arg (')' :: post) a ha
  rw [hct, runs_seq_wsStar_skip _ c _ _ (harg c hcw).2.1, runs_lit_cons_eq]
  simp [(harg c hcw).2.2]

theorem matchAt_custom (dn arg post : Str)
    (harg : ∀ c ∈ arg, isDotChar c = true ∧ isWS c = false ∧ c ≠ ')') :
    matchAt (patCustom dn) (customInst dn arg ++ post) =
      some (capSet 1 arg [], post) :=
  matchAt_of_head _ _ _ _ (head_custom dn arg post harg)

theorem noMatchIn_c6_word (k : Pat) (w dn arg P1 P2 : Str)
    (hw : ∀ c ∈ w, isWordChar c = true)
    (hnp : w.isPrefixOf dn = false)
    (hdnW : ∀ c ∈ dn, isWordChar c = true)
    (harg : ∀ c ∈ arg, c ≠ '@')
    (hP1 : ∀ c ∈ P1, c ≠ '@') (hP2 : ∀ c ∈ P2, c ≠ '@') :
    NoMatchIn (.seq (pstr ('@' :: w)) k) (P1 ++ (customInst dn arg ++ P2)) [] := by
  apply noMatchIn_append
  · exact noMatchIn_safe _ '@' _ _ (by simp [firstLit, firstLit_pstr_cons]) hP1
  · apply noMatchIn_append
    · show NoMatchIn _ ('@' :: (dn ++ ('(' :: (arg ++ [')'])))) (P2 ++ [])
      apply noMatchIn_atWord k w dn (arg ++ [')']) (P2 ++ []) hw hnp
        (fun c hc => wordChar_ne c '@' (hdnW c hc) (by decide))
      intro c hc
      rcases List.mem_append.mp hc with h | h
      · exact harg c h
      · rcases List.mem_singleton.mp h with rfl
        decide
    · exact noMatchIn_safe _ '@' _ _ (by simp [firstLit, firstLit_pstr_cons]) hP2

theorem renderWith_c6 (renderFn : Engine → Str → Except Str Str) (e : Engine)
    (tn dn arg P1 P2 : Str) (h : DirectiveHandler)
    (hdir : e.directives = [(dn, h)])
    (hthrow : h arg e.data = .error ())
    (hdnW : WordStr dn)
    (hpExt : (str "extends").isPrefixOf dn = false)
    (hpSec : (str "section").isPrefixOf dn = false)
    (hpYld : (str "yield").isPrefixOf dn = false)
    (hpIf : (str "if").isPrefixOf dn = false)
    (hpFor : (str "for").isPrefixOf dn = false)
    (hpInc : (str "include").isPrefixOf dn = false)
    (harg : ∀ c ∈ arg, isDotChar c = true ∧ isWS c = false ∧ c ≠ ')' ∧ c ≠ '@' ∧ c ≠ obrace)
    (hP1 : PlainStr P1) (hP2 : PlainStr P2)
    (htmpl : assocGet e.templates tn = some (P1 ++ (customInst dn arg ++ P2))) :
    Engine.renderWith renderFn e tn = .ok (P1 ++ P2) := by
  have hpFe : (str "foreach").isPrefixOf dn = false := by
    by_contra hcon
    have h1 : (str "foreach").isPrefixOf dn = true := by simpa using hcon
    have h2 : (str "for") <+: (str "foreach") := ⟨str "each", by decide⟩
    have h4 : (str "for") <+: dn := h2.trans (List.isPrefixOf_iff_prefix.mp h1)
    exact absurd (List.isPrefixOf_iff_prefix.mpr h4) (by simp [hpFor])
  have harg1 : ∀ c ∈ arg, c ≠ '@' := fun c hc => (harg c hc).2.2.2.1
  have hP1a : ∀ c ∈ P1, c ≠ '@' := fun c hc => (hP1 c hc).1
  have hP2a : ∀ c ∈ P2, c ≠ '@' := fun c hc => (hP2 c hc).1
  have hnmi : ∀ (w : Str) (k : Pat), (∀ c ∈ w, isWordChar c = true) →
      w.isPrefixOf dn = false →
      NoMatchIn (.seq (pstr ('@' :: w)) k) (P1 ++ (customInst dn arg ++ P2)) [] :=
    fun w k hw hnp => noMatchIn_c6_word k w dn arg P1 P2 hw hnp hdnW.2 harg1 hP1a hP2a
  have hT_ne : P1 ++ (customInst dn arg ++ P2) ≠ [] := by
    simp [customInst]
  have h1 : Engine.getTemplateContent e tn = .ok (P1 ++ (customInst dn arg ++ P2)) := by
    unfold Engine.getTemplateContent
    rw [htmpl]
    simp [hT_ne]
  have hsearch : searchFirst patExtends (P1 ++ (customInst dn arg ++ P2)) = none := by
    apply searchFirst_none
    · exact hnmi (str "extends") _ (by decide) hpExt
    · rfl
  have hsections : allMatches patSection (P1 ++ (customInst dn arg ++ P2)) = [] := by
    apply allMatches_id
    exact hnmi (str "section") _ (by decide) hpSec
  have hext : Engine.processExtends { e with sections := [] }
      (P1 ++ (customInst dn arg ++ P2)) =
      .ok ({ e with sections := [] }, P1 ++ (customInst dn arg ++ P2)) := by
    unfold Engine.processExtends Engine.processSections
    simp [hsearch, hsections]
  have hyd : NoMatchIn patYieldDefault (P1 ++ (customInst dn arg ++ P2)) [] :=
    hnmi (str "yield") _ (by decide) hpYld
  have hyb : NoMatchIn patYieldBare (P1 ++ (customInst dn arg ++ P2)) [] :=
    hnmi (str "yield") _ (by decide) hpYld
  have hyields : Engine.processYields { e with sections := [] }
      (P1 ++ (customInst dn arg ++ P2)) = P1 ++ (customInst dn arg ++ P2) := by
    unfold Engine.processYields
    simp only [replaceG_id _ _ _ hyd, replaceG_id _ _ _ hyb]
  have hydir : NoMatchIn patYieldDirect (P1 ++ (customInst dn arg ++ P2)) [] :=
    hnmi (str "yield") _ (by decide) hpYld
  have hif : NoMatchIn patIf (P1 ++ (customInst dn arg ++ P2)) [] :=
    hnmi (str "if") _ (by decide) hpIf
  have hfor : NoMatchIn patFor (P1 ++ (customInst dn arg ++ P2)) [] :=
    hnmi (str "for") _ (by decide) hpFor
  have hfe : NoMatchIn patForeach (P1 ++ (customInst dn arg ++ P2)) [] :=
    hnmi (str "foreach") _ (by decide) hpFe
  have hinc : NoMatchIn patInclude (P1 ++ (customInst dn arg ++ P2)) [] :=
    hnmi (str "include") _ (by decide) hpInc
  have hcustom : replaceG (patCustom dn)
      (fun cs => match h (capGetD 1 cs []) e.data with
        | .ok out => out
        | .error _ => []) (P1 ++ (customInst dn arg ++ P2)) = P1 ++ ([] ++ P2) := by
    rw [replaceG_region (patCustom dn) _ P1 (customInst dn arg) P2 (capSet 1 arg [])
      (noMatchIn_safe _ '@' _ _ rfl hP1a)
      (matchAt_custom dn arg P2 (fun c hc => ⟨(harg c hc).1, (harg c hc).2.1, (harg c hc).2.2.1⟩))
      (by simp [customInst])
      (noMatchIn_safe _ '@' _ _ rfl hP2a)]
    have hval : (match h (capGetD 1 (capSet 1 arg []) []) e.data with
        | Except.ok out => out
        | Except.error _ => ([] : Str)) = [] := by
      have hc : capGetD 1 (capSet 1 arg []) [] = arg := by simp [capGetD, capGet, capSet]
      rw [hc, hthrow]
    rw [hval]
  have hdirs : Engine.processDirectivesWith renderFn { e with sections := [] }
      (P1 ++ (customInst dn arg ++ P2)) = .ok (P1 ++ ([] ++ P2)) := by
    unfold Engine.processDirectivesWith
    simp only [replaceG_id _ _ _ hydir, replaceG_id _ _ _ hif, replaceG_id _ _ _ hfor,
      replaceG_id _ _ _ hfe, replaceGE_id _ _ _ hinc]
    show (do
      let r5 ← Except.ok (P1 ++ (customInst dn arg ++ P2))
      Except.ok (List.foldl _ r5 ({ e with sections := ([] : List (Str × Str)) }.directives))) = _
    simp only [bind, Except.bind, hdir]
    show Except.ok (List.foldl _ _ [(dn, h)]) = _
    simp only [List.foldl_cons, List.foldl_nil]
    exact congrArg Except.ok hcustom
  have hplain : PlainStr (P1 ++ ([] ++ P2)) := by
    intro c hc
    rcases List.mem_append.mp hc with hx | hx
    · exact hP1 c hx
    · rcases List.mem_append.mp hx with hx | hx
      · simp at hx
      · exact hP2 c hx
  have hexprs : Engine.processExpressions { e with sections := [] }
      (P1 ++ ([] ++ P2)) = P1 ++ ([] ++ P2) :=
    processExpressions_plain _ _ hplain
  unfold Engine.renderWith
  rw [h1]
  simp only [bind, Except.bind]
  rw [hext]
  simp only [bind, Except.bind]
  rw [hyields, hdirs]
  simp only [bind, Except.bind]
  rw [hexprs]
  simp

/-- C6 counterexample: a throwing custom directive is replaced by the
empty string by the render pipeline (no placeholder comment appears in
the output), while the comment naming the directive exists only in
DirectiveRegistry.process, which the pipeline does not call. -/
theorem c6_counterexample :
    Engine.render 0
      { directives := [(str "fail", fun _ _ => .error ())],
        templates := [(str "t", str "A" ++ (customInst (str "fail") (str "x") ++ str "B"))],
        sections := [], data := [] } (str "t") = .ok (str "AB") ∧
    DirectiveRegistry.process { directives := [(str "fail", fun _ _ => .error ())] }
      (str "fail") (str "x") [] = str "<!-- Error in directive @fail -->" := by
  constructor
  · rfl
  · rfl

/-- C6 amended: a throwing custom directive handler never propagates to
the render caller, but the invocation is replaced by the empty string,
not by a comment; the placeholder comment naming the directive is
produced only by DirectiveRegistry.process, which the render pipeline
never invokes. -/
theorem c6_custom_directive_amended (fuel : Nat) (e : Engine)
    (tn dn arg P1 P2 : Str) (h : DirectiveHandler)
    (hdir : e.directives = [(dn, h)])
    (hthrow : h arg e.data = .error ())
    (hdnW : WordStr dn)
    (hpExt : (str "extends").isPrefixOf dn = false)
    (hpSec : (str "section").isPrefixOf dn = false)
    (hpYld : (str "yield").isPrefixOf dn = false)
    (hpIf : (str "if").isPrefixOf dn = false)
    (hpFor : (str "for").isPrefixOf dn = false)
    (hpInc : (str "include").isPrefixOf dn = false)
    (harg : ∀ c ∈ arg, isDotChar c = true ∧ isWS c = false ∧ c ≠ ')' ∧ c ≠ '@' ∧ c ≠ obrace)
    (hP1 : PlainStr P1) (hP2 : PlainStr P2)
    (htmpl : assocGet e.templates tn = some (P1 ++ (customInst dn arg ++ P2))) :
    Engine.render fuel e tn = .ok (P1 ++ P2) ∧
    (∀ (r : DirectiveRegistry) (args : Str) (ctx : Ctx) (h2 : DirectiveHandler),
      assocGet r.directives dn = some h2 → h2 args ctx = .error () →
      DirectiveRegistry.process r dn args ctx =
        str "<!-- Error in directive @" ++ dn ++ str " -->") := by
  constructor
  · cases fuel with
    | zero =>
      exact renderWith_c6 _ e tn dn arg P1 P2 h hdir hthrow hdnW
        hpExt hpSec hpYld hpIf hpFor hpInc harg hP1 hP2 htmpl
    | succ n =>
      exact renderWith_c6 _ e tn dn arg P1 P2 h hdir hthrow hdnW
        hpExt hpSec hpYld hpIf hpFor hpInc harg hP1 hP2 htmpl
  · intro r args ctx h2 hget hthrow2
    unfold DirectiveRegistry.process
    rw [hget]
    dsimp only
    rw [hthrow2]

theorem c6_custom_directive_amended_witness :
    Engine.render 1
      { directives := [(str "fail", fun _ _ => .error ())],
        templates := [(str "t", str "A" ++ (customInst (str "fail") (str "x") ++ str "B"))],
        sections := [], data := [] } (str "t") = .ok (str "A" ++ str "B") :=
  (c6_custom_directive_amended 1 _ (str "t") (str "fail") (str "x") (str "A") (str "B")
    (fun _ _ => .error ()) rfl rfl (by unfold WordStr; decide)
    (by decide) (by decide) (by decide) (by decide) (by decide) (by decide)
    (by decide) (by unfold PlainStr; decide) (by unfold PlainStr; decide) (by decide)).1

/-! ## The foreach region: C5 -/

theorem wordDot_not_ws (c : Char) (h : isWordDot c = true) : isWS c = false := by
  rcases (by simpa [isWordDot] using h : isWordChar c = true ∨ c = '.') with h1 | rfl
  · exact wordChar_not_ws c h1
  · decide

theorem wordDot_dot (c : Char) (h : isWordDot c = true) : isDotChar c = true := by
  rcases (by simpa [isWordDot] using h : isWordChar c = true ∨ c = '.') with h1 | rfl
  · exact wordChar_dot c h1
  · decide

theorem wordDot_ne (c : Char) (h : isWordDot c = true) (d : Char)
    (hd : isWordDot d = false) : c ≠ d := by
  intro he
  rw [he, hd] at h
  cases h

theorem runs_seq_starG_cls_skip (p : Char → Bool) (k : Pat) (c : Char) (t : Str) (cs : Caps)
    (hc : p c = false) :
    Pat.runs (.seq (.starG (.cls p)) k) (c :: t) cs = k.runs (c :: t) cs := by
  rw [runs_seq_eq, runs_starG_cls, lazySplits, if_neg (by simp [hc])]
  simp

theorem runs_seq_plus_cls_single (p : Char → Bool) (k : Pat) (c : Char) (t : Str) (cs : Caps)
    (hc : p c = true) (ht : t = [] ∨ ∃ d t2, t = d :: t2 ∧ p d = false) :
    Pat.runs (.seq (pplus (.cls p)) k) (c :: t) cs = k.runs t cs := by
  show Pat.runs (.seq (.seq (.cls p) (.starG (.cls p))) k) (c :: t) cs = _
  rw [runs_seq_assoc, runs_seq_cls _ _ _ _ _ hc]
  rcases ht with rfl | ⟨d, t2, rfl, hd⟩
  · rw [runs_seq_eq, runs_starG_cls, lazySplits]
    simp
  · exact runs_seq_starG_cls_skip p k d t2 cs hd

theorem head_foreach (ex v body post : Str)
    (hex : WordDotStr ex) (hv : WordStr v) (hbody : ∀ c ∈ body, c ≠ '@') :
    (Pat.runs patForeach (foreachInst ex v body ++ post) []).head? =
      some (post, capSet 3 body (capSet 2 v (capSet 1 ex []))) := by
  obtain ⟨c, w', rfl⟩ : ∃ c w', ex = c :: w' := by
    cases ex with
    | nil => exact absurd rfl hex.1
    | cons c w' => exact ⟨c, w', rfl⟩
  obtain ⟨cv, wv, rfl⟩ : ∃ cv wv, v = cv :: wv := by
    cases v with
    | nil => exact absurd rfl hv.1
    | cons cv wv => exact ⟨cv, wv, rfl⟩
  have hshape : foreachInst (c :: w') (cv :: wv) body ++ post =
      str "@foreach" ++ ('(' :: ((c :: w') ++ (' ' :: (str "as" ++ (' ' ::
        ((cv :: wv) ++ (')' :: (body ++ (str "@endforeach" ++ post))))))))) := by
    simp [foreachInst, str]
  rw [hshape]
  show (Pat.runs (.seq (pstr (str "@foreach")) (.seq wsStar (.seq (.lit '(')
      (.seq wsStar (.seq (dotsLazy 1) (.seq (pplus (.cls isWS)) (.seq (pstr (str "as"))
        (.seq (pplus (.cls isWS)) (.seq (dotsLazy 2) (.seq wsStar (.seq (.lit ')')
          (.seq (.grp 3 (.starL (.cls isAnyChar))) (pstr (str "@endforeach"))))))))))))))
      _ []).head? = _
  simp only [dotsLazy]
  rw [runs_seq_pstr, runs_seq_wsStar_skip _ '(' _ _ (by decide), runs_seq_lit]
  simp only [List.cons_append]
  rw [runs_seq_wsStar_skip _ c _ _ (wordDot_not_ws c (hex.2 c (by simp)))]
  refine head_seq_grp_starL 1 isDotChar isWS _ (c :: w') _ [] _
    (fun d hd => wordDot_dot d (hex.2 d hd)) rfl
    (fun d hd => wordDot_not_ws d (hex.2 d hd)) ?_
  rw [runs_seq_plus_cls_single isWS _ ' '
    (str "as" ++ ' ' :: cv :: (wv ++ ')' :: (body ++ (str "@endforeach" ++ post)))) _
    (by decide)
    (Or.inr ⟨'a', 's' :: (' ' :: cv :: (wv ++ ')' :: (body ++ (str "@endforeach" ++ post)))),
      rfl, by decide⟩)]
  rw [runs_seq_pstr]
  rw [runs_seq_plus_cls_single isWS _ ' '
    (cv :: (wv ++ ')' :: (body ++ (str "@endforeach" ++ post)))) _ (by decide)
    (Or.inr ⟨cv, wv ++ ')' :: (body ++ (str "@endforeach" ++ post)), rfl,
      wordChar_not_ws cv (hv.2 cv (by simp))⟩)]
  refine head_seq_grp_starL_gen 2 isDotChar _ (cv :: wv) _ _ _
    (fun d hd => wordChar_dot d (hv.2 d hd)) ?_ ?_
  · intro a ha
    obtain ⟨c2, t2, hct, hcw⟩ := properSplits_suffix_shape (cv :: wv) _ a ha
    rw [hct, runs_seq_wsStar_skip _ c2 _ _ (wordChar_not_ws c2 (hv.2 c2 hcw))]
    exact runs_seq_lit_ne ')' c2 _ t2 _ (wordChar_ne c2 ')' (hv.2 c2 hcw) (by decide))
  · rw [runs_seq_wsStar_skip _ ')' _ _ (by decide), runs_seq_lit]
    refine head_seq_grp_starL 3 isAnyChar (fun d => decide (d = '@')) _ body
      (str "@endforeach" ++ post) _ _ (fun _ _ => rfl) rfl
      (fun d hd => by simp [hbody d hd]) ?_
    rw [runs_pstr_self]
    rfl

theorem matchAt_foreach (ex v body post : Str)
    (hex : WordDotStr ex) (hv : WordStr v) (hbody : ∀ c ∈ body, c ≠ '@') :
    matchAt patForeach (foreachInst ex v body ++ post) =
      some (capSet 3 body (capSet 2 v (capSet 1 ex [])), post) :=
  matchAt_of_head _ _ _ _ (head_foreach ex v body post hex hv hbody)

/-- C5: a foreach region over a non-array value renders as the empty
string; over an array it renders the body once per element, against the
outer data extended with the loop variable bound to that element, with
the per-element results concatenated in element order (an empty array
therefore contributes nothing regardless of the body). -/
theorem c5_foreach_region (e : Engine) (ex v body pre post : Str)
    (hex : WordDotStr ex) (hv : WordStr v) (hbody : ∀ c ∈ body, c ≠ '@')
    (hpre : ∀ c ∈ pre, c ≠ '@') (hpost : ∀ c ∈ post, c ≠ '@') :
    (∀ items, ExpressionEvaluator.evaluate ex e.data = .arr items →
      replaceG patForeach (Engine.foreachMatch e) (pre ++ (foreachInst ex v body ++ post)) =
        pre ++ (((items.map (fun item =>
          replaceG patExpr
            (fun ecs => jsString (ExpressionEvaluator.evaluate (capGetD 1 ecs [])
              (ctxSet e.data (jsTrim v) item)))
            body)).foldl (fun acc part => acc ++ part) []) ++ post)) ∧
    ((∀ items, ExpressionEvaluator.evaluate ex e.data ≠ .arr items) →
      replaceG patForeach (Engine.foreachMatch e) (pre ++ (foreachInst ex v body ++ post)) =
        pre ++ ([] ++ post)) := by
  have hregion : replaceG patForeach (Engine.foreachMatch e)
      (pre ++ (foreachInst ex v body ++ post)) =
      pre ++ (Engine.foreachMatch e (capSet 3 body (capSet 2 v (capSet 1 ex []))) ++ post) :=
    replaceG_region patForeach _ pre (foreachInst ex v body) post _
      (noMatchIn_safe _ '@' _ _ rfl hpre)
      (matchAt_foreach ex v body post hex hv hbody)
      (by simp [foreachInst])
      (noMatchIn_safe _ '@' _ _ rfl hpost)
  have hcaps1 : capGetD 1 (capSet 3 body (capSet 2 v (capSet 1 ex []))) [] = ex := by
    simp [capGetD, capGet, capSet]
  have hcaps2 : capGetD 2 (capSet 3 body (capSet 2 v (capSet 1 ex []))) [] = v := by
    simp [capGetD, capGet, capSet]
  have hcaps3 : capGetD 3 (capSet 3 body (capSet 2 v (capSet 1 ex []))) [] = body := by
    simp [capGetD, capGet, capSet]
  constructor
  · intro items hitems
    rw [hregion]
    unfold Engine.foreachMatch
    rw [hcaps1, hcaps2, hcaps3]
    dsimp only
    rw [hitems]
  · intro hna
    rw [hregion]
    unfold Engine.foreachMatch
    rw [hcaps1]
    dsimp only
    cases hv2 : ExpressionEvaluator.evaluate ex e.data with
    | arr items => exact absurd hv2 (hna items)
    | _ => rfl

theorem c5_foreach_region_witness :
    replaceG patForeach
      (Engine.foreachMatch
        { directives := [], templates := [], sections := [],
          data := [(str "items", .arr [.s (str "A"), .s (str "B")])] })
      (str "P" ++ (foreachInst (str "items") (str "item")
        (obrace :: obrace :: (str " item " ++ [cbrace, cbrace])) ++ str "Q")) =
      str "P" ++ ((([JVal.s (str "A"), JVal.s (str "B")].map (fun item =>
        replaceG patExpr
          (fun ecs => jsString (ExpressionEvaluator.evaluate (capGetD 1 ecs [])
            (ctxSet [(str "items", .arr [.s (str "A"), .s (str "B")])]
              (jsTrim (str "item")) item)))
          (obrace :: obrace :: (str " item " ++ [cbrace, cbrace])))).foldl
            (fun acc part => acc ++ part) []) ++ str "Q") :=
  (c5_foreach_region
    { directives := [], templates := [], sections := [],
      data := [(str "items", .arr [.s (str "A"), .s (str "B")])] }
    (str "items") (str "item") (obrace :: obrace :: (str " item " ++ [cbrace, cbrace]))
    (str "P") (str "Q")
    (by unfold WordDotStr; decide) (by unfold WordStr; decide)
    (by decide) (by decide) (by decide)).1
    [JVal.s (str "A"), JVal.s (str "B")] rfl

/-! ## Raw interpolation inside foreach: C10 -/

theorem head_exprInst (x post : Str) (hx : WordStr x) :
    (Pat.runs patExpr (exprInst x ++ post) []).head? = some (post, capSet 1 x []) := by
  obtain ⟨c, w', rfl⟩ : ∃ c w', x = c :: w' := by
    cases x with
    | nil => exact absurd rfl hx.1
    | cons c w' => exact ⟨c, w', rfl⟩
  have hshape : exprInst (c :: w') ++ post =
      obrace :: (obrace :: ((c :: w') ++ (cbrace :: (cbrace :: post)))) := by
    simp [exprInst]
  rw [hshape]
  show (Pat.runs (.seq (.lit obrace) (.seq (.lit obrace) (.seq wsStar (.seq (dotsLazy 1)
      (.seq wsStar (.seq (.lit cbrace) (.lit cbrace))))))) _ []).head? = _
  simp only [dotsLazy]
  rw [runs_seq_lit, runs_seq_lit]
  simp only [List.cons_append]
  rw [runs_seq_wsStar_skip _ c _ _ (wordChar_not_ws c (hx.2 c (by simp)))]
  refine head_seq_grp_starL_gen 1 isDotChar _ (c :: w') (cbrace :: (cbrace :: post)) [] _
    (fun d hd => wordChar_dot d (hx.2 d hd)) ?_ ?_
  · intro a ha
    obtain ⟨c2, t2, hct, hcw⟩ := properSplits_suffix_shape (c :: w') _ a ha
    rw [hct, runs_seq_wsStar_skip _ c2 _ _ (wordChar_not_ws c2 (hx.2 c2 hcw))]
    exact runs_seq_lit_ne cbrace c2 _ t2 _ (wordChar_ne c2 cbrace (hx.2 c2 hcw) (by decide))
  · rw [runs_seq_wsStar_skip _ cbrace _ _ (by decide), runs_seq_lit, runs_lit_cons_eq]
    simp

theorem matchAt_exprInst (x post : Str) (hx : WordStr x) :
    matchAt patExpr (exprInst x ++ post) = some (capSet 1 x [], post) :=
  matchAt_of_head _ _ _ _ (head_exprInst x post hx)

theorem replaceG_exact (p : Pat) (f : Caps → Str) (inst : Str) (caps : Caps)
    (hm : matchAt p (inst ++ []) = some (caps, [])) (hinst : inst ≠ []) :
    replaceG p f inst = f caps := by
  have h := replaceG_region p f [] inst [] caps (noMatchIn_nil _ _) hm hinst (noMatchIn_nil _ _)
  simpa using h

/-- C10: inside a foreach body an interpolation is substituted raw (the
String coercion of the evaluated value, no HTML escaping), while the
same interpolation outside a loop region goes through escapeHtml. -/
theorem c10_foreach_raw_interpolation (e : Engine) (ex v w pre post pre2 post2 : Str)
    (hex : WordDotStr ex) (hv : WordStr v)
    (hpre : ∀ c ∈ pre, c ≠ '@') (hpost : ∀ c ∈ post, c ≠ '@')
    (hpre2 : ∀ c ∈ pre2, c ≠ obrace) (hpost2 : ∀ c ∈ post2, c ≠ obrace)
    (hitems : ExpressionEvaluator.evaluate ex e.data = .arr [.s w])
    (hitem : ExpressionEvaluator.evaluate v (ctxSet e.data (jsTrim v) (.s w)) = .s w)
    (heval : ExpressionEvaluator.evaluate v e.data = .s w) :
    replaceG patForeach (Engine.foreachMatch e)
      (pre ++ (foreachInst ex v (exprInst v) ++ post)) = pre ++ (w ++ post) ∧
    Engine.processExpressions e (pre2 ++ (exprInst v ++ post2)) =
      pre2 ++ (escapeHtml w ++ post2) := by
  have hbodyAt : ∀ c ∈ exprInst v, c ≠ '@' := by
    intro c hc
    rcases List.mem_cons.mp hc with rfl | hc
    · decide
    · rcases List.mem_cons.mp hc with rfl | hc
      · decide
      · rcases List.mem_append.mp hc with hc | hc
        · exact wordChar_ne c '@' (hv.2 c hc) (by decide)
        · rcases List.mem_cons.mp hc with rfl | hc
          · decide
          · rcases List.mem_singleton.mp hc with rfl
            decide
  constructor
  · rw [replaceG_region patForeach _ pre (foreachInst ex v (exprInst v)) post _
      (noMatchIn_safe _ '@' _ _ rfl hpre)
      (matchAt_foreach ex v (exprInst v) post hex hv hbodyAt)
      (by simp [foreachInst])
      (noMatchIn_safe _ '@' _ _ rfl hpost)]
    have hcaps1 : capGetD 1 (capSet 3 (exprInst v) (capSet 2 v (capSet 1 ex []))) [] = ex := by
      simp [capGetD, capGet, capSet]
    have hcaps2 : capGetD 2 (capSet 3 (exprInst v) (capSet 2 v (capSet 1 ex []))) [] = v := by
      simp [capGetD, capGet, capSet]
    have hcaps3 : capGetD 3 (capSet 3 (exprInst v) (capSet 2 v (capSet 1 ex []))) [] =
        exprInst v := by
      simp [capGetD, capGet, capSet]
    unfold Engine.foreachMatch
    rw [hcaps1, hcaps2, hcaps3]
    dsimp only
    rw [hitems]
    have hinner : replaceG patExpr
        (fun ecs => jsString (ExpressionEvaluator.evaluate (capGetD 1 ecs [])
          (ctxSet e.data (jsTrim v) (.s w)))) (exprInst v) = w := by
      rw [replaceG_exact patExpr _ (exprInst v) (capSet 1 v [])
        (matchAt_exprInst v [] hv) (by simp [exprInst])]
      have : capGetD 1 (capSet 1 v []) [] = v := by simp [capGetD, capGet, capSet]
      rw [this, hitem]
      rfl
    simp only [List.map_cons, List.map_nil, hinner, List.foldl_cons, List.foldl_nil]
    simp
  · unfold Engine.processExpressions
    rw [replaceG_region patExpr _ pre2 (exprInst v) post2 (capSet 1 v [])
      (noMatchIn_safe _ obrace _ _ rfl hpre2)
      (matchAt_exprInst v post2 hv)
      (by simp [exprInst])
      (noMatchIn_safe _ obrace _ _ rfl hpost2)]
    have hc : capGetD 1 (capSet 1 v []) [] = v := by simp [capGetD, capGet, capSet]
    rw [hc, heval]
    rfl

theorem c10_foreach_raw_interpolation_witness :
    escapeHtml (str "<a&>" ++ [dquote, squote]) ≠ str "<a&>" ++ [dquote, squote] ∧
    (replaceG patForeach
      (Engine.foreachMatch
        { directives := [], templates := [], sections := [],
          data := [(str "items", .arr [.s (str "<a&>" ++ [dquote, squote])]),
                   (str "item", .s (str "<a&>" ++ [dquote, squote]))] })
      (str "P" ++ (foreachInst (str "items") (str "item") (exprInst (str "item")) ++ str "Q")) =
      str "P" ++ ((str "<a&>" ++ [dquote, squote]) ++ str "Q") ∧
    Engine.processExpressions
      { directives := [], templates := [], sections := [],
        data := [(str "items", .arr [.s (str "<a&>" ++ [dquote, squote])]),
                 (str "item", .s (str "<a&>" ++ [dquote, squote]))] }
      (str "R" ++ (exprInst (str "item") ++ str "S")) =
      str "R" ++ (escapeHtml (str "<a&>" ++ [dquote, squote]) ++ str "S")) :=
  ⟨by decide,
   c10_foreach_raw_interpolation
    { directives := [], templates := [], sections := [],
      data := [(str "items", .arr [.s (str "<a&>" ++ [dquote, squote])]),
               (str "item", .s (str "<a&>" ++ [dquote, squote]))] }
    (str "items") (str "item") (str "<a&>" ++ [dquote, squote])
    (str "P") (str "Q") (str "R") (str "S")
    (by unfold WordDotStr; decide) (by unfold WordStr; decide)
    (by decide) (by decide) (by decide) (by decide)
    rfl rfl rfl⟩

/-! ## The counting loop default bound: C8 -/

/-- C8: when the upper bound of a counting loop is neither a digit
literal nor a .length reference, and the data lookup of the bound is not
a valid number, the loop iterates exactly as if the bound were 5.  The
positive-step hypothesis h11 confines the statement to the inputs on
which the source loop terminates. -/
theorem c8_for_default_limit (e : Engine) (cs initCaps condCaps incrCaps : Caps)
    (lv limitExpr : Str) (i0 step : Int)
    (h1 : searchFirst patForInit (capGetD 1 cs []) = some initCaps)
    (h2 : capGetD 2 initCaps [] = lv)
    (h3 : jsParseNumber (capGetD 3 initCaps []) = some i0)
    (h4 : searchFirst patForCond (capGetD 2 cs []) = some condCaps)
    (h5 : jsTrim (capGetD 2 condCaps []) = limitExpr)
    (h6 : ¬(limitExpr ≠ [] ∧ limitExpr.all isDigitChar = true))
    (h7 : hasSub (str ".length") limitExpr = false)
    (h8 : jsNumber ((ctxGet e.data limitExpr).getD .undef) = none)
    (h9 : searchFirst patForIncr (capGetD 3 cs []) = some incrCaps)
    (h10 : digitsVal (capGetD 3 incrCaps []) = step)
    (h11 : 0 < step) :
    Engine.processForMatch e cs =
      ((forIndices (some i0) 5 step).map (fun i =>
        replaceG patExpr (fun ecs => Engine.forBodyExpr e lv i (capGetD 1 ecs []))
          (capGetD 4 cs []))).foldl (fun acc part => acc ++ part) [] := by
  unfold Engine.processForMatch
  dsimp only
  rw [h1]
  dsimp only
  rw [h2, h3, h4]
  dsimp only
  rw [h5, if_neg h6, h7]
  simp only [Bool.false_eq_true, if_false]
  rw [h8]
  dsimp only
  rw [h9]
  dsimp only
  rw [h10]

theorem c8_for_default_limit_witness :
    Engine.processForMatch { directives := [], templates := [], sections := [], data := [] }
      (capSet 4 (str "x") (capSet 3 (str "i = i + 1")
        (capSet 2 (str "i < n") (capSet 1 (str "let i = 0") [])))) =
      ((forIndices (some 0) 5 1).map (fun i =>
        replaceG patExpr
          (fun ecs => Engine.forBodyExpr
            { directives := [], templates := [], sections := [], data := [] }
            (str "i") i (capGetD 1 ecs []))
          (capGetD 4 (capSet 4 (str "x") (capSet 3 (str "i = i + 1")
            (capSet 2 (str "i < n") (capSet 1 (str "let i = 0") [])))) []))).foldl
        (fun acc part => acc ++ part) [] :=
  c8_for_default_limit _ _
    [(3, str "0"), (2, str "i"), (1, str "let")]
    [(2, str "n"), (1, str "i")]
    [(3, str "1"), (2, str "i"), (1, str "i")]
    (str "i") (str "n") 0 1
    (by decide) (by decide) (by decide) (by decide) (by decide)
    (by decide) (by decide) (by rfl) (by decide) (by decide) (by decide)

/-! ## Context preservation of the evaluators: C9 -/

/-! State-threaded transcriptions of the evaluator entry points: every
statement of the source that touches the context is rendered as a step
taking the context and handing it back, so that what the source does to
the mapping (only reads: the in-operator, property access, key lookup)
is explicit in the definition, and context preservation is provable
rather than assumed. -/

theorem nestedWalkSt_state (parts : List Str) :
    ∀ (cur : JVal) (st : Ctx), (nestedWalkSt parts cur st).2 = st := by
  induction parts with
  | nil => intro cur st; rfl
  | cons p rest ih =>
    intro cur st
    unfold nestedWalkSt
    repeat' split
    all_goals first | rfl | exact ih _ _

theorem getNestedPropertySt_state (st : Ctx) (path : Str) :
    (ExpressionEvaluator.getNestedPropertySt st path).2 = st := by
  unfold ExpressionEvaluator.getNestedPropertySt
  repeat' split
  all_goals first | rfl | exact nestedWalkSt_state _ _ _

theorem evaluateSt_state (expr : Str) (st : Ctx) :
    (ExpressionEvaluator.evaluateSt expr st).2 = st := by
  unfold ExpressionEvaluator.evaluateSt
  split
  · rfl
  · split
    · split
      next v st1 heq =>
        have h1 : (ExpressionEvaluator.getNestedPropertySt st expr).2 = st1 :=
          congrArg Prod.snd heq
        show st1 = st
        rw [← h1]
        exact getNestedPropertySt_state st expr
      next u st1 heq =>
        have h1 : (ExpressionEvaluator.getNestedPropertySt st expr).2 = st1 :=
          congrArg Prod.snd heq
        show st1 = st
        rw [← h1]
        exact getNestedPropertySt_state st expr
    · rfl

theorem evaluateConditionSt_state (condition : Str) (st : Ctx) :
    (ExpressionEvaluator.evaluateConditionSt condition st).2 = st := by
  unfold ExpressionEvaluator.evaluateConditionSt
  split
  · split
    next v st1 heq =>
      have h1 : (ExpressionEvaluator.getNestedPropertySt st condition).2 = st1 :=
        congrArg Prod.snd heq
      show st1 = st
      rw [← h1]
      exact getNestedPropertySt_state st condition
    next u st1 heq =>
      have h1 : (ExpressionEvaluator.getNestedPropertySt st condition).2 = st1 :=
        congrArg Prod.snd heq
      show st1 = st
      rw [← h1]
      exact getNestedPropertySt_state st condition
  · split
    next v st1 heq =>
      have h1 : (ExpressionEvaluator.evaluateSt condition st).2 = st1 :=
        congrArg Prod.snd heq
      show st1 = st
      rw [← h1]
      exact evaluateSt_state condition st

theorem processObjectPropertySt_state (propExpr : Str) (resultObj st : Ctx) :
    (ExpressionEvaluator.processObjectPropertySt propExpr resultObj st).2 = st := by
  unfold ExpressionEvaluator.processObjectPropertySt
  dsimp only
  repeat' split
  all_goals try rfl
  all_goals exact evaluateSt_state _ st

theorem processChunksSt_state (l : List Str) :
    ∀ (st acc : Ctx), (processChunksSt st l acc).2 = st := by
  induction l with
  | nil => intro st acc; rfl
  | cons p rest ih =>
    intro st acc
    cases rest with
    | nil =>
      show (processChunksSt st [p] acc).2 = st
      unfold processChunksSt
      split
      · rfl
      · exact processObjectPropertySt_state p acc st
    | cons q rest2 =>
      show (processChunksSt st (p :: q :: rest2) acc).2 = st
      unfold processChunksSt
      split
      next acc1 st1 heq =>
        have h1 : st1 = st := by
          have h2 : (ExpressionEvaluator.processObjectPropertySt p acc st).2 = st1 :=
            congrArg Prod.snd heq
          rw [← h2]
          exact processObjectPropertySt_state p acc st
        rw [ih st1 acc1, h1]

theorem evaluateObjectSt_state (objectExpr : Str) (st : Ctx) :
    (ExpressionEvaluator.evaluateObjectSt objectExpr st).2 = st := by
  unfold ExpressionEvaluator.evaluateObjectSt
  dsimp only
  split
  · rfl
  · exact processChunksSt_state _ st []

theorem nestedWalkSt_agree (parts : List Str) :
    ∀ (cur : JVal) (st : Ctx), (nestedWalkSt parts cur st).1 = nestedWalk parts cur := by
  induction parts with
  | nil => intro cur st; rfl
  | cons p rest ih =>
    intro cur st
    unfold nestedWalkSt nestedWalk
    cases cur with
    | nul => rfl
    | undef => rfl
    | b v =>
      cases hin : jsIn p (.b v) with
      | error u => simp [hin, bind, Except.bind]
      | ok isIn =>
        simp only [hin, bind, Except.bind]
        split <;> simp [ih]
    | n i =>
      cases hin : jsIn p (.n i) with
      | error u => simp [hin, bind, Except.bind]
      | ok isIn =>
        simp only [hin, bind, Except.bind]
        split <;> simp [ih]
    | s cs =>
      cases hin : jsIn p (.s cs) with
      | error u => simp [hin, bind, Except.bind]
      | ok isIn =>
        simp only [hin, bind, Except.bind]
        split <;> simp [ih]
    | arr xs =>
      cases hin : jsIn p (.arr xs) with
      | error u => simp [hin, bind, Except.bind]
      | ok isIn =>
        simp only [hin, bind, Except.bind]
        split <;> simp [ih]
    | obj fields =>
      cases hin : jsIn p (.obj fields) with
      | error u => simp [hin, bind, Except.bind]
      | ok isIn =>
        simp only [hin, bind, Except.bind]
        split <;> simp [ih]

theorem getNestedPropertySt_agree (st : Ctx) (path : Str) :
    (ExpressionEvaluator.getNestedPropertySt st path).1 =
      ExpressionEvaluator.getNestedProperty (.obj st) path := by
  unfold ExpressionEvaluator.getNestedPropertySt ExpressionEvaluator.getNestedProperty
  split
  · rfl
  · cases hin : jsIn path (JVal.obj st) with
    | error u => simp [hin, bind, Except.bind]
    | ok topIn =>
      simp only [hin, bind, Except.bind]
      split
      · rfl
      · exact nestedWalkSt_agree _ _ st

theorem evaluateSt_agree (expr : Str) (st : Ctx) :
    (ExpressionEvaluator.evaluateSt expr st).1 = ExpressionEvaluator.evaluate expr st := by
  unfold ExpressionEvaluator.evaluateSt ExpressionEvaluator.evaluate
  split
  · rfl
  · split
    · have h := getNestedPropertySt_agree st expr
      cases hg : ExpressionEvaluator.getNestedPropertySt st expr with
      | mk r st1 =>
        rw [hg] at h
        dsimp at h
        rw [← h]
        cases r <;> rfl
    · rfl

theorem evaluateConditionSt_agree (condition : Str) (st : Ctx) :
    (ExpressionEvaluator.evaluateConditionSt condition st).1 =
      ExpressionEvaluator.evaluateCondition condition st := by
  unfold ExpressionEvaluator.evaluateConditionSt ExpressionEvaluator.evaluateCondition
  split
  · have h := getNestedPropertySt_agree st condition
    cases hg : ExpressionEvaluator.getNestedPropertySt st condition with
    | mk r st1 =>
      rw [hg] at h
      dsimp at h
      rw [← h]
      cases r <;> simp [bind, Except.bind]
  · have h := evaluateSt_agree condition st
    cases hg : ExpressionEvaluator.evaluateSt condition st with
    | mk v st1 =>
      rw [hg] at h
      dsimp at h
      rw [← h]

theorem processObjectPropertySt_agree (propExpr : Str) (resultObj st : Ctx) :
    (ExpressionEvaluator.processObjectPropertySt propExpr resultObj st).1 =
      ExpressionEvaluator.processObjectProperty propExpr resultObj st := by
  unfold ExpressionEvaluator.processObjectPropertySt ExpressionEvaluator.processObjectProperty
  dsimp only
  repeat' split
  all_goals try rfl
  rw [evaluateSt_agree]

theorem processChunksSt_agree (l : List Str) :
    ∀ (st acc : Ctx), (processChunksSt st l acc).1 = processChunks st l acc := by
  induction l with
  | nil => intro st acc; rfl
  | cons p rest ih =>
    intro st acc
    cases rest with
    | nil =>
      show (processChunksSt st [p] acc).1 = processChunks st [p] acc
      unfold processChunksSt processChunks
      split
      · rfl
      · exact processObjectPropertySt_agree p acc st
    | cons q rest2 =>
      show (processChunksSt st (p :: q :: rest2) acc).1 = processChunks st (p :: q :: rest2) acc
      unfold processChunksSt processChunks
      cases hg : ExpressionEvaluator.processObjectPropertySt p acc st with
      | mk acc1 st1 =>
        have hst : st1 = st := by
          have h2 : (ExpressionEvaluator.processObjectPropertySt p acc st).2 = st1 := by
            rw [hg]
          rw [← h2]
          exact processObjectPropertySt_state p acc st
        have hacc : acc1 = ExpressionEvaluator.processObjectProperty p acc st := by
          have h2 : (ExpressionEvaluator.processObjectPropertySt p acc st).1 = acc1 := by
            rw [hg]
          rw [← h2]
          exact processObjectPropertySt_agree p acc st
        rw [hst, hacc] at *
        rw [ih st _]

theorem evaluateObjectSt_agree (objectExpr : Str) (st : Ctx) :
    (ExpressionEvaluator.evaluateObjectSt objectExpr st).1 =
      ExpressionEvaluator.evaluateObject objectExpr st := by
  unfold ExpressionEvaluator.evaluateObjectSt ExpressionEvaluator.evaluateObject
  dsimp only
  split
  · rfl
  · rw [processChunksSt_agree]

/-- C9: evaluate, evaluateCondition, evaluateObject and getNestedProperty
leave the context mapping untouched: in the statement-level transcriptions
that thread the context through every step, the context handed back is
the context handed in, on success and on failure alike — and the values
they compute agree with the direct transcriptions. -/
theorem c9_context_preservation :
    (∀ (st : Ctx) (path : Str),
      (ExpressionEvaluator.getNestedPropertySt st path).2 = st ∧
      (ExpressionEvaluator.getNestedPropertySt st path).1 =
        ExpressionEvaluator.getNestedProperty (.obj st) path) ∧
    (∀ (expr : Str) (st : Ctx),
      (ExpressionEvaluator.evaluateSt expr st).2 = st ∧
      (ExpressionEvaluator.evaluateSt expr st).1 = ExpressionEvaluator.evaluate expr st) ∧
    (∀ (condition : Str) (st : Ctx),
      (ExpressionEvaluator.evaluateConditionSt condition st).2 = st ∧
      (ExpressionEvaluator.evaluateConditionSt condition st).1 =
        ExpressionEvaluator.evaluateCondition condition st) ∧
    (∀ (objectExpr : Str) (st : Ctx),
      (ExpressionEvaluator.evaluateObjectSt objectExpr st).2 = st ∧
      (ExpressionEvaluator.evaluateObjectSt objectExpr st).1 =
        ExpressionEvaluator.evaluateObject objectExpr st) :=
  ⟨fun st path => ⟨getNestedPropertySt_state st path, getNestedPropertySt_agree st path⟩,
   fun expr st => ⟨evaluateSt_state expr st, evaluateSt_agree expr st⟩,
   fun c st => ⟨evaluateConditionSt_state c st, evaluateConditionSt_agree c st⟩,
   fun o st => ⟨evaluateObjectSt_state o st, evaluateObjectSt_agree o st⟩⟩

/-! ## The dependency analyzer: C7 -/

theorem assocGet_mem {α : Type} (m : List (Str × α)) (k : Str) (v : α)
    (h : assocGet m k = some v) : (k, v) ∈ m := by
  unfold assocGet at h
  cases hf : m.find? (fun p => p.1 = k) with
  | none => rw [hf] at h; cases h
  | some pair =>
    rw [hf] at h
    have h2 : pair.2 = v := by simpa using h
    have h3 : pair ∈ m := List.mem_of_find?_eq_some hf
    have h4 : pair.1 = k := by simpa using List.find?_some hf
    have h5 : pair = (k, v) := by
      rcases pair with ⟨a, b⟩
      simp only at h2 h4
      simp [h2, h4]
    rwa [h5] at h3

theorem takeWhile_append_drop_own (p : Char → Bool) (l : Str) :
    l.takeWhile p ++ l.drop (l.takeWhile p).length = l := by
  induction l with
  | nil => rfl
  | cons c t ih =>
    by_cases hp : p c
    · simp [List.takeWhile, hp, ih]
    · simp [List.takeWhile, hp]

theorem isPrefixOf_append_drop (pre s : Str) (h : pre.isPrefixOf s = true) :
    pre ++ s.drop pre.length = s := by
  obtain ⟨u, hu⟩ := List.isPrefixOf_iff_prefix.mp h
  have hd : s.drop pre.length = u := by
    rw [← hu]
    exact List.drop_left _ _
  rw [hd, hu]

theorem engine_get_ok (e : Engine) (n c : Str)
    (h : Engine.getTemplateContent e n = .ok c) : assocGet e.templates n = some c := by
  unfold Engine.getTemplateContent at h
  cases hg : assocGet e.templates n with
  | none => rw [hg] at h; cases h
  | some t =>
    rw [hg] at h
    dsimp only at h
    by_cases ht : t = []
    · rw [if_pos ht] at h; cases h
    · rw [if_neg ht] at h
      rw [Except.ok.inj h]

theorem resolvable_mem (b : BladeHtml) (n : Str)
    (h : BladeHtml.getTemplateContent b n ≠ []) : n ∈ resolvableNames b := by
  unfold BladeHtml.getTemplateContent at h
  cases hra : BladeHtml.resolveAlias b n with
  | none =>
    rw [hra] at h
    dsimp only at h
    cases hg : Engine.getTemplateContent b.engine n with
    | error e => rw [hg] at h; simp at h
    | ok c =>
      have hm := assocGet_mem _ _ _ (engine_get_ok _ _ _ hg)
      unfold resolvableNames
      exact List.mem_append_left _ (List.mem_map.mpr ⟨(n, c), hm, rfl⟩)
  | some pr =>
    rcases pr with ⟨dir, rest⟩
    rw [hra] at h
    dsimp only at h
    cases hg : Engine.getTemplateContent b.engine (dir ++ str "::" ++ rest) with
    | error e => rw [hg] at h; simp at h
    | ok c =>
      unfold BladeHtml.resolveAlias at hra
      dsimp only at hra
      by_cases h1 : n.takeWhile isWordHyphen ≠ [] ∧
          (str "::").isPrefixOf (n.drop (n.takeWhile isWordHyphen).length) = true
      · rw [if_pos h1] at hra
        by_cases h2 : (n.drop (n.takeWhile isWordHyphen).length).drop 2 ≠ [] ∧
            ((n.drop (n.takeWhile isWordHyphen).length).drop 2).all isDotChar = true
        · rw [if_pos h2] at hra
          cases hal : assocGet b.aliases (n.takeWhile isWordHyphen) with
          | none => rw [hal] at hra; cases hra
          | some dir2 =>
            rw [hal] at hra
            dsimp only at hra
            have hpair := Option.some_inj.mp hra
            injection hpair with hdir hrest
            rw [hdir] at hal
            have hm := assocGet_mem _ _ _ (engine_get_ok _ _ _ hg)
            have halmem := assocGet_mem _ _ _ hal
            unfold resolvableNames
            apply List.mem_append_right
            apply List.mem_flatMap.mpr
            refine ⟨(n.takeWhile isWordHyphen, dir), halmem, ?_⟩
            apply List.mem_filterMap.mpr
            refine ⟨(dir ++ str "::" ++ rest, c), hm, ?_⟩
            have hcond : ((dir ++ str "::").isPrefixOf (dir ++ str "::" ++ rest)) = true := by
              exact List.isPrefixOf_iff_prefix.mpr ⟨rest, by simp⟩
            rw [if_pos hcond]
            have hdroplen : (dir ++ str "::" ++ rest).drop (dir.length + 2) = rest := by
              have hlen : (dir ++ str "::").length = dir.length + 2 := by simp [str]
              rw [← hlen]
              exact List.drop_left _ _
            rw [hdroplen]
            have hsplit1 := takeWhile_append_drop_own isWordHyphen n
            have hpre := isPrefixOf_append_drop (str "::")
              (n.drop (n.takeWhile isWordHyphen).length) h1.2
            have hlen2 : (str "::").length = 2 := rfl
            rw [hlen2] at hpre
            rw [hrest] at hpre
            conv_rhs => rw [← hsplit1, ← hpre]
            simp
        · rw [if_neg h2] at hra; cases hra
      · rw [if_neg h1] at hra; cases hra

theorem sum_filter_notMem_cons_le (f : Str → Nat) (n : Str) (p : List Str) :
    ∀ L : List Str,
      ((L.filter (fun m => m ∉ n :: p)).map f).sum ≤
        ((L.filter (fun m => m ∉ p)).map f).sum := by
  intro L
  induction L with
  | nil => simp
  | cons x L ih =>
    simp only [List.filter_cons]
    by_cases hxp : x ∈ p
    · have hd1 : decide (x ∉ n :: p) = false := by simp [hxp]
      have hd2 : decide (x ∉ p) = false := by simp [hxp]
      rw [hd1, hd2]
      simpa using ih
    · by_cases hxn : x = n
      · have hd1 : decide (x ∉ n :: p) = false := by simp [hxn]
        have hd2 : decide (x ∉ p) = true := by simp [hxp]
        rw [hd1, hd2]
        simp only [Bool.false_eq_true, if_false, if_true, List.map_cons, List.sum_cons]
        omega
      · have hd1 : decide (x ∉ n :: p) = true := by simp [hxn, hxp]
        have hd2 : decide (x ∉ p) = true := by simp [hxp]
        rw [hd1, hd2]
        simp only [if_true, List.map_cons, List.sum_cons]
        omega

theorem sum_filter_remove (f : Str → Nat) (n : Str) (p : List Str) (hnp : n ∉ p) :
    ∀ L : List Str, L.Nodup → n ∈ L →
      ((L.filter (fun m => m ∉ p)).map f).sum =
        f n + ((L.filter (fun m => m ∉ n :: p)).map f).sum := by
  intro L
  induction L with
  | nil => simp
  | cons x L ih =>
    intro hnd hmem
    simp only [List.filter_cons]
    rcases List.mem_cons.mp hmem with heq | hmem2
    · obtain rfl : n = x := heq
      have hnL : n ∉ L := (List.nodup_cons.mp hnd).1
      have hfilt : L.filter (fun m => decide (m ∉ n :: p)) =
          L.filter (fun m => decide (m ∉ p)) := by
        apply List.filter_congr
        intro m hm
        have hmn : m ≠ n := fun he => hnL (he ▸ hm)
        simp [hmn]
      have hd1 : decide (n ∉ p) = true := by simp [hnp]
      have hd2 : decide (n ∉ n :: p) = false := by simp
      rw [hd1, hd2, hfilt]
      simp
    · have hnd2 := (List.nodup_cons.mp hnd).2
      have hxn : x ≠ n := fun he => (List.nodup_cons.mp hnd).1 (he ▸ hmem2)
      by_cases hxp : x ∈ p
      · have hd1 : decide (x ∉ p) = false := by simp [hxp]
        have hd2 : decide (x ∉ n :: p) = false := by simp [hxp]
        rw [hd1, hd2]
        simpa using ih hnd2 hmem2
      · have hd1 : decide (x ∉ p) = true := by simp [hxp]
        have hd2 : decide (x ∉ n :: p) = true := by simp [hxn, hxp]
        rw [hd1, hd2]
        simp only [if_true, List.map_cons, List.sum_cons]
        rw [ih hnd2 hmem2]
        omega

theorem weight_le (b : BladeHtml) (n : Str) (p : List Str) :
    analyzerWeight b (n :: p) ≤ analyzerWeight b p :=
  sum_filter_notMem_cons_le (pushCount b) n p (resolvableNames b).dedup

theorem weight_step (b : BladeHtml) (n : Str) (p : List Str)
    (hres : BladeHtml.getTemplateContent b n ≠ []) (hnp : n ∉ p) :
    analyzerWeight b p = pushCount b n + analyzerWeight b (n :: p) :=
  sum_filter_remove (pushCount b) n p hnp (resolvableNames b).dedup
    (List.nodup_dedup _) (List.mem_dedup.mpr (resolvable_mem b n hres))

theorem analyzeLoopF_stable (b : BladeHtml) :
    ∀ (fuel : Nat) (queue processed used : List Str),
      queue.length + analyzerWeight b processed ≤ fuel →
      BladeHtml.analyzeLoopF b fuel queue processed used =
        BladeHtml.analyzeLoopF b (fuel + 1) queue processed used := by
  intro fuel
  induction fuel with
  | zero =>
    intro queue processed used hle
    cases queue with
    | nil => rfl
    | cons x q => simp at hle
  | succ m ih =>
    intro queue processed used hle
    cases queue with
    | nil => rfl
    | cons tname q =>
      show BladeHtml.analyzeLoopF b (m + 1) (tname :: q) processed used =
        BladeHtml.analyzeLoopF b (m + 1 + 1) (tname :: q) processed used
      unfold BladeHtml.analyzeLoopF
      dsimp only
      have hle2 : q.length + 1 + analyzerWeight b processed ≤ m + 1 := by
        simpa using hle
      by_cases hmem : tname ∈ processed
      · rw [if_pos hmem, if_pos hmem]
        apply ih
        omega
      · rw [if_neg hmem, if_neg hmem]
        by_cases hc : BladeHtml.getTemplateContent b tname = []
        · rw [if_pos hc, if_pos hc]
          apply ih
          have h2 := weight_le b tname processed
          omega
        · rw [if_neg hc, if_neg hc]
          apply ih
          have hw := weight_step b tname processed hc hmem
          have hlen : (q ++ analyzePushes (BladeHtml.getTemplateContent b tname)).length =
              q.length + pushCount b tname := by
            simp [pushCount]
          rw [hlen]
          omega

theorem analyzeLoopF_ge (b : BladeHtml) :
    ∀ (k fuel : Nat) (queue processed used : List Str),
      queue.length + analyzerWeight b processed ≤ fuel →
      BladeHtml.analyzeLoopF b (fuel + k) queue processed used =
        BladeHtml.analyzeLoopF b fuel queue processed used := by
  intro k
  induction k with
  | zero => intro fuel queue processed used _; rfl
  | succ j ih =>
    intro fuel queue processed used hle
    have h2 := analyzeLoopF_stable b (fuel + j) queue processed used (by omega)
    calc BladeHtml.analyzeLoopF b (fuel + (j + 1)) queue processed used
        = BladeHtml.analyzeLoopF b ((fuel + j) + 1) queue processed used := by
          rw [show fuel + (j + 1) = (fuel + j) + 1 from by omega]
      _ = BladeHtml.analyzeLoopF b (fuel + j) queue processed used := h2.symm
      _ = BladeHtml.analyzeLoopF b fuel queue processed used := ih fuel queue processed used hle

/-- C7: the dependency analyzer records a component reference under both
its namespaced and bare spellings (shown on a root that extends a layout
and references components.alert in a section body), and its reference
walk is insensitive to any fuel at or beyond the computed bound, for
every registry state: the traversal has converged within the bound even
under cyclic or unresolvable references. -/
theorem c7_analyzer_dependencies :
    (str "components.alert" ∈
      BladeHtml.analyzeTemplateDependencies
        (BladeHtml.registerTemplate
          (BladeHtml.registerTemplate BladeHtml.new (str "root")
            (extendsInst (str "layout") ++ sectionInst (str "content")
              (str "@component(" ++ squote :: str "components.alert" ++ squote ::
                str ")@endcomponent")))
          (str "layout") (yieldBareInst (str "content")))
        (str "root") ∧
     str "alert" ∈
      BladeHtml.analyzeTemplateDependencies
        (BladeHtml.registerTemplate
          (BladeHtml.registerTemplate BladeHtml.new (str "root")
            (extendsInst (str "layout") ++ sectionInst (str "content")
              (str "@component(" ++ squote :: str "components.alert" ++ squote ::
                str ")@endcomponent")))
          (str "layout") (yieldBareInst (str "content")))
        (str "root")) ∧
    (∀ (b : BladeHtml) (root : Str) (fuel : Nat), analyzerFuel b ≤ fuel →
      BladeHtml.analyzeLoopF b fuel [root] [] [] =
        BladeHtml.analyzeTemplateDependencies b root) := by
  constructor
  · constructor
    · decide
    · decide
  · intro b root fuel hle
    unfold BladeHtml.analyzeTemplateDependencies
    have hbase : ([root] : List Str).length + analyzerWeight b [] ≤ analyzerFuel b := by
      unfold analyzerFuel
      simp
    obtain ⟨k, hk⟩ : ∃ k, fuel = analyzerFuel b + k :=
      ⟨fuel - analyzerFuel b, by omega⟩
    rw [hk]
    exact analyzeLoopF_ge b k (analyzerFuel b) [root] [] [] hbase

theorem c7_analyzer_dependencies_witness :
    BladeHtml.analyzeLoopF
      (BladeHtml.registerTemplate
        (BladeHtml.registerTemplate BladeHtml.new (str "a")
          (str "@include(" ++ squote :: str "b" ++ squote :: str ")"))
        (str "b") (str "@include(" ++ squote :: str "a" ++ squote :: str ")"))
      (analyzerFuel
        (BladeHtml.registerTemplate
          (BladeHtml.registerTemplate BladeHtml.new (str "a")
            (str "@include(" ++ squote :: str "b" ++ squote :: str ")"))
          (str "b") (str "@include(" ++ squote :: str "a" ++ squote :: str ")")) + 7)
      [str "a"] [] [] =
      BladeHtml.analyzeTemplateDependencies
        (BladeHtml.registerTemplate
          (BladeHtml.registerTemplate BladeHtml.new (str "a")
            (str "@include(" ++ squote :: str "b" ++ squote :: str ")"))
          (str "b") (str "@include(" ++ squote :: str "a" ++ squote :: str ")"))
        (str "a") :=
  (c7_analyzer_dependencies).2
    (BladeHtml.registerTemplate
      (BladeHtml.registerTemplate BladeHtml.new (str "a")
        (str "@include(" ++ squote :: str "b" ++ squote :: str ")"))
      (str "b") (str "@include(" ++ squote :: str "a" ++ squote :: str ")"))
    (str "a") _ (by omega)
